import Mathlib

/-!
# Verification of the parity-game solution verifier (`src/verifier.cpp`)

Shallow embedding of `pg::Verifier::verify`.

* Node indices, priorities and edge targets are natural numbers (the source
  uses non-negative `int`s).  Arrays indexed by node are total functions on
  `Nat`; only the indices below `n_nodes` are ever read by the loops.
* `owner` and `winner` are bits: `false` is player Even (0), `true` is
  player Odd (1).
* `verify` receives the game after `reindex_once()`; that function is not
  part of the verifier and is taken as already applied.
* `pre` and `bot` are `int64_t` counters: `pre` grows from 0 by one in an iteration of the
  search loop, so it stays far below `2^63` and is a natural number.  `low` is an
  `int64_t` array and holds integers, because line 188 stores the `int` variable `min` in
  it.  `min` (line 165) and `scc_size` (line 199) are 32-bit `int`s: every assignment to
  `min` goes through `toInt32`, and a count of `scc_size` past `2^31 - 1` has no defined
  result.

The second part embeds the driver loop `pg::PPPSolver::run` (`src/ppp.cpp`) and the
sortedness check of `pg::Solver::Solver` (`src/solver.hpp`).

* `run` is a step function on configurations (head of the outer loop, head of the inner
  loop at a priority, finished, fault); scan indices, thresholds and statuses are `Int`.
* The operations of `PPSolver` that `run` calls are the fields of an `Engine`, free to
  return anything; every call is recorded in a log.
* An index outside its array and a read of a never-written cell of `inverse` end the run in
  a fault.
-/

namespace pg

/-- The game container as read by the verifier: the graph and the claimed solution. -/
structure Game where
  n_nodes : Nat
  priority : Nat → Nat
  owner : Nat → Bool
  out : Nat → List Nat
  solved : Nat → Bool
  winner : Nat → Bool
  strategy : Nat → List Nat

/-- The texts thrown by `verify`, one constructor per `throw`. -/
inductive VerifyError where
  | notEveryNodeWon
  | nonDeterministicStrategy
  | winningNodeHasNoStrategy
  | strategyLeavesDominion
  | strategyNotValidMove
  | loserCanEscape
  | losingNodeHasStrategy
  | loserCanWin (max_p : Int) (scc : List Nat)
  deriving DecidableEq, Repr

/-- Result of running (a part of) `verify`: normal return, a thrown failure, or no
verdict: the iterations granted to the search loop ran out, or the source has no defined
result (the `int` counter `scc_size` would overflow). -/
inductive Outcome (α : Type) where
  | ok (a : α)
  | fail (e : VerifyError)
  | timeout
  deriving DecidableEq, Repr

/-- The bit `p & 1` as a player. -/
def parityBit (p : Nat) : Bool := decide (p % 2 = 1)

/-- State of the first loop: the restricted adjacency `out` being built and
the counter `n_strategies`. -/
structure Pass1 where
  out : Nat → List Nat
  n_strategies : Nat

/-- One iteration of the first loop of `verify` (lines 56-108) at node `i`. -/
def checkNode (g : Game) (fullgame even odd : Bool) (i : Nat) (s : Pass1) : Outcome Pass1 :=
  if g.solved i = false then
    if fullgame then .fail .notEveryNodeWon else .ok s
  else
    let dom := g.winner i
    if (g.strategy i).length > 1 then .fail .nonDeterministicStrategy
    else
      let out1 : Nat → List Nat :=
        match g.strategy i with
        | [] => Function.update s.out i (s.out i ++ g.out i)
        | s0 :: _ => Function.update s.out i (s.out i ++ [s0])
      if dom = g.owner i then
        if (even && dom == false) || (odd && dom == true) then
          match g.strategy i with
          | [] => .fail .winningNodeHasNoStrategy
          | t :: _ =>
            if g.solved t = false ∨ g.winner t ≠ dom then .fail .strategyLeavesDominion
            else if t ∉ g.out i then .fail .strategyNotValidMove
            else .ok ⟨out1, s.n_strategies + 1⟩
        else .ok ⟨out1, s.n_strategies⟩
      else
        if (g.out i).any (fun t => g.solved t = false ∨ g.winner t ≠ dom) then
          .fail .loserCanEscape
        else if g.strategy i ≠ [] then .fail .losingNodeHasStrategy
        else .ok ⟨out1, s.n_strategies⟩

/-- The first loop after its first `k` iterations (nodes `0 .. k-1`). -/
def pass1 (g : Game) (fullgame even odd : Bool) : Nat → Outcome Pass1
  | 0 => .ok ⟨fun _ => [], 0⟩
  | k + 1 =>
    match pass1 g fullgame even odd k with
    | .ok s => checkNode g fullgame even odd k s
    | .fail e => .fail e
    | .timeout => .timeout

/-- Conversion of an `int64_t` value to `int` (32 bits, two's complement): the value
modulo `2^32`, taken in the range from `-2^31` to `2^31 - 1`. -/
def toInt32 (x : Int) : Int := (x + 2147483648) % 4294967296 - 2147483648

/-- Variables of the second loop: `done`, `low` (`int64_t`, which can hold the negative
values that line 188 copies from the `int` variable `min`), the vector `res` (last element
first), the stack `st` (top first) and the counter `pre`. -/
structure Tarjan where
  done : Nat → Int
  low : Nat → Int
  res : List Nat
  st : List Nat
  pre : Nat

/-- Result of the scan over the allowed edges of a node (lines 167-180). -/
inductive Scan where
  | pushed (tgt : Nat)
  | finished (min : Int)
  deriving DecidableEq, Repr

/-- The `for (auto to : out[idx])` loop of lines 167-180, with running `min`, an `int`:
the assignment `min = low[to]` of line 178 converts the 64-bit value. -/
def scanEdges (i p bot : Nat) (done : Nat → Int) (low : Nat → Int) : List Nat → Int → Scan
  | [], min => .finished min
  | t :: rest, min =>
    if t > i then scanEdges i p bot done low rest min
    else if done t = (p : Int) then scanEdges i p bot done low rest min
    else if low t ≤ (bot : Int) then .pushed t
    else scanEdges i p bot done low rest (if low t < min then toInt32 (low t) else min)

/-- Accumulator of the loop of lines 201-207: `max_p`, `scc_size`, `done`. -/
structure SccAcc where
  max_p : Int
  scc_size : Nat
  done : Nat → Int

/-- The loop of lines 201-207 over `res` from its back down to `idx`. -/
def markScc (priority : Nat → Nat) (p idx : Nat) : List Nat → SccAcc → SccAcc
  | [], a => a
  | n :: rest, a =>
    let a1 : SccAcc :=
      ⟨if (priority n : Int) > a.max_p then (priority n : Int) else a.max_p,
        a.scc_size + 1, Function.update a.done n (p : Int)⟩
    if n = idx then a1 else markScc priority p idx rest a1

/-- The nodes printed by the report loop of lines 214-218. -/
def sccMembers (idx : Nat) : List Nat → List Nat
  | [] => []
  | n :: rest => if n = idx then [n] else n :: sccMembers idx rest

/-- The loop of lines 229-233: pop `res` down to and including `idx`. -/
def popScc (idx : Nat) : List Nat → List Nat
  | [] => []
  | n :: rest => if n = idx then rest else popScc idx rest

/-- Lines 155-158: the node on top of the stack receives the next number and is added to
`res` when it has none in the current search. -/
def numberTop (bot : Nat) (s : Tarjan) (idx : Nat) : Tarjan :=
  if s.low idx ≤ (bot : Int) then
    { s with low := Function.update s.low idx ((s.pre + 1 : Nat) : Int), pre := s.pre + 1,
             res := idx :: s.res }
  else s

/-- Lines 198-234: `idx` is the root of a component. The counter `scc_size` is an `int`:
when the loop of lines 201-207 would count past `2^31 - 1` the source has no defined result
and the step gives no verdict. -/
def rootStep (priority : Nat → Nat) (out : Nat → List Nat) (p : Nat) (s1 : Tarjan)
    (idx : Nat) (rest : List Nat) : Outcome Tarjan :=
  let a := markScc priority p idx s1.res ⟨-1, 0, s1.done⟩
  if a.scc_size ≥ 2147483648 then .timeout
  else
    let cycles : Bool := decide (a.scc_size > 1) || decide (idx ∈ out idx)
    if cycles && decide (a.max_p % 2 = (p : Int) % 2) then
      .fail (.loserCanWin a.max_p (sccMembers idx s1.res))
    else
      .ok { s1 with done := a.done, res := popScc idx s1.res, st := rest }

/-- One iteration of `while (!st.empty())` (lines 150-234) with `idx` on top
of the stack and `rest` below it. Line 165 converts `low[idx]` to the `int` variable `min`;
the comparison of line 186 is made in 64 bits. -/
def searchStep (priority : Nat → Nat) (out : Nat → List Nat) (i p bot : Nat)
    (s : Tarjan) (idx : Nat) (rest : List Nat) : Outcome Tarjan :=
  let s1 := numberTop bot s idx
  match scanEdges i p bot s1.done s1.low (out idx) (toInt32 (s1.low idx)) with
  | .pushed t => .ok { s1 with st := t :: idx :: rest }
  | .finished min =>
    if min < s1.low idx then
      .ok { s1 with low := Function.update s1.low idx min, st := rest }
    else rootStep priority out p s1 idx rest

/-- The loop `while (!st.empty())` run for at most `fuel` iterations. -/
def searchLoop (priority : Nat → Nat) (out : Nat → List Nat) (i p bot : Nat) :
    Nat → Tarjan → Outcome Tarjan
  | 0, _ => .timeout
  | fuel + 1, s =>
    match s.st with
    | [] => .ok s
    | idx :: rest =>
      match searchStep priority out i p bot s idx rest with
      | .ok s1 => searchLoop priority out i p bot fuel s1
      | .fail e => .fail e
      | .timeout => .timeout

/-- Number of iterations that `verify` grants to one search: `2 * n_nodes + 2`, which a
search needs at most as long as every number it assigns fits an `int`. -/
def searchFuel (n_nodes : Nat) : Nat := 2 * n_nodes + 2

/-- One iteration of the second outer loop (lines 121-236) at node `i`, with `fuel`
iterations granted to the search loop. -/
def searchFrom (fuel : Nat) (g : Game) (out : Nat → List Nat) (even odd : Bool) (i : Nat)
    (s : Tarjan) : Outcome Tarjan :=
  let p := g.priority i
  if g.solved i = false ∨ g.winner i = parityBit p then .ok s
  else if odd = false ∧ p % 2 = 0 then .ok s
  else if even = false ∧ p % 2 = 1 then .ok s
  else if s.done i = (p : Int) then .ok s
  else
    searchLoop g.priority out i p s.pre fuel { s with st := i :: s.st }

/-- The second outer loop for `i = k-1` down to `0`. -/
def pass2 (fuel : Nat) (g : Game) (out : Nat → List Nat) (even odd : Bool) :
    Nat → Tarjan → Outcome Tarjan
  | 0, s => .ok s
  | k + 1, s =>
    match searchFrom fuel g out even odd k s with
    | .ok s1 => pass2 fuel g out even odd k s1
    | .fail e => .fail e
    | .timeout => .timeout

/-- Initial values of the search variables (lines 111-119). -/
def initTarjan : Tarjan := ⟨fun _ => -1, fun _ => 0, [], [], 0⟩

/-- The function `Verifier::verify(fullgame, even, odd)` with `fuel` iterations granted to
each run of the search loop; on normal return the value is the number of times
`n_strategies` was incremented. The source has no such bound: it fails with an error `e`
exactly when `verifyFuel fuel` does for some `fuel`. -/
def verifyFuel (fuel : Nat) (g : Game) (fullgame even odd : Bool) : Outcome Nat :=
  match pass1 g fullgame even odd g.n_nodes with
  | .fail e => .fail e
  | .timeout => .timeout
  | .ok s1 =>
    match pass2 fuel g s1.out even odd g.n_nodes initTarjan with
    | .fail e => .fail e
    | .timeout => .timeout
    | .ok _ => .ok s1.n_strategies

/-- The function `Verifier::verify(fullgame, even, odd)`, each search with the budget
`searchFuel`. -/
def verify (g : Game) (fullgame even odd : Bool) : Outcome Nat :=
  verifyFuel (searchFuel g.n_nodes) g fullgame even odd

/-- Normal return of `verify`. -/
def Succeeds (r : Outcome Nat) : Prop := ∃ k, r = .ok k

/-- The game of the concrete scenarios (`tools/counter_core.cpp`, lines 35-41),
all nodes solved and won by Even, with the given strategy of node 1. -/
def scenarioGame (strat1 : List Nat) : Game where
  n_nodes := 3
  priority := fun i => if i = 0 then 5 else 0
  owner := fun i => decide (i = 2)
  out := fun i => if i = 0 then [1] else if i = 1 then [2] else if i = 2 then [2, 1] else []
  solved := fun i => decide (i < 3)
  winner := fun _ => false
  strategy := fun i => if i = 0 then [1] else if i = 1 then strat1 else []

/-- The same game with its nodes renumbered by ascending priority
(old 1, old 2, old 0 become 0, 1, 2). -/
def scenarioGameSorted (strat0 : List Nat) : Game where
  n_nodes := 3
  priority := fun i => if i = 2 then 5 else 0
  owner := fun i => decide (i = 1)
  out := fun i => if i = 2 then [0] else if i = 0 then [1] else if i = 1 then [1, 0] else []
  solved := fun i => decide (i < 3)
  winner := fun _ => false
  strategy := fun i => if i = 2 then [0] else if i = 0 then strat0 else []

/-- A one-node game whose only node is solved and carries two strategy edges. -/
def twoEdgeSolvedGame : Game where
  n_nodes := 1
  priority := fun _ => 0
  owner := fun _ => false
  out := fun _ => [0]
  solved := fun _ => true
  winner := fun _ => false
  strategy := fun _ => [0, 0]

/-- Two self-loops: node 0 is owned and won by Even, node 1 is owned and won by Odd. -/
def twoDominionGame : Game where
  n_nodes := 2
  priority := fun i => i
  owner := fun i => decide (i = 1)
  out := fun i => [i]
  solved := fun _ => true
  winner := fun i => decide (i = 1)
  strategy := fun i => [i]

/-- Nodes 0 and 1 are owned by Odd and won by Even, with edges 0 -> 1 and 1 -> 1. -/
def losingChainGame : Game where
  n_nodes := 2
  priority := fun _ => 0
  owner := fun _ => true
  out := fun _ => [1]
  solved := fun _ => true
  winner := fun _ => false
  strategy := fun _ => []

/-- One node of priority 1, owned and claimed won by Even, whose strategy is its self-loop. -/
def selfLoopLoserGame : Game where
  n_nodes := 1
  priority := fun _ => 1
  owner := fun _ => false
  out := fun _ => [0]
  solved := fun _ => true
  winner := fun _ => false
  strategy := fun _ => [0]

/-- Node `i` passes the checks made on it by the first loop. -/
def PassesLocalChecks (g : Game) (fullgame even odd : Bool) (i : Nat) : Prop :=
  ∀ s, ∃ s1, checkNode g fullgame even odd i s = .ok s1

/-- The claimed solution with the strategy of node `i` replaced by the single edge to `t`. -/
def setStrategy (g : Game) (i t : Nat) : Game :=
  { g with strategy := Function.update g.strategy i [t] }

/-- A one-node game whose only node is unsolved and carries two strategy edges. -/
def twoEdgeStrategyGame : Game where
  n_nodes := 1
  priority := fun _ => 0
  owner := fun _ => false
  out := fun _ => [0]
  solved := fun _ => false
  winner := fun _ => false
  strategy := fun _ => [0, 0]

/-- Out-edges of a solved node in the restricted graph: only the strategy edge when the
node has a strategy, all original out-edges otherwise. -/
def restricted (g : Game) (x : Nat) : List Nat :=
  match g.strategy x with
  | [] => g.out x
  | t :: _ => [t]

/-- The list `c = [u0, ..., um]` is a cycle of the graph `E`: every element has an edge to
the next one and the last one has an edge to the first. -/
def IsCycle (E : Nat → List Nat) : List Nat → Prop
  | [] => False
  | a :: l => List.Chain (fun x y => y ∈ E x) a (l ++ [a])

/-- The value `mp` is the maximum priority of the nodes in `c`. -/
def IsMaxPriority (g : Game) (c : List Nat) (mp : Nat) : Prop :=
  (∃ x ∈ c, g.priority x = mp) ∧ ∀ x ∈ c, g.priority x ≤ mp

/-- Priorities are non-decreasing in the node index. -/
def SortedPriorities (g : Game) : Prop :=
  ∀ i, i + 1 < g.n_nodes → g.priority i ≤ g.priority (i + 1)

/-- Edges of `out` whose target has index at most `b`. -/
def EdgeBelow (out : Nat → List Nat) (b : Nat) (x y : Nat) : Prop := y ∈ out x ∧ y ≤ b

/-- What a "loser can win" failure of a search from `i` reports: a cycle of `out` through
exactly the reported nodes, all reachable from `i`, with maximum priority `max_p`, of the
parity of `p`. -/
def LoserCycle (priority : Nat → Nat) (out : Nat → List Nat) (i p : Nat) (max_p : Int)
    (scc : List Nat) : Prop :=
  ∃ c : List Nat, IsCycle out c ∧ (∀ x, x ∈ c ↔ x ∈ scc) ∧
    (∀ x ∈ c, x ≤ i ∧ Relation.ReflTransGen (fun a b => b ∈ out a) i x) ∧
    (∃ x ∈ c, (priority x : Int) = max_p) ∧ (∀ x ∈ c, (priority x : Int) ≤ max_p) ∧
    max_p % 2 = (p : Int) % 2

/-- Node `c` passes the tests of lines 130-132: it is solved, its priority has the parity
of the player who lost it, and the side of its winner is under test. -/
def Relevant (g : Game) (even odd : Bool) (c : Nat) : Prop :=
  ¬ (g.solved c = false ∨ g.winner c = parityBit (g.priority c)) ∧
  ¬ (odd = false ∧ g.priority c % 2 = 0) ∧ ¬ (even = false ∧ g.priority c % 2 = 1)

/-! ## The search with exact arithmetic

The same loops with `min` kept as an exact number instead of an `int`. The search of
`verify` agrees with this one as long as every number it assigns is below `2^31`
(`searchStep_exact`); the invariants of the search are stated and proved for it. -/

namespace Exact

/-- Variables of the second loop: `done`, `low`, the vector `res` (last element
first), the stack `st` (top first) and the counter `pre`. -/
structure Tarjan where
  done : Nat → Int
  low : Nat → Nat
  res : List Nat
  st : List Nat
  pre : Nat

/-- Result of the scan over the allowed edges of a node (lines 167-180). -/
inductive Scan where
  | pushed (tgt : Nat)
  | finished (min : Nat)
  deriving DecidableEq, Repr

/-- The `for (auto to : out[idx])` loop of lines 167-180, with running `min`. -/
def scanEdges (i p bot : Nat) (done : Nat → Int) (low : Nat → Nat) : List Nat → Nat → Scan
  | [], min => .finished min
  | t :: rest, min =>
    if t > i then scanEdges i p bot done low rest min
    else if done t = (p : Int) then scanEdges i p bot done low rest min
    else if low t ≤ bot then .pushed t
    else scanEdges i p bot done low rest (if low t < min then low t else min)

/-- One iteration of `while (!st.empty())` (lines 150-234) with `idx` on top
of the stack and `rest` below it. -/
def searchStep (priority : Nat → Nat) (out : Nat → List Nat) (i p bot : Nat)
    (s : Tarjan) (idx : Nat) (rest : List Nat) : Outcome Tarjan :=
  let s1 : Tarjan :=
    if s.low idx ≤ bot then
      { s with low := Function.update s.low idx (s.pre + 1), pre := s.pre + 1, res := idx :: s.res }
    else s
  match scanEdges i p bot s1.done s1.low (out idx) (s1.low idx) with
  | .pushed t => .ok { s1 with st := t :: idx :: rest }
  | .finished min =>
    if min < s1.low idx then
      .ok { s1 with low := Function.update s1.low idx min, st := rest }
    else
      let a := markScc priority p idx s1.res ⟨-1, 0, s1.done⟩
      let cycles : Bool := decide (a.scc_size > 1) || decide (idx ∈ out idx)
      if cycles && decide (a.max_p % 2 = (p : Int) % 2) then
        .fail (.loserCanWin a.max_p (sccMembers idx s1.res))
      else
        .ok { s1 with done := a.done, res := popScc idx s1.res, st := rest }

/-- The loop `while (!st.empty())` run for at most `fuel` iterations. -/
def searchLoop (priority : Nat → Nat) (out : Nat → List Nat) (i p bot : Nat) :
    Nat → Tarjan → Outcome Tarjan
  | 0, _ => .timeout
  | fuel + 1, s =>
    match s.st with
    | [] => .ok s
    | idx :: rest =>
      match searchStep priority out i p bot s idx rest with
      | .ok s1 => searchLoop priority out i p bot fuel s1
      | .fail e => .fail e
      | .timeout => .timeout

/-- One iteration of the second outer loop (lines 121-236) at node `i`. -/
def searchFrom (fuel : Nat) (g : Game) (out : Nat → List Nat) (even odd : Bool) (i : Nat)
    (s : Tarjan) : Outcome Tarjan :=
  let p := g.priority i
  if g.solved i = false ∨ g.winner i = parityBit p then .ok s
  else if odd = false ∧ p % 2 = 0 then .ok s
  else if even = false ∧ p % 2 = 1 then .ok s
  else if s.done i = (p : Int) then .ok s
  else
    searchLoop g.priority out i p s.pre fuel { s with st := i :: s.st }

/-- The second outer loop for `i = k-1` down to `0`. -/
def pass2 (fuel : Nat) (g : Game) (out : Nat → List Nat) (even odd : Bool) :
    Nat → Tarjan → Outcome Tarjan
  | 0, s => .ok s
  | k + 1, s =>
    match searchFrom fuel g out even odd k s with
    | .ok s1 => pass2 fuel g out even odd k s1
    | .fail e => .fail e
    | .timeout => .timeout

/-- Initial values of the search variables (lines 111-119). -/
def initTarjan : Tarjan := ⟨fun _ => -1, fun _ => 0, [], [], 0⟩

/-- The function `Verifier::verify(fullgame, even, odd)`; on normal return the
value is the number of times `n_strategies` was incremented. -/
def verify (fuel : Nat) (g : Game) (fullgame even odd : Bool) : Outcome Nat :=
  match pass1 g fullgame even odd g.n_nodes with
  | .fail e => .fail e
  | .timeout => .timeout
  | .ok s1 =>
    match pass2 fuel g s1.out even odd g.n_nodes initTarjan with
    | .fail e => .fail e
    | .timeout => .timeout
    | .ok _ => .ok s1.n_strategies

/-- The state of the search loop once the node on top of the stack has received its
number (lines 155-158). -/
def visitTop (bot : Nat) (s : Tarjan) : Tarjan :=
  match s.st with
  | [] => s
  | idx :: _ =>
    if s.low idx ≤ bot then
      { s with low := Function.update s.low idx (s.pre + 1), pre := s.pre + 1, res := idx :: s.res }
    else s

/-- Invariant of one search (start `i`, priority `p`, first free number `bot`), stated for
the state after the top of the stack was numbered; `d` gives the number each node of `res`
received when it was first seen, `done0` is `done` at the start of the search. -/
structure SearchInv (priority : Nat → Nat) (out : Nat → List Nat) (i p bot : Nat)
    (done0 : Nat → Int) (d : Nat → Nat) (s : Tarjan) : Prop where
  bot_le : bot ≤ s.pre
  res_bound : ∀ x ∈ s.res, x ≤ i
  res_notdone : ∀ x ∈ s.res, s.done x ≠ (p : Int)
  res_low : ∀ x ∈ s.res, bot < s.low x ∧ s.low x ≤ d x
  res_d : ∀ x ∈ s.res, d x ≤ s.pre
  res_sorted : s.res.Pairwise (fun a b => d b < d a)
  low_pre : ∀ x, s.low x ≤ s.pre
  vis : ∀ x, bot < s.low x → x ∈ s.res ∨ s.done x = (p : Int)
  start_vis : bot < s.low i
  st_res : ∀ x ∈ s.st, x ∈ s.res ∧ s.low x = d x
  st_sorted : s.st.Pairwise (fun a b => d b < d a)
  st_edge : s.st.Chain' (fun a b => a ∈ out b)
  base : ∀ x ∈ s.res, ∃ t ∈ s.st, d t ≤ d x
  closedD : ∀ x, s.done x = (p : Int) → ∀ y ∈ out x, y ≤ i → s.done y = (p : Int)
  popped : ∀ x ∈ s.res, x ∉ s.st →
    s.low x < d x ∧ ∀ y ∈ out x, y ≤ i → s.done y = (p : Int) ∨ (y ∈ s.res ∧ s.low x ≤ d y)
  parent : ∀ x ∈ s.res, x ∉ s.st → ∃ y ∈ s.res, x ∈ out y ∧ d y < d x ∧
    (∀ t ∈ s.st, d t ≤ d x → d t ≤ d y) ∧ (y ∉ s.st → s.low y ≤ s.low x)
  reach : ∀ x ∈ s.res, x ∉ s.st → ∃ z ∈ s.res, d z = s.low x ∧
    Relation.ReflTransGen
      (fun a b => b ∈ out a ∧ b ∈ s.res ∧ d z ≤ d b ∧ ∀ t ∈ s.st, d x < d t → d b < d t) x z
  from_start : ∀ x ∈ s.res, Relation.ReflTransGen (fun a b => b ∈ out a) i x
  doneval : ∀ x, s.done x = (p : Int) ∨ s.done x = done0 x
  acyc : ∀ x, s.done x = (p : Int) → priority x = p →
    ¬ Relation.TransGen (EdgeBelow out x) x x

/-- Invariant of the second outer loop when the nodes `k, k+1, ...` have been handled. -/
structure OuterInv (g : Game) (out : Nat → List Nat) (even odd : Bool) (k : Nat)
    (s : Tarjan) : Prop where
  res_nil : s.res = []
  st_nil : s.st = []
  low_pre : ∀ x, s.low x ≤ s.pre
  doneval : ∀ x, s.done x = -1 ∨ ∃ j, k ≤ j ∧ j < g.n_nodes ∧ s.done x = (g.priority j : Int)
  closed : k < g.n_nodes → ∀ x, s.done x = (g.priority k : Int) →
    ∀ y ∈ out x, y ≤ k → s.done y = (g.priority k : Int)
  acyc : k < g.n_nodes → ∀ x, s.done x = (g.priority k : Int) → g.priority x = g.priority k →
    ¬ Relation.TransGen (EdgeBelow out x) x x
  checked : ∀ c, k ≤ c → c < g.n_nodes → Relevant g even odd c →
    ¬ Relation.TransGen (EdgeBelow out c) c c

end Exact

/-- The same game, `solved` and `winner` with another strategy array. -/
def withStrategy (g : Game) (strat : Nat → List Nat) : Game :=
  { g with strategy := strat }

/-- The strategies `strat` and `g.strategy` agree on every node except the solved nodes
owned and won by player `w`, where both hold at most one edge. -/
def AgreeExceptWinning (g : Game) (w : Bool) (strat : Nat → List Nat) : Prop :=
  ∀ x, x < g.n_nodes →
    (g.solved x = true ∧ g.owner x = w ∧ g.winner x = w →
      (g.strategy x).length ≤ 1 ∧ (strat x).length ≤ 1) ∧
    (¬ (g.solved x = true ∧ g.owner x = w ∧ g.winner x = w) → strat x = g.strategy x)

/-- The side of player `w` is not under test. -/
def SideOff (w even odd : Bool) : Prop := if w then odd = false else even = false

/-- The strategy array of `twoDominionGame` with the strategy of node 1 redirected to node 0. -/
def redirectedStrategy : Nat → List Nat := fun i => if i = 1 then [0] else [i]

/-! # The priority-promotion driver (`src/ppp.cpp`) -/

/-- The arrays that `PPPSolver::run` shares with the engine of `PPSolver` (`region`,
`strategy`, `regions`), the set `disabled` of the solving context, the counter `promotions`,
and `ext` for whatever else the engine keeps. Only the cells below `n_nodes`
(below `max_prio + 1` for `regions`) exist in the source. -/
structure PPData (σ : Type) where
  region : Nat → Int
  strategy : Nat → Int
  regions : Nat → List Nat
  disabled : Nat → Bool
  promotions : Nat
  ext : σ

/-- The operations of `PPSolver` that `run` calls. Their code is not part of `ppp.cpp`;
they are parameters, free to return anything and to change the shared data in any way. -/
structure Engine (σ : Type) where
  setupRegion : PPData σ → Int → Int → Bool → PPData σ × Bool
  getRegionStatus : PPData σ → Int → Int → PPData σ × Int
  promote : PPData σ → Int → Int → PPData σ
  setDominion : PPData σ → Int → PPData σ
  resetRegion : PPData σ → Int → PPData σ
  reportRegion : PPData σ → Int → PPData σ

/-- An engine operation called by `run`, with its arguments. -/
inductive Call where
  | setupRegion (i p : Int) (reset : Bool)
  | getRegionStatus (i p : Int)
  | promote (p res : Int)
  | setDominion (p : Int)
  | resetRegion (p : Int)
  | reportRegion (p : Int)
  deriving DecidableEq, Repr

/-- Accesses that have no defined result in the source: an index outside its array, or a
read of a cell of `inverse` that was never written. -/
inductive Fault where
  | outOfRange
  | uninitialised
  deriving DecidableEq, Repr

/-- Where `run` stands: at the head of the outer loop, at the head of the inner loop with
current priority `p`, after the outer loop, or stopped at a fault. -/
inductive Pc where
  | outer
  | inner (p : Int)
  | finished
  | fault (f : Fault)
  deriving DecidableEq, Repr

/-- The variables of `run`: the scan index `i`, the thresholds `reset0` and `reset1`, the
array `inverse` (`none` for a cell never written), `max_prio`, the shared data, and the
engine calls made so far (latest first). -/
structure Driver (σ : Type) where
  i : Int
  reset0 : Int
  reset1 : Int
  inverse : Nat → Option Int
  max_prio : Nat
  data : PPData σ
  calls : List Call

/-- A state of `run`. -/
structure Config (σ : Type) where
  pc : Pc
  d : Driver σ

/-- The loop `while (i >= 0 and stay(i)) i--` on the `k` indices below `k`. -/
def scanDown (stay : Nat → Bool) : Nat → Int
  | 0 => -1
  | k + 1 => if stay k then scanDown stay k else (k : Int)

/-- The loop `while (i >= 0 and stay(i)) i--` started at `i`. -/
def whileDown (stay : Nat → Bool) (i : Int) : Int :=
  if i < 0 then i else scanDown stay (i.toNat + 1)

/-- The condition under which line 61 skips node `k` while scanning priority `p`. -/
def skipCondition {σ : Type} (g : Game) (data : PPData σ) (p : Nat) (k : Nat) : Bool :=
  decide (g.priority k = p) && (data.disabled k || decide (data.region k > (p : Int)))

/-- Lines 73-84: the reset flag and the new values of `reset0` and `reset1`. -/
def resetDecision (p reset0 reset1 : Int) : Bool × Int × Int :=
  if p % 2 = 1 then
    if p ≤ reset1 then (true, reset0, p - 2) else (false, reset0, reset1)
  else
    if p ≤ reset0 then (true, p - 2, reset1) else (false, reset0, reset1)

/-- Lines 104-108: the new values of `reset0` and `reset1` after a promotion to `res`. -/
def promoteThresholds (res reset0 reset1 : Int) : Int × Int :=
  if res % 2 = 1 then
    if res > reset0 then (res - 1, reset1) else (reset0, reset1)
  else
    if res > reset1 then (reset0, res - 1) else (reset0, reset1)

/-- One pass through the body of the outer loop up to the inner loop (lines 58-86 and
114-117). -/
def outerStep {σ : Type} (E : Engine σ) (g : Game) (d : Driver σ) : Config σ :=
  if d.i < 0 then ⟨.finished, d⟩
  else if d.i ≥ (g.n_nodes : Int) then ⟨.fault .outOfRange, d⟩
  else
    let p := g.priority d.i.toNat
    let i1 := whileDown (skipCondition g d.data p) d.i
    if i1 < 0 then ⟨.finished, { d with i := i1 }⟩
    else if g.priority i1.toNat ≠ p then
      if p > d.max_prio then ⟨.fault .outOfRange, { d with i := i1 }⟩
      else if d.data.regions p ≠ [] then
        ⟨.outer, { d with i := i1, data := E.resetRegion d.data p,
                          calls := .resetRegion p :: d.calls }⟩
      else ⟨.outer, { d with i := i1 }⟩
    else
      if p > d.max_prio then ⟨.fault .outOfRange, { d with i := i1 }⟩
      else
        let rd := resetDecision p d.reset0 d.reset1
        let r := E.setupRegion d.data i1 p rd.1
        let d1 : Driver σ :=
          { d with i := i1, inverse := Function.update d.inverse p (some i1),
                   reset0 := rd.2.1, reset1 := rd.2.2, data := r.1,
                   calls := .setupRegion i1 p rd.1 :: d.calls }
        if r.2 then ⟨.inner p, d1⟩
        else ⟨.outer, { d1 with i := whileDown (fun k => decide (g.priority k = p)) i1 }⟩

/-- One pass through the body of the inner loop (lines 87-113) with current priority `p`. -/
def innerStep {σ : Type} (E : Engine σ) (g : Game) (trace : Nat) (d : Driver σ) (p : Int) :
    Config σ :=
  let data1 := if trace ≥ 2 then E.reportRegion d.data p else d.data
  let calls1 := if trace ≥ 2 then Call.reportRegion p :: d.calls else d.calls
  let r := E.getRegionStatus data1 d.i p
  let calls2 := Call.getRegionStatus d.i p :: calls1
  if r.2 = -2 then
    if d.i ≥ (g.n_nodes : Int) then ⟨.fault .outOfRange, { d with data := r.1, calls := calls2 }⟩
    else
      ⟨.outer, { d with i := whileDown (fun k => decide ((g.priority k : Int) ≥ p)) d.i,
                        data := r.1, calls := calls2 }⟩
  else if r.2 = -1 then
    ⟨.outer, { d with i := (g.n_nodes : Int) - 1, data := E.setDominion r.1 p,
                      calls := .setDominion p :: calls2 }⟩
  else
    let th := promoteThresholds r.2 d.reset0 d.reset1
    let d1 : Driver σ :=
      { d with reset0 := th.1, reset1 := th.2, data := E.promote r.1 p r.2,
               calls := .promote p r.2 :: calls2 }
    if r.2 < 0 ∨ r.2 > (d.max_prio : Int) then ⟨.fault .outOfRange, d1⟩
    else
      match d.inverse r.2.toNat with
      | none => ⟨.fault .uninitialised, d1⟩
      | some v => ⟨.inner r.2, { d1 with i := v }⟩

/-- One step of `run` from a state. -/
def step {σ : Type} (E : Engine σ) (g : Game) (trace : Nat) (c : Config σ) : Config σ :=
  match c.pc with
  | .outer => outerStep E g c.d
  | .inner p => innerStep E g trace c.d p
  | .finished => c
  | .fault _ => c

/-- Lines 31-50: the state at the first test of the outer loop; reading
`priority[n_nodes-1]` is out of range when the game has no node. -/
def initConfig {σ : Type} (g : Game) (data : PPData σ) : Config σ :=
  if g.n_nodes = 0 then
    ⟨.fault .outOfRange, ⟨-1, -1, -1, fun _ => none, 0, data, []⟩⟩
  else
    ⟨.outer,
      { i := (g.n_nodes : Int) - 1, reset0 := -1, reset1 := -1, inverse := fun _ => none,
        max_prio := g.priority (g.n_nodes - 1),
        data := { data with
          regions := fun _ => [],
          region := fun i => if data.disabled i then -2 else (g.priority i : Int),
          strategy := fun _ => -1,
          promotions := 0 },
        calls := [] }⟩

/-- The state of `run` after `k` steps from `c`. -/
def runSteps {σ : Type} (E : Engine σ) (g : Game) (trace : Nat) : Nat → Config σ → Config σ
  | 0, c => c
  | k + 1, c => runSteps E g trace k (step E g trace c)

/-- `PPPSolver::run()` followed for at most `fuel` steps. -/
def run {σ : Type} (E : Engine σ) (g : Game) (trace : Nat) (data : PPData σ) (fuel : Nat) :
    Config σ :=
  runSteps E g trace fuel (initConfig g data)

/-- A state that `run` reaches from some initial content of the shared data. -/
def Reachable {σ : Type} (E : Engine σ) (g : Game) (trace : Nat) (c : Config σ) : Prop :=
  ∃ (data : PPData σ) (k : Nat), runSteps E g trace k (initConfig g data) = c

/-- The constructor of `Solver` (solver.hpp, lines 37-40): the assertion loop from index
`i`, for at most `fuel` iterations. -/
def assertLoop (priority : Nat → Nat) (n : Nat) : Nat → Nat → Bool
  | 0, _ => true
  | fuel + 1, i =>
    if i < n then
      if priority (i - 1) ≤ priority i then assertLoop priority n fuel (i + 1) else false
    else true

/-- Whether the constructor of `Solver` returns (`true`) or stops at a failed assertion
(`false`); `ndebug` tells whether the build defines `NDEBUG`. -/
def constructSolver (ndebug : Bool) (g : Game) : Bool :=
  if ndebug then true else assertLoop g.priority g.n_nodes g.n_nodes 1

/-- A game given by its node count and priorities, with no edges and nothing solved. -/
def bareGame (n : Nat) (priority : Nat → Nat) : Game where
  n_nodes := n
  priority := priority
  owner := fun _ => false
  out := fun _ => []
  solved := fun _ => false
  winner := fun _ => false
  strategy := fun _ => []

/-- Shared data with every node enabled. -/
def blankData : PPData Unit := ⟨fun _ => 0, fun _ => 0, fun _ => [], fun _ => false, 0, ()⟩

/-- An engine whose regions are always empty and never closed. -/
def idleEngine : Engine Unit where
  setupRegion := fun d _ _ _ => (d, false)
  getRegionStatus := fun d _ _ => (d, -2)
  promote := fun d _ _ => d
  setDominion := fun d _ => d
  resetRegion := fun d _ => d
  reportRegion := fun d _ => d

/-- The condition under which the claimed rule skips node `k`: the node is disabled or
claimed by a region of priority greater than or equal to its own. -/
def claimedSkipRule {σ : Type} (g : Game) (data : PPData σ) (k : Nat) : Bool :=
  data.disabled k || decide (data.region k ≥ (g.priority k : Int))

/-- What one step may do to the thresholds: nothing; a reset decision at `p`, which sets
the threshold of the parity of `p` to `p-2`, a smaller value, and keeps the other; or a
promotion to `res`, which sets the threshold of the other parity than `res` to the maximum
of its old value and `res-1`, and keeps the other. -/
def ThresholdChange {σ : Type} (c c1 : Config σ) : Prop :=
  (c1.d.reset0 = c.d.reset0 ∧ c1.d.reset1 = c.d.reset1) ∨
  (∃ i p, c1.d.calls = .setupRegion i p true :: c.d.calls ∧
    ((p % 2 = 1 ∧ p ≤ c.d.reset1 ∧ c1.d.reset1 = p - 2 ∧ c1.d.reset1 < c.d.reset1 ∧
        c1.d.reset0 = c.d.reset0) ∨
     (p % 2 ≠ 1 ∧ p ≤ c.d.reset0 ∧ c1.d.reset0 = p - 2 ∧ c1.d.reset0 < c.d.reset0 ∧
        c1.d.reset1 = c.d.reset1))) ∨
  (∃ p res rest, c.pc = .inner p ∧ c1.d.calls = .promote p res :: rest ∧
    ((res % 2 = 1 ∧ c1.d.reset0 = max c.d.reset0 (res - 1) ∧ c1.d.reset0 ≥ c.d.reset0 ∧
        c1.d.reset1 = c.d.reset1) ∨
     (res % 2 ≠ 1 ∧ c1.d.reset1 = max c.d.reset1 (res - 1) ∧ c1.d.reset1 ≥ c.d.reset1 ∧
        c1.d.reset0 = c.d.reset0)))

/-- The priority of the node under the scan index at the head of the outer loop
(line 60). -/
def currentPriority {σ : Type} (g : Game) (d : Driver σ) : Nat :=
  g.priority d.i.toNat

/-- The index at which the scan of line 61 stops. -/
def scanStop {σ : Type} (g : Game) (d : Driver σ) : Int :=
  whileDown (skipCondition g d.data (currentPriority g d)) d.i

/-- The threshold of the parity of `p`: `reset1` for odd `p`, `reset0` for even `p`. -/
def thresholdOf {σ : Type} (d : Driver σ) (p : Int) : Int :=
  if p % 2 = 1 then d.reset1 else d.reset0

/-- The status that `getRegionStatus` returns in the inner loop at priority `p`
(lines 88-89). -/
def statusAt {σ : Type} (E : Engine σ) (trace : Nat) (d : Driver σ) (p : Int) : Int :=
  (E.getRegionStatus (if trace ≥ 2 then E.reportRegion d.data p else d.data) d.i p).2

/-- A game of two nodes whose priorities decrease: 1 at node 0 and 0 at node 1. -/
def unsortedGame : Game := bareGame 2 (fun i => 1 - i)

/-- A game of one enabled node of priority 0. -/
def oneNodeGame : Game := bareGame 1 (fun _ => 0)

/-- A game of two nodes with priorities 0 and 1. -/
def twoNodeGame : Game := bareGame 2 (fun i => i)

/-- What holds of every configuration that `run()` reaches: `max_prio` is the priority of
the last node, every written cell `inverse[q]` holds a node of priority `q`, in the inner
loop the scan index is a node of the current priority, and, when the priorities are
non-decreasing, at the head of the outer loop every node above the scan index has a
greater priority than the node under it. -/
structure DriverInv {σ : Type} (g : Game) (c : Config σ) : Prop where
  max_prio_eq : 0 < g.n_nodes → c.d.max_prio = g.priority (g.n_nodes - 1)
  inverse_valid : ∀ q v, c.d.inverse q = some v →
    0 ≤ v ∧ v < (g.n_nodes : Int) ∧ g.priority v.toNat = q
  outer_range : c.pc = .outer → -1 ≤ c.d.i ∧ c.d.i < (g.n_nodes : Int)
  outer_top : SortedPriorities g → c.pc = .outer → 0 ≤ c.d.i →
    ∀ k : Nat, c.d.i < (k : Int) → k < g.n_nodes → g.priority c.d.i.toNat < g.priority k
  inner_range : ∀ p, c.pc = .inner p →
    0 ≤ c.d.i ∧ c.d.i < (g.n_nodes : Int) ∧ (g.priority c.d.i.toNat : Int) = p ∧
    p ≤ (c.d.max_prio : Int)

/-- Index `i` is the greatest index whose priority is strictly less than `p`, or -1 if
there is no such index. -/
def GreatestBelow (g : Game) (p : Int) (i : Int) : Prop :=
  -1 ≤ i ∧ i < (g.n_nodes : Int) ∧ (0 ≤ i → (g.priority i.toNat : Int) < p) ∧
  ∀ k : Nat, k < g.n_nodes → (g.priority k : Int) < p → (k : Int) ≤ i

/-- The number of calls of `promote` in a call log. -/
def promoteCount : List Call → Nat
  | [] => 0
  | .promote _ _ :: l => promoteCount l + 1
  | .setupRegion _ _ _ :: l => promoteCount l
  | .getRegionStatus _ _ :: l => promoteCount l
  | .setDominion _ :: l => promoteCount l
  | .resetRegion _ :: l => promoteCount l
  | .reportRegion _ :: l => promoteCount l

/-- An engine whose regions are never empty and never closed: `setupRegion` returns true
and `getRegionStatus` reports an escape. -/
def escapeEngine : Engine Unit where
  setupRegion := fun d _ _ _ => (d, true)
  getRegionStatus := fun d _ _ => (d, -2)
  promote := fun d _ _ => d
  setDominion := fun d _ => d
  resetRegion := fun d _ => d
  reportRegion := fun d _ => d

/-- An engine whose region is empty at every priority but 0, and whose region of
priority 0 promotes to priority 1. -/
def strayEngine : Engine Unit where
  setupRegion := fun d _ p _ => (d, decide (p = 0))
  getRegionStatus := fun d _ p => (d, if p = 0 then 1 else -2)
  promote := fun d _ _ => d
  setDominion := fun d _ => d
  resetRegion := fun d _ => d
  reportRegion := fun d _ => d

/-- A game of two nodes with priorities 0 and 2. -/
def gapGame : Game := bareGame 2 (fun i => 2 * i)

/-- A configuration at the head of the outer loop of the two-node game whose odd threshold
is 3, above the priority 1 of the node under the scan index. -/
def raisedConfig : Config Unit :=
  ⟨.outer, ⟨1, -1, 3, fun _ => none, 1, blankData, []⟩⟩

/-- Every promotion target that `getRegionStatus` returns during the inner loop entered in
configuration `c` lies strictly above the current priority and is at most `max_prio`. -/
def ChainTargetsInRange {σ : Type} (E : Engine σ) (g : Game) (trace : Nat) (c : Config σ) :
    Prop :=
  ∀ (j : Nat) (q : Int),
    (∀ m, m ≤ j → ∃ qm, (runSteps E g trace m c).pc = .inner qm) →
    (runSteps E g trace j c).pc = .inner q →
    statusAt E trace (runSteps E g trace j c).d q ≠ -1 →
    statusAt E trace (runSteps E g trace j c).d q ≠ -2 →
    q < statusAt E trace (runSteps E g trace j c).d q ∧
    statusAt E trace (runSteps E g trace j c).d q ≤ (c.d.max_prio : Int)

/-- Every promotion target that `getRegionStatus` returns during the inner loop entered in
configuration `c` is a priority whose cell of `inverse` has been written. -/
def ChainTargetsVisited {σ : Type} (E : Engine σ) (g : Game) (trace : Nat) (c : Config σ) :
    Prop :=
  ∀ (j : Nat) (q : Int),
    (∀ m, m ≤ j → ∃ qm, (runSteps E g trace m c).pc = .inner qm) →
    (runSteps E g trace j c).pc = .inner q →
    statusAt E trace (runSteps E g trace j c).d q ≠ -1 →
    statusAt E trace (runSteps E g trace j c).d q ≠ -2 →
    (c.d.inverse (statusAt E trace (runSteps E g trace j c).d q).toNat).isSome = true

/-- The inner loop entered in configuration `c` at priority `p` performs exactly `k`
promotions, the last one to priority `q` (`q = p` when `k = 0`), and then leaves the loop:
by a dominion, with the scan index at `n_nodes-1`, or by an escape, with the scan index at
-1 or at a node of priority less than `q`. -/
def ChainEndsAfter {σ : Type} (E : Engine σ) (g : Game) (trace : Nat) (c : Config σ)
    (p : Int) (k : Nat) (q : Int) : Prop :=
  (∀ j, j ≤ k → ∃ qj, (runSteps E g trace j c).pc = .inner qj) ∧
  (runSteps E g trace k c).pc = .inner q ∧
  promoteCount (runSteps E g trace k c).d.calls = promoteCount c.d.calls + k ∧
  ((k = 0 ∧ q = p) ∨ ∃ q0 rest, (runSteps E g trace k c).d.calls = .promote q0 q :: rest) ∧
  (step E g trace (runSteps E g trace k c)).pc = .outer ∧
  promoteCount (step E g trace (runSteps E g trace k c)).d.calls =
    promoteCount c.d.calls + k ∧
  ((statusAt E trace (runSteps E g trace k c).d q = -1 ∧
      (step E g trace (runSteps E g trace k c)).d.i = (g.n_nodes : Int) - 1) ∨
   (statusAt E trace (runSteps E g trace k c).d q = -2 ∧
      -1 ≤ (step E g trace (runSteps E g trace k c)).d.i ∧
      (0 ≤ (step E g trace (runSteps E g trace k c)).d.i →
        (g.priority (step E g trace (runSteps E g trace k c)).d.i.toNat : Int) < q)))

/-! ## The first loop -/

theorem checkNode_ne_timeout (g : Game) (f e o : Bool) (i : Nat) (s : Pass1) :
    checkNode g f e o i s ≠ .timeout := by
  unfold checkNode
  cases hst : g.strategy i <;> simp only [] <;> split_ifs <;> simp

theorem checkNode_fail_indep {g : Game} {f e o : Bool} {i : Nat} {s : Pass1} {err : VerifyError}
    (h : checkNode g f e o i s = .fail err) (s1 : Pass1) :
    checkNode g f e o i s1 = .fail err := by
  unfold checkNode at h ⊢
  cases hst : g.strategy i <;> rw [hst] at h <;> simp only [] at h ⊢ <;>
    split_ifs at h ⊢ <;> simp_all

theorem pass1_ne_timeout (g : Game) (f e o : Bool) (k : Nat) :
    pass1 g f e o k ≠ .timeout := by
  induction k with
  | zero => simp [pass1]
  | succ k ih =>
    rw [pass1]
    split
    · exact checkNode_ne_timeout _ _ _ _ _ _
    · simp
    · rename_i h; exact absurd h ih

theorem pass1_fail_succ {g : Game} {f e o : Bool} {k : Nat} {err : VerifyError}
    (h : pass1 g f e o k = .fail err) : pass1 g f e o (k + 1) = .fail err := by
  rw [pass1, h]

theorem pass1_fail_mono {g : Game} {f e o : Bool} {k n : Nat} {err : VerifyError}
    (h : pass1 g f e o k = .fail err) (hkn : k ≤ n) : pass1 g f e o n = .fail err := by
  induction hkn with
  | refl => exact h
  | step _ ih => exact pass1_fail_succ ih

theorem pass1_ok_succ {g : Game} {f e o : Bool} {k : Nat} {s : Pass1}
    (h : pass1 g f e o (k + 1) = .ok s) :
    ∃ s0, pass1 g f e o k = .ok s0 ∧ checkNode g f e o k s0 = .ok s := by
  rw [pass1] at h
  split at h
  · rename_i s0 h0; exact ⟨s0, h0, h⟩
  · simp at h
  · simp at h

theorem pass1_ok_mono {g : Game} {f e o : Bool} {n : Nat} {s : Pass1}
    (h : pass1 g f e o n = .ok s) {k : Nat} (hkn : k ≤ n) :
    ∃ s0, pass1 g f e o k = .ok s0 := by
  induction n generalizing s with
  | zero =>
    have : k = 0 := by omega
    subst this; exact ⟨s, h⟩
  | succ n ih =>
    rcases Nat.eq_or_lt_of_le hkn with hk | hk
    · subst hk; exact ⟨s, h⟩
    · obtain ⟨s0, h0, _⟩ := pass1_ok_succ h
      exact ih h0 (by omega)

/-- When the first loop completes, every node below the bound passed its iteration. -/
theorem pass1_ok_node {g : Game} {f e o : Bool} {n : Nat} {s : Pass1}
    (h : pass1 g f e o n = .ok s) {i : Nat} (hi : i < n) :
    ∃ s0 s1, pass1 g f e o i = .ok s0 ∧ checkNode g f e o i s0 = .ok s1 := by
  obtain ⟨s1, h1⟩ := pass1_ok_mono h (show i + 1 ≤ n by omega)
  obtain ⟨s0, h0, hc⟩ := pass1_ok_succ h1
  exact ⟨s0, s1, h0, hc⟩

theorem verify_ok_pass1 {g : Game} {f e o : Bool} {k : Nat}
    (h : verify g f e o = .ok k) : ∃ s, pass1 g f e o g.n_nodes = .ok s := by
  unfold verify verifyFuel at h
  split at h
  · simp at h
  · simp at h
  · rename_i s hs; exact ⟨s, hs⟩

theorem verify_fail_of_pass1 {g : Game} {f e o : Bool} {err : VerifyError}
    (h : pass1 g f e o g.n_nodes = .fail err) : verify g f e o = .fail err := by
  unfold verify verifyFuel; rw [h]

/-- What a passed iteration of the first loop establishes about a winning node. -/
theorem checkNode_ok_winning {g : Game} {f e o : Bool} {i : Nat} {s s1 : Pass1}
    (h : checkNode g f e o i s = .ok s1) (hs : g.solved i = true)
    (hw : g.owner i = g.winner i)
    (hside : (e = true ∧ g.winner i = false) ∨ (o = true ∧ g.winner i = true)) :
    ∃ t, g.strategy i = [t] ∧ t ∈ g.out i ∧ g.solved t = true ∧ g.winner t = g.winner i := by
  unfold checkNode at h
  rw [if_neg (by simp [hs])] at h
  split at h
  · simp at h
  · rename_i hlen
    simp only [] at h
    rw [if_pos hw.symm] at h
    have hflag : ((e && g.winner i == false) || (o && g.winner i == true)) = true := by
      rcases hside with ⟨h1, h2⟩ | ⟨h1, h2⟩ <;> simp [h1, h2]
    rw [if_pos hflag] at h
    split at h
    · simp at h
    · rename_i t rest hst
      split at h
      · simp at h
      · rename_i h1
        split at h
        · simp at h
        · rename_i h2
          have hrest : rest = [] := by
            rw [hst] at hlen
            cases rest with
            | nil => rfl
            | cons a l => simp at hlen
          subst hrest
          refine ⟨t, hst, ?_, ?_, ?_⟩
          · simpa using h2
          · by_contra hc; exact h1 (Or.inl (by simpa using hc))
          · by_contra hc; exact h1 (Or.inr hc)

/-- What a passed iteration of the first loop establishes about a losing node. -/
theorem checkNode_ok_losing {g : Game} {f e o : Bool} {i : Nat} {s s1 : Pass1}
    (h : checkNode g f e o i s = .ok s1) (hs : g.solved i = true)
    (hw : g.owner i ≠ g.winner i) :
    g.strategy i = [] ∧ ∀ t ∈ g.out i, g.solved t = true ∧ g.winner t = g.winner i := by
  unfold checkNode at h
  rw [if_neg (by simp [hs])] at h
  split at h
  · simp at h
  · simp only [] at h
    rw [if_neg (fun hc => hw hc.symm)] at h
    split at h
    · simp at h
    · rename_i hany
      split at h
      · simp at h
      · rename_i hst
        refine ⟨by simpa using hst, ?_⟩
        intro t ht
        simp only [List.any_eq_true, not_exists, not_and] at hany
        have := hany t ht
        simp only [decide_eq_true_eq, not_or, Bool.not_eq_false, ne_eq, not_not] at this
        exact this

theorem checkNode_ok_solved {g : Game} {e o : Bool} {i : Nat} {s s1 : Pass1}
    (h : checkNode g true e o i s = .ok s1) : g.solved i = true := by
  unfold checkNode at h
  by_contra hc
  rw [if_pos (by simpa using hc)] at h
  simp at h

theorem checkNode_ok_length {g : Game} {f e o : Bool} {i : Nat} {s s1 : Pass1}
    (h : checkNode g f e o i s = .ok s1) (hs : g.solved i = true) :
    (g.strategy i).length ≤ 1 := by
  unfold checkNode at h
  rw [if_neg (by simp [hs])] at h
  split at h
  · simp at h
  · omega

theorem checkNode_setStrategy_ne (g : Game) (f e o : Bool) {i j : Nat} (t : Nat) (h : j ≠ i)
    (s : Pass1) : checkNode (setStrategy g i t) f e o j s = checkNode g f e o j s := by
  unfold checkNode setStrategy
  simp only [Function.update_noteq h]

theorem pass1_setStrategy (g : Game) (f e o : Bool) (i t : Nat) :
    ∀ k, k ≤ i → pass1 (setStrategy g i t) f e o k = pass1 g f e o k := by
  intro k
  induction k with
  | zero => intro _; rfl
  | succ k ih =>
    intro hk
    rw [pass1, pass1, ih (by omega)]
    cases pass1 g f e o k with
    | ok s => exact checkNode_setStrategy_ne g f e o t (by omega) s
    | fail err => rfl
    | timeout => rfl

/-! ## Claims about the first loop -/

/-- C3. Verifier rejects corruption: if `verify(true, true, true)` succeeds, node `i` is
owned by its winner and node `t` has the other winner, then after replacing the strategy
of `i` by the single edge to `t` the call fails with "strategy leaves dominion" or
"strategy is not a valid move". -/
theorem verify_rejects_corruption (g : Game) (i t : Nat)
    (hok : Succeeds (verify g true true true))
    (hi : i < g.n_nodes) (ht : t < g.n_nodes)
    (hown : g.owner i = g.winner i) (hwin : g.winner t ≠ g.winner i) :
    verify (setStrategy g i t) true true true = .fail .strategyLeavesDominion ∨
      verify (setStrategy g i t) true true true = .fail .strategyNotValidMove := by
  left
  obtain ⟨k, hk⟩ := hok
  obtain ⟨s, hs⟩ := verify_ok_pass1 hk
  obtain ⟨s0, s1, h0, h1⟩ := pass1_ok_node hs hi
  obtain ⟨_, t1, _, ht1⟩ := pass1_ok_node hs ht
  have hsi := checkNode_ok_solved h1
  have hst := checkNode_ok_solved ht1
  apply verify_fail_of_pass1
  have hn : (setStrategy g i t).n_nodes = g.n_nodes := rfl
  rw [hn]
  apply pass1_fail_mono _ (show i + 1 ≤ g.n_nodes by omega)
  rw [pass1, pass1_setStrategy g true true true i t i (le_refl i), h0]
  simp only []
  unfold checkNode setStrategy
  simp only [Function.update_same, hsi, hst]
  cases hw : g.winner i <;> cases hwt : g.winner t <;> simp_all

theorem verify_rejects_corruption_witness :
    verify (setStrategy twoDominionGame 0 1) true true true = .fail .strategyLeavesDominion ∨
      verify (setStrategy twoDominionGame 0 1) true true true = .fail .strategyNotValidMove :=
  verify_rejects_corruption twoDominionGame 0 1 ⟨2, by decide⟩ (by decide) (by decide)
    (by decide) (by decide)

/-- C4. Concrete scenario, invalid move: in the 3-node game with every node won by Even,
strategy[0] = 1, and strategy[1] set to a node that is not a successor of node 1 (0 or 1),
`verify(true, true, true)` fails with "strategy is not a valid move"; the same holds when
the nodes are numbered by ascending priority. -/
theorem scenario_invalid_move :
    verify (scenarioGame [0]) true true true = .fail .strategyNotValidMove ∧
    verify (scenarioGame [1]) true true true = .fail .strategyNotValidMove ∧
    verify (scenarioGameSorted [2]) true true true = .fail .strategyNotValidMove ∧
    verify (scenarioGameSorted [0]) true true true = .fail .strategyNotValidMove := by
  refine ⟨?_, ?_, ?_, ?_⟩ <;> decide

/-- C5. Concrete scenario, valid solution accepted: in the 3-node game with every node won
by Even, strategy[0] = 1, strategy[1] = 2 and no strategy at node 2,
`verify(true, true, true)` returns normally; the same holds when the nodes are numbered by
ascending priority. -/
theorem scenario_valid_accepted :
    Succeeds (verify (scenarioGame [2]) true true true) ∧
    Succeeds (verify (scenarioGameSorted [1]) true true true) :=
  ⟨⟨2, by decide⟩, ⟨2, by decide⟩⟩

/-- C6. Winning-node postcondition: if `verify(fullgame, even, odd)` succeeds, every solved
node owned by its winner whose winner's side is under test has exactly one strategy edge,
which is one of its original out-edges and leads to a node solved with the same winner. -/
theorem winning_node_postcondition (g : Game) (fullgame even odd : Bool) (i : Nat)
    (hok : Succeeds (verify g fullgame even odd)) (hi : i < g.n_nodes)
    (hs : g.solved i = true) (hown : g.owner i = g.winner i)
    (hside : (even = true ∧ g.winner i = false) ∨ (odd = true ∧ g.winner i = true)) :
    ∃ t, g.strategy i = [t] ∧ t ∈ g.out i ∧ g.solved t = true ∧ g.winner t = g.winner i := by
  obtain ⟨k, hk⟩ := hok
  obtain ⟨s, hp⟩ := verify_ok_pass1 hk
  obtain ⟨s0, s1, _, h1⟩ := pass1_ok_node hp hi
  exact checkNode_ok_winning h1 hs hown hside

theorem winning_node_postcondition_witness :
    ∃ t, twoDominionGame.strategy 1 = [t] ∧ t ∈ twoDominionGame.out 1 ∧
      twoDominionGame.solved t = true ∧ twoDominionGame.winner t = twoDominionGame.winner 1 :=
  winning_node_postcondition twoDominionGame true true true 1 ⟨2, by decide⟩ (by decide)
    (by decide) (by decide) (Or.inr ⟨rfl, by decide⟩)

/-- C7. Losing-node postcondition: for every setting of the flags, if `verify` succeeds,
every solved node whose owner differs from its winner carries no strategy and each of its
original out-edges leads to a node solved with the same winner. -/
theorem losing_node_postcondition (g : Game) (fullgame even odd : Bool) (i : Nat)
    (hok : Succeeds (verify g fullgame even odd)) (hi : i < g.n_nodes)
    (hs : g.solved i = true) (hown : g.owner i ≠ g.winner i) :
    g.strategy i = [] ∧ ∀ t ∈ g.out i, g.solved t = true ∧ g.winner t = g.winner i := by
  obtain ⟨k, hk⟩ := hok
  obtain ⟨s, hp⟩ := verify_ok_pass1 hk
  obtain ⟨s0, s1, _, h1⟩ := pass1_ok_node hp hi
  exact checkNode_ok_losing h1 hs hown

theorem losing_node_postcondition_witness :
    losingChainGame.strategy 0 = [] ∧
      (losingChainGame.solved 1 = true ∧ losingChainGame.winner 1 = losingChainGame.winner 0) :=
  ⟨(losing_node_postcondition losingChainGame false false false 0 ⟨0, by decide⟩ (by decide)
      (by decide) (by decide)).1,
    (losing_node_postcondition losingChainGame false false false 0 ⟨0, by decide⟩ (by decide)
      (by decide) (by decide)).2 1 (by decide)⟩

/-- C8. Incomplete solutions are rejected: if some enabled node is unsolved then
`verify(true, even, odd)` fails for every choice of the flags; and at the first unsolved
node `k`, if every node below `k` passes its local checks, the failure is
"not every node is won". -/
theorem incomplete_solution_rejected (g : Game) (even odd : Bool) (disabled : Nat → Bool)
    (i : Nat) (hi : i < g.n_nodes) (_hen : disabled i = false) (hun : g.solved i = false) :
    (∃ err, verify g true even odd = .fail err) ∧
    (∀ k, k < g.n_nodes → g.solved k = false → (∀ j, j < k → g.solved j = true) →
      (∀ j, j < k → PassesLocalChecks g true even odd j) →
      verify g true even odd = .fail .notEveryNodeWon) := by
  constructor
  · cases hp : pass1 g true even odd g.n_nodes with
    | ok s =>
      obtain ⟨s0, s1, _, h1⟩ := pass1_ok_node hp hi
      have := checkNode_ok_solved h1
      rw [hun] at this; cases this
    | fail err => exact ⟨err, verify_fail_of_pass1 hp⟩
    | timeout => exact absurd hp (pass1_ne_timeout _ _ _ _ _)
  · intro k hk hku _ hloc
    apply verify_fail_of_pass1
    apply pass1_fail_mono _ (show k + 1 ≤ g.n_nodes by omega)
    have hpre : ∀ m, m ≤ k → ∃ s, pass1 g true even odd m = .ok s := by
      intro m
      induction m with
      | zero => intro _; exact ⟨_, rfl⟩
      | succ m ih =>
        intro hm
        obtain ⟨s, hs⟩ := ih (by omega)
        obtain ⟨s1, hs1⟩ := hloc m (by omega) s
        exact ⟨s1, by rw [pass1, hs]; exact hs1⟩
    obtain ⟨s, hs⟩ := hpre k (le_refl k)
    rw [pass1, hs]
    simp [checkNode, hku]

theorem incomplete_solution_rejected_witness :
    (∃ err, verify twoEdgeStrategyGame true true true = .fail err) ∧
      verify twoEdgeStrategyGame true true true = .fail .notEveryNodeWon :=
  ⟨(incomplete_solution_rejected twoEdgeStrategyGame true true (fun _ => false) 0
      (by decide) rfl rfl).1,
    (incomplete_solution_rejected twoEdgeStrategyGame true true (fun _ => false) 0
      (by decide) rfl rfl).2 0 (by decide) rfl (fun j hj => absurd hj (Nat.not_lt_zero j))
      (fun j hj => absurd hj (Nat.not_lt_zero j))⟩

/-- C9, counterexample. With `fullgame` unset, an unsolved node carrying two strategy edges
does not make `verify` fail: the first loop skips unsolved nodes before looking at their
strategy. -/
theorem nondeterministic_unsolved_accepted :
    0 < twoEdgeStrategyGame.n_nodes ∧ (twoEdgeStrategyGame.strategy 0).length > 1 ∧
      verify twoEdgeStrategyGame false true true = .ok 0 := by
  refine ⟨?_, ?_, ?_⟩ <;> decide

/-- C9, amended. If some node's strategy contains more than one edge and that node is
solved or `fullgame` is set, then `verify` fails, for every setting of the flags. -/
theorem nondeterministic_strategy_rejected (g : Game) (fullgame even odd : Bool) (i : Nat)
    (hi : i < g.n_nodes) (hlen : (g.strategy i).length > 1)
    (hcase : g.solved i = true ∨ fullgame = true) :
    ∃ err, verify g fullgame even odd = .fail err := by
  cases hp : pass1 g fullgame even odd g.n_nodes with
  | ok s =>
    exfalso
    obtain ⟨s0, s1, _, h1⟩ := pass1_ok_node hp hi
    by_cases hs : g.solved i = true
    · have := checkNode_ok_length h1 hs
      omega
    · rcases hcase with h | h
      · exact hs h
      · subst h
        exact hs (checkNode_ok_solved h1)
  | fail err => exact ⟨err, verify_fail_of_pass1 hp⟩
  | timeout => exact absurd hp (pass1_ne_timeout _ _ _ _ _)

theorem nondeterministic_strategy_rejected_witness :
    ∃ err, verify twoEdgeSolvedGame false true true = .fail err :=
  nondeterministic_strategy_rejected twoEdgeSolvedGame false true true 0
    (by decide) (by decide) (Or.inl rfl)

/-! ## The restricted graph built by the first loop -/

theorem sorted_mono {g : Game} (hs : SortedPriorities g) :
    ∀ b, b < g.n_nodes → ∀ a, a ≤ b → g.priority a ≤ g.priority b := by
  intro b
  induction b with
  | zero => intro _ a ha; have : a = 0 := by omega
            rw [this]
  | succ b ih =>
    intro hb a ha
    rcases Nat.eq_or_lt_of_le ha with h | h
    · rw [h]
    · exact le_trans (ih (by omega) a (by omega)) (hs b hb)

theorem checkNode_ok_out {g : Game} {f e o : Bool} {i : Nat} {s0 s : Pass1}
    (h : checkNode g f e o i s0 = .ok s) :
    (g.solved i = false ∧ s = s0) ∨
    (g.solved i = true ∧ s.out = Function.update s0.out i (s0.out i ++ restricted g i)) := by
  unfold checkNode at h
  by_cases hs : g.solved i = false
  · left
    rw [if_pos hs] at h
    split at h
    · simp at h
    · simp only [Outcome.ok.injEq] at h
      exact ⟨hs, h.symm⟩
  · right
    rw [if_neg hs] at h
    refine ⟨by simpa using hs, ?_⟩
    unfold restricted
    cases hst : g.strategy i <;> rw [hst] at h <;> simp only [] at h ⊢ <;>
      split_ifs at h <;> first | (simp at h; done) | (simp only [Outcome.ok.injEq] at h; rw [← h])

theorem pass1_out {g : Game} {f e o : Bool} :
    ∀ (k : Nat) (s : Pass1), pass1 g f e o k = .ok s →
      ∀ x, s.out x = if x < k ∧ g.solved x = true then restricted g x else [] := by
  intro k
  induction k with
  | zero =>
    intro s h x
    simp only [pass1, Outcome.ok.injEq] at h
    rw [← h]
    simp
  | succ k ih =>
    intro s h x
    obtain ⟨s0, h0, hc⟩ := pass1_ok_succ h
    have ih0 := ih s0 h0
    rcases checkNode_ok_out hc with ⟨hs, rfl⟩ | ⟨hs, hout⟩
    · rw [ih0 x]
      by_cases hx : x = k
      · subst hx; simp [hs]
      · have : x < k + 1 ↔ x < k := by omega
        simp only [this]
    · rw [hout]
      by_cases hx : x = k
      · subst hx
        rw [Function.update_same, ih0 x]
        simp [hs]
      · rw [Function.update_noteq hx, ih0 x]
        have : x < k + 1 ↔ x < k := by omega
        simp only [this]

/-- Checked edges of the restricted graph stay among the nodes solved with the same winner. -/
theorem pass1_edge_closed {g : Game} {f e o : Bool} {s : Pass1}
    (h : pass1 g f e o g.n_nodes = .ok s) {x : Nat} (hx : x < g.n_nodes)
    (hsol : g.solved x = true)
    (hside : (e = true ∧ g.winner x = false) ∨ (o = true ∧ g.winner x = true)) :
    ∀ y ∈ restricted g x, g.solved y = true ∧ g.winner y = g.winner x := by
  obtain ⟨s0, s1, _, hc⟩ := pass1_ok_node h hx
  intro y hy
  by_cases hown : g.owner x = g.winner x
  · obtain ⟨t, hst, _, h1, h2⟩ := checkNode_ok_winning hc hsol hown hside
    unfold restricted at hy
    rw [hst] at hy
    simp only [List.mem_singleton] at hy
    rw [hy]; exact ⟨h1, h2⟩
  · obtain ⟨hst, h1⟩ := checkNode_ok_losing hc hsol hown
    unfold restricted at hy
    rw [hst] at hy
    exact h1 y hy

theorem checkNode_fail_kind {g : Game} {f e o : Bool} {i : Nat} {s : Pass1} {mp : Int}
    {scc : List Nat} : checkNode g f e o i s ≠ .fail (.loserCanWin mp scc) := by
  unfold checkNode
  cases hst : g.strategy i <;> simp only [] <;> split_ifs <;> simp

theorem pass1_fail_kind {g : Game} {f e o : Bool} {mp : Int} {scc : List Nat} :
    ∀ k, pass1 g f e o k ≠ .fail (.loserCanWin mp scc) := by
  intro k
  induction k with
  | zero => simp [pass1]
  | succ k ih =>
    rw [pass1]
    cases h : pass1 g f e o k with
    | ok s => exact checkNode_fail_kind
    | fail err => dsimp only; rw [h] at ih; exact ih
    | timeout => simp

/-! ## The component loops -/

/-- Splitting `res` at the first occurrence of `idx`. -/
theorem split_at_mem {idx : Nat} : ∀ {l : List Nat}, idx ∈ l →
    ∃ A B, l = A ++ idx :: B ∧ idx ∉ A := by
  intro l
  induction l with
  | nil => intro h; simp at h
  | cons a l ih =>
    intro h
    by_cases ha : a = idx
    · exact ⟨[], l, by simp [ha], by simp⟩
    · rcases List.mem_cons.1 h with h | h
      · exact absurd h.symm ha
      · obtain ⟨A, B, hl, hA⟩ := ih h
        refine ⟨a :: A, B, by simp [hl], ?_⟩
        simp only [List.mem_cons, not_or]
        exact ⟨fun hc => ha hc.symm, hA⟩

theorem sccMembers_append {idx : Nat} : ∀ (A B : List Nat), idx ∉ A →
    sccMembers idx (A ++ idx :: B) = A ++ [idx] := by
  intro A
  induction A with
  | nil => intro B _; simp [sccMembers]
  | cons a A ih =>
    intro B h
    simp only [List.mem_cons, not_or] at h
    rw [List.cons_append, sccMembers, if_neg (fun hc => h.1 hc.symm), ih B h.2, List.cons_append]

theorem popScc_append {idx : Nat} : ∀ (A B : List Nat), idx ∉ A →
    popScc idx (A ++ idx :: B) = B := by
  intro A
  induction A with
  | nil => intro B _; simp [popScc]
  | cons a A ih =>
    intro B h
    simp only [List.mem_cons, not_or] at h
    rw [List.cons_append, popScc, if_neg (fun hc => h.1 hc.symm), ih B h.2]

theorem markScc_cons_ne (priority : Nat → Nat) (p : Nat) {idx n : Nat} (h : n ≠ idx)
    (rest : List Nat) (a : SccAcc) :
    markScc priority p idx (n :: rest) a =
      markScc priority p idx rest
        ⟨if (priority n : Int) > a.max_p then (priority n : Int) else a.max_p,
          a.scc_size + 1, Function.update a.done n (p : Int)⟩ := by
  rw [markScc]
  simp only [if_neg h]

theorem markScc_cons_eq (priority : Nat → Nat) (p : Nat) (idx : Nat)
    (rest : List Nat) (a : SccAcc) :
    markScc priority p idx (idx :: rest) a =
        ⟨if (priority idx : Int) > a.max_p then (priority idx : Int) else a.max_p,
          a.scc_size + 1, Function.update a.done idx (p : Int)⟩ := by
  rw [markScc]
  simp only [if_true]

theorem markScc_append (priority : Nat → Nat) (p : Nat) {idx : Nat} :
    ∀ (A B : List Nat) (a : SccAcc), idx ∉ A →
      (markScc priority p idx (A ++ idx :: B) a).scc_size = a.scc_size + A.length + 1 ∧
      (∀ x, (markScc priority p idx (A ++ idx :: B) a).done x =
        if x ∈ A ++ [idx] then (p : Int) else a.done x) ∧
      a.max_p ≤ (markScc priority p idx (A ++ idx :: B) a).max_p ∧
      (∀ x ∈ A ++ [idx], (priority x : Int) ≤ (markScc priority p idx (A ++ idx :: B) a).max_p) ∧
      ((markScc priority p idx (A ++ idx :: B) a).max_p = a.max_p ∨
        ∃ x ∈ A ++ [idx], (priority x : Int) = (markScc priority p idx (A ++ idx :: B) a).max_p) := by
  intro A
  induction A with
  | nil =>
    intro B a _
    rw [List.nil_append, markScc_cons_eq]
    simp only [List.nil_append, List.length_nil, List.mem_singleton]
    refine ⟨trivial, ?_, ?_, ?_, ?_⟩
    · intro x
      by_cases hx : x = idx
      · subst hx; simp
      · simp [hx, Function.update_noteq hx]
    · split_ifs <;> omega
    · intro x hx; subst hx; split_ifs <;> omega
    · split_ifs
      · exact Or.inr ⟨idx, rfl, rfl⟩
      · exact Or.inl rfl
  | cons b A ih =>
    intro B a h
    simp only [List.mem_cons, not_or] at h
    rw [List.cons_append, markScc_cons_ne priority p (fun hc => h.1 hc.symm)]
    obtain ⟨h1, h2, h3, h4, h5⟩ := ih B
      ⟨if (priority b : Int) > a.max_p then (priority b : Int) else a.max_p,
        a.scc_size + 1, Function.update a.done b (p : Int)⟩ h.2
    generalize markScc priority p idx (A ++ idx :: B)
      ⟨if (priority b : Int) > a.max_p then (priority b : Int) else a.max_p,
        a.scc_size + 1, Function.update a.done b (p : Int)⟩ = r at h1 h2 h3 h4 h5 ⊢
    simp only [] at h1 h2 h3 h4 h5
    have hmax : a.max_p ≤ (if (priority b : Int) > a.max_p then (priority b : Int) else a.max_p) ∧
        (priority b : Int) ≤ (if (priority b : Int) > a.max_p then (priority b : Int) else a.max_p) := by
      split_ifs <;> constructor <;> omega
    refine ⟨?_, ?_, ?_, ?_, ?_⟩
    · rw [h1, List.length_cons]; omega
    · intro x
      rw [h2 x]
      by_cases hx : x ∈ A ++ [idx]
      · rw [if_pos hx, if_pos (by rw [List.cons_append]; exact List.mem_cons_of_mem _ hx)]
      · rw [if_neg hx]
        by_cases hb : x = b
        · subst hb; simp
        · rw [Function.update_noteq hb, if_neg]
          rw [List.cons_append, List.mem_cons, not_or]
          exact ⟨hb, hx⟩
    · exact le_trans hmax.1 h3
    · intro x hx
      rw [List.cons_append] at hx
      rcases List.mem_cons.1 hx with rfl | hx
      · exact le_trans hmax.2 h3
      · exact h4 x hx
    · rcases h5 with h5 | ⟨x, hx, h5⟩
      · by_cases hc : (priority b : Int) > a.max_p
        · rw [if_pos hc] at h5
          exact Or.inr ⟨b, by simp, h5.symm⟩
        · rw [if_neg hc] at h5
          exact Or.inl h5
      · exact Or.inr ⟨x, by rw [List.cons_append]; exact List.mem_cons_of_mem _ hx, h5⟩

namespace Exact

/-! ## The edge scan -/

theorem scanEdges_pushed {i p bot : Nat} {done : Nat → Int} {low : Nat → Nat} {t : Nat} :
    ∀ (l : List Nat) (m : Nat), scanEdges i p bot done low l m = .pushed t →
      t ∈ l ∧ t ≤ i ∧ done t ≠ (p : Int) ∧ low t ≤ bot := by
  intro l
  induction l with
  | nil => intro m h; simp [scanEdges] at h
  | cons a l ih =>
    intro m h
    rw [scanEdges] at h
    split_ifs at h with h1 h2 h3
    · obtain ⟨ha, hb⟩ := ih m h
      exact ⟨List.mem_cons_of_mem _ ha, hb⟩
    · obtain ⟨ha, hb⟩ := ih m h
      exact ⟨List.mem_cons_of_mem _ ha, hb⟩
    · injection h with h; subst h
      exact ⟨List.mem_cons_self _ _, by omega, h2, h3⟩
    · obtain ⟨ha, hb⟩ := ih _ h
      exact ⟨List.mem_cons_of_mem _ ha, hb⟩
    · obtain ⟨ha, hb⟩ := ih _ h
      exact ⟨List.mem_cons_of_mem _ ha, hb⟩

theorem scanEdges_finished {i p bot : Nat} {done : Nat → Int} {low : Nat → Nat} {m1 : Nat} :
    ∀ (l : List Nat) (m : Nat), scanEdges i p bot done low l m = .finished m1 →
      (∀ y ∈ l, y ≤ i → done y ≠ (p : Int) → bot < low y ∧ m1 ≤ low y) ∧ m1 ≤ m ∧
      (m1 = m ∨ ∃ y ∈ l, y ≤ i ∧ done y ≠ (p : Int) ∧ bot < low y ∧ low y = m1) := by
  intro l
  induction l with
  | nil =>
    intro m h
    simp only [scanEdges, Scan.finished.injEq] at h
    subst h
    simp
  | cons a l ih =>
    intro m h
    rw [scanEdges] at h
    split_ifs at h with h1 h2 h3 h4
    · obtain ⟨ha, hb, hc⟩ := ih m h
      refine ⟨?_, hb, ?_⟩
      · intro y hy hyi hyd
        rcases List.mem_cons.1 hy with rfl | hy
        · omega
        · exact ha y hy hyi hyd
      · rcases hc with hc | ⟨y, hy, hc⟩
        · exact Or.inl hc
        · exact Or.inr ⟨y, List.mem_cons_of_mem _ hy, hc⟩
    · obtain ⟨ha, hb, hc⟩ := ih m h
      refine ⟨?_, hb, ?_⟩
      · intro y hy hyi hyd
        rcases List.mem_cons.1 hy with rfl | hy
        · exact absurd h2 hyd
        · exact ha y hy hyi hyd
      · rcases hc with hc | ⟨y, hy, hc⟩
        · exact Or.inl hc
        · exact Or.inr ⟨y, List.mem_cons_of_mem _ hy, hc⟩
    · obtain ⟨ha, hb, hc⟩ := ih _ h
      refine ⟨?_, by omega, ?_⟩
      · intro y hy hyi hyd
        rcases List.mem_cons.1 hy with rfl | hy
        · exact ⟨by omega, by omega⟩
        · exact ha y hy hyi hyd
      · rcases hc with hc | ⟨y, hy, hc⟩
        · exact Or.inr ⟨a, List.mem_cons_self _ _, by omega, h2, by omega, hc.symm⟩
        · exact Or.inr ⟨y, List.mem_cons_of_mem _ hy, hc⟩
    · obtain ⟨ha, hb, hc⟩ := ih _ h
      refine ⟨?_, hb, ?_⟩
      · intro y hy hyi hyd
        rcases List.mem_cons.1 hy with rfl | hy
        · exact ⟨by omega, by omega⟩
        · exact ha y hy hyi hyd
      · rcases hc with hc | ⟨y, hy, hc⟩
        · exact Or.inl hc
        · exact Or.inr ⟨y, List.mem_cons_of_mem _ hy, hc⟩

/-! ## Invariant of the search loop -/

theorem inv_push {priority : Nat → Nat} {out : Nat → List Nat} {i p bot : Nat}
    {done0 : Nat → Int} {d : Nat → Nat} {dn : Nat → Int} {low : Nat → Nat}
    {res rest : List Nat} {pre idx t : Nat}
    (hinv : SearchInv priority out i p bot done0 d ⟨dn, low, res, idx :: rest, pre⟩)
    (ht_out : t ∈ out idx) (ht_i : t ≤ i) (ht_done : dn t ≠ (p : Int)) (ht_low : low t ≤ bot) :
    SearchInv priority out i p bot done0 (Function.update d t (pre + 1))
      ⟨dn, Function.update low t (pre + 1), t :: res, t :: idx :: rest, pre + 1⟩ := by
  obtain ⟨bot_le, res_bound, res_notdone, res_low, res_d, res_sorted, low_pre, vis, start_vis,
    st_res, st_sorted, st_edge, base, closedD, popped, parent, reach, from_start, doneval,
    acyc⟩ := hinv
  dsimp only at *
  have htres : t ∉ res := fun h => by have := (res_low t h).1; omega
  have hne : ∀ x ∈ res, x ≠ t := fun x hx h => htres (h ▸ hx)
  have hd : ∀ x ∈ res, Function.update d t (pre + 1) x = d x :=
    fun x hx => Function.update_noteq (hne x hx) _ _
  have hl : ∀ x ∈ res, Function.update low t (pre + 1) x = low x :=
    fun x hx => Function.update_noteq (hne x hx) _ _
  have hdt : Function.update d t (pre + 1) t = pre + 1 := Function.update_same _ _ _
  have hlt : Function.update low t (pre + 1) t = pre + 1 := Function.update_same _ _ _
  have hstres : ∀ x ∈ idx :: rest, x ∈ res := fun x hx => (st_res x hx).1
  have hpop : ∀ x, x ∈ t :: res → x ∉ t :: idx :: rest → x ∈ res ∧ x ∉ idx :: rest := by
    intro x hx hxs
    simp only [List.mem_cons, not_or] at hx hxs
    rcases hx with hx | hx
    · exact absurd hx hxs.1
    · exact ⟨hx, by simp only [List.mem_cons, not_or]; exact ⟨hxs.2.1, hxs.2.2⟩⟩
  refine ⟨?_, ?_, ?_, ?_, ?_, ?_, ?_, ?_, ?_, ?_, ?_, ?_, ?_, ?_, ?_, ?_, ?_, ?_, ?_, ?_⟩ <;>
    dsimp only
  · omega
  · intro x hx
    rcases List.mem_cons.1 hx with rfl | hx
    · exact ht_i
    · exact res_bound x hx
  · intro x hx
    rcases List.mem_cons.1 hx with rfl | hx
    · exact ht_done
    · exact res_notdone x hx
  · intro x hx
    rcases List.mem_cons.1 hx with rfl | hx
    · rw [hdt, hlt]; omega
    · rw [hd x hx, hl x hx]; exact res_low x hx
  · intro x hx
    rcases List.mem_cons.1 hx with rfl | hx
    · rw [hdt]
    · rw [hd x hx]; have := res_d x hx; omega
  · rw [List.pairwise_cons]
    constructor
    · intro a ha
      rw [hd a ha, hdt]; have := res_d a ha; omega
    · refine List.Pairwise.imp_of_mem ?_ res_sorted
      intro a b ha hb hab
      rw [hd a ha, hd b hb]; exact hab
  · intro x
    by_cases hx : x = t
    · subst hx; rw [hlt]
    · rw [Function.update_noteq hx]; have := low_pre x; omega
  · intro x hx
    by_cases hxt : x = t
    · subst hxt; exact Or.inl (List.mem_cons_self _ _)
    · rw [Function.update_noteq hxt] at hx
      rcases vis x hx with h | h
      · exact Or.inl (List.mem_cons_of_mem _ h)
      · exact Or.inr h
  · by_cases hit : i = t
    · subst hit; rw [hlt]; omega
    · rw [Function.update_noteq hit]; exact start_vis
  · intro x hx
    rcases List.mem_cons.1 hx with rfl | hx
    · exact ⟨List.mem_cons_self _ _, by rw [hlt, hdt]⟩
    · have := st_res x hx
      exact ⟨List.mem_cons_of_mem _ this.1, by rw [hl x this.1, hd x this.1]; exact this.2⟩
  · rw [List.pairwise_cons]
    constructor
    · intro a ha
      have har := hstres a ha
      rw [hd a har, hdt]; have := res_d a har; omega
    · refine List.Pairwise.imp_of_mem ?_ st_sorted
      intro a b ha hb hab
      rw [hd a (hstres a ha), hd b (hstres b hb)]; exact hab
  · exact List.Chain'.cons ht_out st_edge
  · intro x hx
    rcases List.mem_cons.1 hx with rfl | hx
    · exact ⟨x, List.mem_cons_self _ _, le_refl _⟩
    · obtain ⟨u, hu, hux⟩ := base x hx
      refine ⟨u, List.mem_cons_of_mem _ hu, ?_⟩
      rw [hd u (hstres u hu), hd x hx]; exact hux
  · exact closedD
  · intro x hx hxs
    obtain ⟨hxr, hxs1⟩ := hpop x hx hxs
    obtain ⟨h1, h2⟩ := popped x hxr hxs1
    rw [hl x hxr, hd x hxr]
    refine ⟨h1, ?_⟩
    intro y hy hyi
    rcases h2 y hy hyi with h | ⟨h, h3⟩
    · exact Or.inl h
    · exact Or.inr ⟨List.mem_cons_of_mem _ h, by rw [hd y h]; exact h3⟩
  · intro x hx hxs
    obtain ⟨hxr, hxs1⟩ := hpop x hx hxs
    obtain ⟨y, hy, hxy, hdy, hseg, hlow⟩ := parent x hxr hxs1
    refine ⟨y, List.mem_cons_of_mem _ hy, hxy, by rw [hd y hy, hd x hxr]; exact hdy, ?_, ?_⟩
    · intro u hu hux
      rcases List.mem_cons.1 hu with rfl | hu
      · rw [hdt, hd x hxr] at hux
        have := res_d x hxr; omega
      · rw [hd u (hstres u hu), hd x hxr] at hux
        rw [hd u (hstres u hu), hd y hy]
        exact hseg u hu hux
    · intro hys
      rw [hl y hy, hl x hxr]
      apply hlow
      intro hc
      exact hys (List.mem_cons_of_mem _ hc)
  · intro x hx hxs
    obtain ⟨hxr, hxs1⟩ := hpop x hx hxs
    obtain ⟨z, hz, hdz, hpath⟩ := reach x hxr hxs1
    refine ⟨z, List.mem_cons_of_mem _ hz, by rw [hd z hz, hl x hxr]; exact hdz, ?_⟩
    refine Relation.ReflTransGen.mono ?_ hpath
    intro a b ⟨hab, hb, hzb, hseg⟩
    refine ⟨hab, List.mem_cons_of_mem _ hb, by rw [hd z hz, hd b hb]; exact hzb, ?_⟩
    intro u hu hxu
    rcases List.mem_cons.1 hu with rfl | hu
    · rw [hdt, hd b hb]; have := res_d b hb; omega
    · rw [hd u (hstres u hu), hd x hxr] at hxu
      rw [hd u (hstres u hu), hd b hb]
      exact hseg u hu hxu
  · intro x hx
    rcases List.mem_cons.1 hx with rfl | hx
    · exact Relation.ReflTransGen.tail (from_start idx (hstres idx (List.mem_cons_self _ _))) ht_out
    · exact from_start x hx
  · exact doneval
  · exact acyc

theorem inv_pop {priority : Nat → Nat} {out : Nat → List Nat} {i p bot : Nat}
    {done0 : Nat → Int} {d : Nat → Nat} {dn : Nat → Int} {low : Nat → Nat}
    {res rest : List Nat} {pre idx m : Nat}
    (hinv : SearchInv priority out i p bot done0 d ⟨dn, low, res, idx :: rest, pre⟩)
    (hscan : scanEdges i p bot dn low (out idx) (low idx) = .finished m)
    (hm : m < low idx) :
    SearchInv priority out i p bot done0 d ⟨dn, Function.update low idx m, res, rest, pre⟩ := by
  obtain ⟨bot_le, res_bound, res_notdone, res_low, res_d, res_sorted, low_pre, vis, start_vis,
    st_res, st_sorted, st_edge, base, closedD, popped, parent, reach, from_start, doneval,
    acyc⟩ := hinv
  dsimp only at *
  obtain ⟨hsc1, _, hsc3⟩ := scanEdges_finished _ _ hscan
  obtain ⟨t0, ht0_out, ht0_i, ht0_done, ht0_vis, ht0_low⟩ : ∃ y ∈ out idx, y ≤ i ∧
      dn y ≠ (p : Int) ∧ bot < low y ∧ low y = m := by
    rcases hsc3 with h | h
    · omega
    · exact h
  have hidx_res : idx ∈ res := (st_res idx (List.mem_cons_self _ _)).1
  have hidx_low : low idx = d idx := (st_res idx (List.mem_cons_self _ _)).2
  have hrest_lt : ∀ u ∈ rest, d u < d idx := (List.pairwise_cons.1 st_sorted).1
  have hrest_ne : ∀ u ∈ rest, u ≠ idx := fun u hu h => by
    have := hrest_lt u hu; rw [h] at this; omega
  have hidx_rest : idx ∉ rest := fun h => hrest_ne idx h rfl
  have hl : ∀ x, x ≠ idx → Function.update low idx m x = low x :=
    fun x hx => Function.update_noteq hx _ _
  have hli : Function.update low idx m idx = m := Function.update_same _ _ _
  have ht0_res : t0 ∈ res := by
    rcases vis t0 ht0_vis with h | h
    · exact h
    · exact absurd h ht0_done
  have hbotm : bot < m := by omega
  -- the node whose number is the new low value of idx
  obtain ⟨z, hz, hdz, hzpath⟩ : ∃ z ∈ res, d z = m ∧
      Relation.ReflTransGen (fun a b => b ∈ out a ∧ b ∈ res ∧ d z ≤ d b) idx z := by
    by_cases hts : t0 ∈ idx :: rest
    · refine ⟨t0, ht0_res, ?_, ?_⟩
      · rw [← (st_res t0 hts).2]; exact ht0_low
      · exact Relation.ReflTransGen.single ⟨ht0_out, ht0_res, le_refl _⟩
    · obtain ⟨z, hz, hdz, hpath⟩ := reach t0 ht0_res hts
      refine ⟨z, hz, by rw [hdz]; exact ht0_low, ?_⟩
      refine Relation.ReflTransGen.head (b := t0) ⟨ht0_out, ht0_res, ?_⟩ ?_
      · rw [hdz]; exact (res_low t0 ht0_res).2
      · refine Relation.ReflTransGen.mono ?_ hpath
        intro a b ⟨hab, hb, hzb, _⟩
        exact ⟨hab, hb, hzb⟩
  obtain ⟨r, rest1, hrest⟩ : ∃ r rest1, rest = r :: rest1 := by
    obtain ⟨u, hu, huz⟩ := base z hz
    rcases List.mem_cons.1 hu with rfl | hu
    · omega
    · cases rest with
      | nil => simp at hu
      | cons r rest1 => exact ⟨r, rest1, rfl⟩
  have hr_mem : r ∈ rest := by rw [hrest]; exact List.mem_cons_self _ _
  have hr_max : ∀ u ∈ rest, d u ≤ d r := by
    intro u hu
    have hs := (List.pairwise_cons.1 st_sorted).2
    rw [hrest] at hs hu
    rcases List.mem_cons.1 hu with rfl | hu
    · exact le_refl _
    · exact le_of_lt ((List.pairwise_cons.1 hs).1 u hu)
  have hr_edge : idx ∈ out r := by
    rw [hrest] at st_edge
    exact (List.chain'_cons.1 st_edge).1
  have hnotst : ∀ x, x ≠ idx → x ∉ rest → x ∉ idx :: rest := by
    intro x hx hxr hc
    rcases List.mem_cons.1 hc with h | h
    · exact hx h
    · exact hxr h
  refine ⟨?_, ?_, ?_, ?_, ?_, ?_, ?_, ?_, ?_, ?_, ?_, ?_, ?_, ?_, ?_, ?_, ?_, ?_, ?_, ?_⟩ <;>
    dsimp only
  · exact bot_le
  · exact res_bound
  · exact res_notdone
  · intro x hx
    by_cases hxi : x = idx
    · subst hxi; rw [hli]; omega
    · rw [hl x hxi]; exact res_low x hx
  · exact res_d
  · exact res_sorted
  · intro x
    by_cases hxi : x = idx
    · subst hxi; rw [hli]; have := low_pre x; omega
    · rw [hl x hxi]; exact low_pre x
  · intro x hx
    by_cases hxi : x = idx
    · subst hxi; exact Or.inl hidx_res
    · rw [hl x hxi] at hx; exact vis x hx
  · by_cases hxi : i = idx
    · subst hxi; rw [hli]; exact hbotm
    · rw [hl i hxi]; exact start_vis
  · intro x hx
    have := st_res x (List.mem_cons_of_mem _ hx)
    exact ⟨this.1, by rw [hl x (hrest_ne x hx)]; exact this.2⟩
  · exact (List.pairwise_cons.1 st_sorted).2
  · exact List.Chain'.tail st_edge
  · intro x hx
    obtain ⟨u, hu, hux⟩ := base x hx
    rcases List.mem_cons.1 hu with rfl | hu
    · exact ⟨r, hr_mem, by have := hrest_lt r hr_mem; omega⟩
    · exact ⟨u, hu, hux⟩
  · exact closedD
  · intro x hx hxs
    by_cases hxi : x = idx
    · subst hxi
      rw [hli]
      refine ⟨by omega, ?_⟩
      intro y hy hyi
      by_cases hyd : dn y = (p : Int)
      · exact Or.inl hyd
      · obtain ⟨h1, h2⟩ := hsc1 y hy hyi hyd
        rcases vis y h1 with h | h
        · exact Or.inr ⟨h, by have := (res_low y h).2; omega⟩
        · exact absurd h hyd
    · rw [hl x hxi]
      exact popped x hx (hnotst x hxi hxs)
  · intro x hx hxs
    by_cases hxi : x = idx
    · subst hxi
      refine ⟨r, (st_res r (List.mem_cons_of_mem _ hr_mem)).1, hr_edge, hrest_lt r hr_mem, ?_, ?_⟩
      · intro u hu _; exact hr_max u hu
      · intro hc; exact absurd hr_mem hc
    · obtain ⟨y, hy, hxy, hdy, hseg, hlow⟩ := parent x hx (hnotst x hxi hxs)
      refine ⟨y, hy, hxy, hdy, fun u hu => hseg u (List.mem_cons_of_mem _ hu), ?_⟩
      intro hys
      rw [hl x hxi]
      by_cases hyi : y = idx
      · subst hyi
        rw [hli]
        exact (hsc1 x hxy (res_bound x hx) (res_notdone x hx)).2
      · rw [hl y hyi]
        exact hlow (hnotst y hyi hys)
  · intro x hx hxs
    by_cases hxi : x = idx
    · subst hxi
      refine ⟨z, hz, by rw [hli]; exact hdz, ?_⟩
      refine Relation.ReflTransGen.mono ?_ hzpath
      intro a b ⟨hab, hb, hzb⟩
      refine ⟨hab, hb, hzb, ?_⟩
      intro u hu hxu
      have := hrest_lt u hu
      omega
    · obtain ⟨z1, hz1, hdz1, hpath⟩ := reach x hx (hnotst x hxi hxs)
      refine ⟨z1, hz1, by rw [hl x hxi]; exact hdz1, ?_⟩
      refine Relation.ReflTransGen.mono ?_ hpath
      intro a b ⟨hab, hb, hzb, hseg⟩
      exact ⟨hab, hb, hzb, fun u hu => hseg u (List.mem_cons_of_mem _ hu)⟩
  · exact from_start
  · exact doneval
  · exact acyc

/-- Facts about the component found when the node on top of the stack is a root. -/
theorem root_facts {priority : Nat → Nat} {out : Nat → List Nat} {i p bot : Nat}
    {done0 : Nat → Int} {d : Nat → Nat} {dn : Nat → Int} {low : Nat → Nat}
    {A B rest : List Nat} {pre idx m : Nat}
    (hinv : SearchInv priority out i p bot done0 d ⟨dn, low, A ++ idx :: B, idx :: rest, pre⟩)
    (hscan : scanEdges i p bot dn low (out idx) (low idx) = .finished m)
    (hm : ¬ m < low idx) :
    (∀ x ∈ A, d idx < d x) ∧ (∀ x ∈ B, d x < d idx) ∧ (∀ x ∈ A, x ∉ idx :: rest) ∧
    (∀ x ∈ rest, x ∈ B) ∧
    (∀ x ∈ A ++ [idx], d idx ≤ low x) ∧
    (∀ x ∈ A ++ [idx], ∀ y ∈ out x, y ≤ i → dn y = (p : Int) ∨ y ∈ A ++ [idx]) ∧
    (∀ x ∈ A ++ [idx],
      Relation.ReflTransGen (fun a b => b ∈ out a ∧ b ∈ A ++ [idx]) x idx ∧
      Relation.ReflTransGen (fun a b => b ∈ out a ∧ b ∈ A ++ [idx]) idx x) := by
  obtain ⟨bot_le, res_bound, res_notdone, res_low, res_d, res_sorted, low_pre, vis, start_vis,
    st_res, st_sorted, st_edge, base, closedD, popped, parent, reach, from_start, doneval,
    acyc⟩ := hinv
  dsimp only at *
  obtain ⟨hsc1, _, _⟩ := scanEdges_finished _ _ hscan
  have hidx_low : low idx = d idx := (st_res idx (List.mem_cons_self _ _)).2
  have hrest_lt : ∀ u ∈ rest, d u < d idx := (List.pairwise_cons.1 st_sorted).1
  rw [List.pairwise_append] at res_sorted
  obtain ⟨_, hsB, hAB⟩ := res_sorted
  have hA_gt : ∀ x ∈ A, d idx < d x := fun x hx => hAB x hx idx (List.mem_cons_self _ _)
  have hB_lt : ∀ x ∈ B, d x < d idx := (List.pairwise_cons.1 hsB).1
  have hA_st : ∀ x ∈ A, x ∉ idx :: rest := by
    intro x hx hc
    have := hA_gt x hx
    rcases List.mem_cons.1 hc with h | h
    · rw [h] at this; omega
    · have := hrest_lt x h; omega
  have hrest_B : ∀ x ∈ rest, x ∈ B := by
    intro x hx
    have h1 := (st_res x (List.mem_cons_of_mem _ hx)).1
    have h2 := hrest_lt x hx
    rcases List.mem_append.1 h1 with h | h
    · have := hA_gt x h; omega
    · rcases List.mem_cons.1 h with h | h
      · rw [h] at h2; omega
      · exact h
  have hS_res : ∀ x ∈ A ++ [idx], x ∈ A ++ idx :: B := by
    intro x hx
    rcases List.mem_append.1 hx with h | h
    · exact List.mem_append_left _ h
    · rw [List.mem_singleton] at h
      subst h
      exact List.mem_append_right _ (List.mem_cons_self _ _)
  have hS_of : ∀ x ∈ A ++ idx :: B, d idx ≤ d x → x ∈ A ++ [idx] := by
    intro x hx hdx
    rcases List.mem_append.1 hx with h | h
    · exact List.mem_append_left _ h
    · rcases List.mem_cons.1 h with h | h
      · subst h; simp
      · have := hB_lt x h; omega
  have hS_d : ∀ x ∈ A ++ [idx], d idx ≤ d x := by
    intro x hx
    rcases List.mem_append.1 hx with h | h
    · exact le_of_lt (hA_gt x h)
    · rw [List.mem_singleton] at h; subst h; exact le_refl _
  have hidx_S : idx ∈ A ++ [idx] := by simp
  -- lower bound on the low values of the component
  have hlowb : ∀ n, ∀ x ∈ A ++ [idx], d x = n → d idx ≤ low x := by
    intro n
    induction n using Nat.strong_induction_on with
    | _ n ih =>
      intro x hx hdx
      rcases List.mem_append.1 hx with h | h
      · obtain ⟨y, hy, hxy, hdy, hseg, hlow⟩ := parent x (hS_res x hx) (hA_st x h)
        have hy_ge : d idx ≤ d y :=
          hseg idx (List.mem_cons_self _ _) (le_of_lt (hA_gt x h))
        have hyS := hS_of y hy hy_ge
        by_cases hys : y ∈ idx :: rest
        · have hyi : y = idx := by
            rcases List.mem_cons.1 hys with h1 | h1
            · exact h1
            · have := hrest_lt y h1; omega
          subst hyi
          have := (hsc1 x hxy (res_bound x (hS_res x hx)) (res_notdone x (hS_res x hx))).2
          omega
        · have h1 := hlow hys
          have h2 := ih (d y) (by omega) y hyS rfl
          omega
      · rw [List.mem_singleton] at h; subst h; omega
  have hlowS : ∀ x ∈ A ++ [idx], d idx ≤ low x := fun x hx => hlowb (d x) x hx rfl
  have hclos : ∀ x ∈ A ++ [idx], ∀ y ∈ out x, y ≤ i → dn y = (p : Int) ∨ y ∈ A ++ [idx] := by
    intro x hx y hy hyi
    rcases List.mem_append.1 hx with h | h
    · rcases (popped x (hS_res x hx) (hA_st x h)).2 y hy hyi with h1 | ⟨h1, h2⟩
      · exact Or.inl h1
      · exact Or.inr (hS_of y h1 (le_trans (hlowS x hx) h2))
    · rw [List.mem_singleton] at h; subst h
      by_cases hyd : dn y = (p : Int)
      · exact Or.inl hyd
      · obtain ⟨h1, h2⟩ := hsc1 y hy hyi hyd
        rcases vis y h1 with h3 | h3
        · exact Or.inr (hS_of y h3 (by have := (res_low y h3).2; omega))
        · exact absurd h3 hyd
  have hto : ∀ n, ∀ x ∈ A ++ [idx], d x = n →
      Relation.ReflTransGen (fun a b => b ∈ out a ∧ b ∈ A ++ [idx]) x idx := by
    intro n
    induction n using Nat.strong_induction_on with
    | _ n ih =>
      intro x hx hdx
      rcases List.mem_append.1 hx with h | h
      · obtain ⟨z, hz, hdz, hpath⟩ := reach x (hS_res x hx) (hA_st x h)
        have hzlow := hlowS x hx
        have hzS : z ∈ A ++ [idx] := hS_of z hz (by omega)
        have hlt := (popped x (hS_res x hx) (hA_st x h)).1
        have h1 : Relation.ReflTransGen (fun a b => b ∈ out a ∧ b ∈ A ++ [idx]) x z := by
          refine Relation.ReflTransGen.mono ?_ hpath
          intro a b ⟨hab, hb, hzb, _⟩
          exact ⟨hab, hS_of b hb (by omega)⟩
        exact h1.trans (ih (d z) (by omega) z hzS rfl)
      · rw [List.mem_singleton] at h; subst h; exact Relation.ReflTransGen.refl
  have hfrom : ∀ n, ∀ x ∈ A ++ [idx], d x = n →
      Relation.ReflTransGen (fun a b => b ∈ out a ∧ b ∈ A ++ [idx]) idx x := by
    intro n
    induction n using Nat.strong_induction_on with
    | _ n ih =>
      intro x hx hdx
      rcases List.mem_append.1 hx with h | h
      · obtain ⟨y, hy, hxy, hdy, hseg, _⟩ := parent x (hS_res x hx) (hA_st x h)
        have hy_ge : d idx ≤ d y :=
          hseg idx (List.mem_cons_self _ _) (le_of_lt (hA_gt x h))
        have hyS := hS_of y hy hy_ge
        exact Relation.ReflTransGen.tail (ih (d y) (by omega) y hyS rfl) ⟨hxy, hx⟩
      · rw [List.mem_singleton] at h; subst h; exact Relation.ReflTransGen.refl
  exact ⟨hA_gt, hB_lt, hA_st, hrest_B, hlowS, hclos,
    fun x hx => ⟨hto (d x) x hx rfl, hfrom (d x) x hx rfl⟩⟩

theorem done_closed_reach {out : Nat → List Nat} {i p b : Nat} {dn : Nat → Int}
    (hclosed : ∀ x, dn x = (p : Int) → ∀ y ∈ out x, y ≤ i → dn y = (p : Int)) (hb : b ≤ i)
    {a c : Nat} (h : Relation.ReflTransGen (EdgeBelow out b) a c) (ha : dn a = (p : Int)) :
    dn c = (p : Int) := by
  induction h with
  | refl => exact ha
  | tail _ hstep ih => exact hclosed _ ih _ hstep.1 (le_trans hstep.2 hb)

theorem inv_root {priority : Nat → Nat} {out : Nat → List Nat} {i p bot : Nat}
    {done0 : Nat → Int} {d : Nat → Nat} {dn dn1 : Nat → Int} {low : Nat → Nat}
    {A B rest : List Nat} {pre idx m : Nat}
    (hinv : SearchInv priority out i p bot done0 d ⟨dn, low, A ++ idx :: B, idx :: rest, pre⟩)
    (hscan : scanEdges i p bot dn low (out idx) (low idx) = .finished m)
    (hm : ¬ m < low idx)
    (hdn1 : ∀ x, dn1 x = if x ∈ A ++ [idx] then (p : Int) else dn x)
    (hcheck : (A = [] ∧ idx ∉ out idx) ∨ (∀ x ∈ A ++ [idx], priority x ≠ p)) :
    SearchInv priority out i p bot done0 d ⟨dn1, low, B, rest, pre⟩ := by
  obtain ⟨hA_gt, hB_lt, hA_st, hrest_B, hlowS, hclos, _⟩ := root_facts hinv hscan hm
  obtain ⟨bot_le, res_bound, res_notdone, res_low, res_d, res_sorted, low_pre, vis, start_vis,
    st_res, st_sorted, st_edge, base, closedD, popped, parent, reach, from_start, doneval,
    acyc⟩ := hinv
  dsimp only at *
  have hrest_lt : ∀ u ∈ rest, d u < d idx := (List.pairwise_cons.1 st_sorted).1
  have hB_res : ∀ x ∈ B, x ∈ A ++ idx :: B :=
    fun x hx => List.mem_append_right _ (List.mem_cons_of_mem _ hx)
  have hS_d : ∀ x ∈ A ++ [idx], d idx ≤ d x := by
    intro x hx
    rcases List.mem_append.1 hx with h | h
    · exact le_of_lt (hA_gt x h)
    · rw [List.mem_singleton] at h; subst h; exact le_refl _
  have hB_notS : ∀ x ∈ B, x ∉ A ++ [idx] := by
    intro x hx hc
    have := hS_d x hc
    have := hB_lt x hx
    omega
  have hB_of : ∀ x ∈ A ++ idx :: B, d x < d idx → x ∈ B := by
    intro x hx hdx
    rcases List.mem_append.1 hx with h | h
    · have := hA_gt x h; omega
    · rcases List.mem_cons.1 h with h | h
      · rw [h] at hdx; omega
      · exact h
  have hres_cases : ∀ x ∈ A ++ idx :: B, x ∈ A ++ [idx] ∨ x ∈ B := by
    intro x hx
    rcases List.mem_append.1 hx with h | h
    · exact Or.inl (List.mem_append_left _ h)
    · rcases List.mem_cons.1 h with h | h
      · subst h; exact Or.inl (by simp)
      · exact Or.inr h
  have hdn_S : ∀ x ∈ A ++ [idx], dn1 x = (p : Int) := fun x hx => by rw [hdn1, if_pos hx]
  have hdn_nS : ∀ x, x ∉ A ++ [idx] → dn1 x = dn x := fun x hx => by rw [hdn1, if_neg hx]
  have hdn_p : ∀ x, dn x = (p : Int) → dn1 x = (p : Int) := by
    intro x hx
    by_cases h : x ∈ A ++ [idx]
    · exact hdn_S x h
    · rw [hdn_nS x h]; exact hx
  have hB_st : ∀ x ∈ B, x ∉ rest → x ∉ idx :: rest := by
    intro x hx hxr hc
    rcases List.mem_cons.1 hc with h | h
    · have := hB_lt x hx; rw [h] at this; omega
    · exact hxr h
  have hidx_res : idx ∈ A ++ idx :: B := List.mem_append_right _ (List.mem_cons_self _ _)
  rw [List.pairwise_append] at res_sorted
  refine ⟨?_, ?_, ?_, ?_, ?_, ?_, ?_, ?_, ?_, ?_, ?_, ?_, ?_, ?_, ?_, ?_, ?_, ?_, ?_, ?_⟩ <;>
    dsimp only
  · exact bot_le
  · exact fun x hx => res_bound x (hB_res x hx)
  · intro x hx
    rw [hdn_nS x (hB_notS x hx)]
    exact res_notdone x (hB_res x hx)
  · exact fun x hx => res_low x (hB_res x hx)
  · exact fun x hx => res_d x (hB_res x hx)
  · exact (List.pairwise_cons.1 res_sorted.2.1).2
  · exact low_pre
  · intro x hx
    rcases vis x hx with h | h
    · rcases hres_cases x h with h1 | h1
      · exact Or.inr (hdn_S x h1)
      · exact Or.inl h1
    · exact Or.inr (hdn_p x h)
  · exact start_vis
  · intro x hx
    exact ⟨hrest_B x hx, (st_res x (List.mem_cons_of_mem _ hx)).2⟩
  · exact (List.pairwise_cons.1 st_sorted).2
  · exact List.Chain'.tail st_edge
  · intro x hx
    obtain ⟨u, hu, hux⟩ := base x (hB_res x hx)
    rcases List.mem_cons.1 hu with rfl | hu
    · have := hB_lt x hx; omega
    · exact ⟨u, hu, hux⟩
  · intro x hx y hy hyi
    by_cases hxS : x ∈ A ++ [idx]
    · rcases hclos x hxS y hy hyi with h | h
      · exact hdn_p y h
      · exact hdn_S y h
    · rw [hdn_nS x hxS] at hx
      exact hdn_p y (closedD x hx y hy hyi)
  · intro x hx hxs
    obtain ⟨h1, h2⟩ := popped x (hB_res x hx) (hB_st x hx hxs)
    refine ⟨h1, ?_⟩
    intro y hy hyi
    rcases h2 y hy hyi with h | ⟨h, h3⟩
    · exact Or.inl (hdn_p y h)
    · rcases hres_cases y h with h4 | h4
      · exact Or.inl (hdn_S y h4)
      · exact Or.inr ⟨h4, h3⟩
  · intro x hx hxs
    obtain ⟨y, hy, hxy, hdy, hseg, hlow⟩ := parent x (hB_res x hx) (hB_st x hx hxs)
    have hyB : y ∈ B := hB_of y hy (by have := hB_lt x hx; omega)
    refine ⟨y, hyB, hxy, hdy, fun u hu => hseg u (List.mem_cons_of_mem _ hu), ?_⟩
    intro hys
    exact hlow (hB_st y hyB hys)
  · intro x hx hxs
    obtain ⟨z, hz, hdz, hpath⟩ := reach x (hB_res x hx) (hB_st x hx hxs)
    have hlt := (popped x (hB_res x hx) (hB_st x hx hxs)).1
    have hxB := hB_lt x hx
    refine ⟨z, hB_of z hz (by omega), hdz, ?_⟩
    refine Relation.ReflTransGen.mono ?_ hpath
    intro a b ⟨hab, hb, hzb, hseg⟩
    exact ⟨hab, hB_of b hb (hseg idx (List.mem_cons_self _ _) hxB), hzb,
      fun u hu => hseg u (List.mem_cons_of_mem _ hu)⟩
  · exact fun x hx => from_start x (hB_res x hx)
  · intro x
    by_cases hxS : x ∈ A ++ [idx]
    · exact Or.inl (hdn_S x hxS)
    · rw [hdn_nS x hxS]; exact doneval x
  · intro x hx hpx
    by_cases hxS : x ∈ A ++ [idx]
    · rcases hcheck with ⟨hAnil, hself⟩ | hno
      · subst hAnil
        simp only [List.nil_append, List.mem_singleton] at hxS hclos
        subst hxS
        intro hcyc
        obtain ⟨y, hxy, hyx⟩ := Relation.TransGen.head'_iff.1 hcyc
        have hxi : x ≤ i := res_bound x hidx_res
        have hyd : dn y = (p : Int) := by
          rcases hclos x rfl y hxy.1 (le_trans hxy.2 hxi) with h | h
          · exact h
          · rw [h] at hxy; exact absurd hxy.1 hself
        exact res_notdone x hidx_res (done_closed_reach closedD hxi hyx hyd)
      · exact absurd hpx (hno x hxS)
    · rw [hdn_nS x hxS] at hx
      exact acyc x hx hpx

/-! ## Walks and cycles -/

theorem chain_of_reflTransGen {R : Nat → Nat → Prop} {Q : Nat → Prop} {a b : Nat}
    (h : Relation.ReflTransGen (fun x y => R x y ∧ Q y) a b) :
    a = b ∨ ∃ l, List.Chain R a (l ++ [b]) ∧ ∀ y ∈ l, Q y := by
  induction h using Relation.ReflTransGen.head_induction_on with
  | refl => exact Or.inl rfl
  | @head a1 c1 hac _ ih =>
    rcases ih with rfl | ⟨l, hl, hq⟩
    · exact Or.inr ⟨[], List.Chain.cons hac.1 List.Chain.nil, by simp⟩
    · refine Or.inr ⟨c1 :: l, List.Chain.cons hac.1 hl, ?_⟩
      intro y hy
      rcases List.mem_cons.1 hy with rfl | hy
      · exact hac.2
      · exact hq y hy

theorem chain_concat {R : Nat → Nat → Prop} {a b c : Nat} {l1 l2 : List Nat}
    (h1 : List.Chain R a (l1 ++ [b])) (h2 : List.Chain R b (l2 ++ [c])) :
    List.Chain R a ((l1 ++ b :: l2) ++ [c]) := by
  have : (l1 ++ b :: l2) ++ [c] = l1 ++ b :: (l2 ++ [c]) := by simp
  rw [this, List.chain_split]
  exact ⟨h1, h2⟩

/-- Closed walks through a common node can be joined into one that visits a given list. -/
theorem closed_walk_cover {R : Nat → Nat → Prop} {Q : Nat → Prop} {a : Nat} (ha : Q a)
    (hthrough : ∀ x, Q x → x ≠ a → ∃ l, List.Chain R a (l ++ [a]) ∧ (∀ y ∈ l, Q y) ∧ x ∈ l) :
    ∀ (L l0 : List Nat), (∀ x ∈ L, Q x) → List.Chain R a (l0 ++ [a]) → (∀ y ∈ l0, Q y) →
      ∃ l, List.Chain R a (l ++ [a]) ∧ (∀ y ∈ l, Q y) ∧ ∀ x ∈ L, x ∈ a :: l := by
  intro L
  induction L with
  | nil => intro l0 _ h0 hq; exact ⟨l0, h0, hq, by simp⟩
  | cons x L ih =>
    intro l0 hL h0 hq
    obtain ⟨l, hl, hlq, hcov⟩ := ih l0 (fun y hy => hL y (List.mem_cons_of_mem _ hy)) h0 hq
    by_cases hxa : x = a
    · refine ⟨l, hl, hlq, ?_⟩
      intro y hy
      rcases List.mem_cons.1 hy with rfl | hy
      · rw [hxa]; exact List.mem_cons_self _ _
      · exact hcov y hy
    · obtain ⟨w, hw, hwq, hxw⟩ := hthrough x (hL x (List.mem_cons_self _ _)) hxa
      refine ⟨l ++ a :: w, chain_concat hl hw, ?_, ?_⟩
      · intro y hy
        rcases List.mem_append.1 hy with h | h
        · exact hlq y h
        · rcases List.mem_cons.1 h with h | h
          · rw [h]; exact ha
          · exact hwq y h
      · intro y hy
        rcases List.mem_cons.1 hy with h | hy
        · rw [h]
          exact List.mem_cons_of_mem _
            (List.mem_append_right _ (List.mem_cons_of_mem _ hxw))
        · rcases List.mem_cons.1 (hcov y hy) with h | h
          · rw [h]; exact List.mem_cons_self _ _
          · exact List.mem_cons_of_mem _ (List.mem_append_left _ h)

/-- The component found at a root with more than one member or a self-loop is a cycle. -/
theorem root_cycle {priority : Nat → Nat} {out : Nat → List Nat} {i p bot : Nat}
    {done0 : Nat → Int} {d : Nat → Nat} {dn : Nat → Int} {low : Nat → Nat}
    {A B rest : List Nat} {pre idx m : Nat}
    (hinv : SearchInv priority out i p bot done0 d ⟨dn, low, A ++ idx :: B, idx :: rest, pre⟩)
    (hscan : scanEdges i p bot dn low (out idx) (low idx) = .finished m)
    (hm : ¬ m < low idx) (hcyc : A ≠ [] ∨ idx ∈ out idx) :
    ∃ c, IsCycle out c ∧ ∀ x, x ∈ c ↔ x ∈ A ++ [idx] := by
  obtain ⟨hA_gt, _, _, _, _, _, hconn⟩ := root_facts hinv hscan hm
  have hidxS : idx ∈ A ++ [idx] := by simp
  have hthrough : ∀ x, x ∈ A ++ [idx] → x ≠ idx →
      ∃ l, List.Chain (fun a b => b ∈ out a) idx (l ++ [idx]) ∧ (∀ y ∈ l, y ∈ A ++ [idx]) ∧
        x ∈ l := by
    intro x hx hne
    obtain ⟨h1, h2⟩ := hconn x hx
    rcases chain_of_reflTransGen h2 with h | ⟨l1, hl1, hq1⟩
    · exact absurd h.symm hne
    · rcases chain_of_reflTransGen h1 with h | ⟨l2, hl2, hq2⟩
      · exact absurd h hne
      · refine ⟨l1 ++ x :: l2, chain_concat hl1 hl2, ?_, by simp⟩
        intro y hy
        rcases List.mem_append.1 hy with h | h
        · exact hq1 y h
        · rcases List.mem_cons.1 h with h | h
          · rw [h]; exact hx
          · exact hq2 y h
  have hbase : ∃ l0, List.Chain (fun a b => b ∈ out a) idx (l0 ++ [idx]) ∧
      ∀ y ∈ l0, y ∈ A ++ [idx] := by
    by_cases hself : idx ∈ out idx
    · exact ⟨[], List.Chain.cons hself List.Chain.nil, by simp⟩
    · rcases hcyc with h | h
      · cases A with
        | nil => exact absurd rfl h
        | cons a0 A1 =>
          have ha0 : a0 ∈ a0 :: A1 ++ [idx] := by simp
          have hne : a0 ≠ idx := by
            intro hc
            have := hA_gt a0 (List.mem_cons_self _ _)
            rw [hc] at this; omega
          obtain ⟨l, hl, hq, _⟩ := hthrough a0 ha0 hne
          exact ⟨l, hl, hq⟩
      · exact absurd h hself
  obtain ⟨l0, hl0, hq0⟩ := hbase
  obtain ⟨l, hl, hq, hcov⟩ := closed_walk_cover (Q := fun y => y ∈ A ++ [idx]) hidxS hthrough
    (A ++ [idx]) l0 (fun x hx => hx) hl0 hq0
  refine ⟨idx :: l, hl, ?_⟩
  intro x
  constructor
  · intro hx
    rcases List.mem_cons.1 hx with h | h
    · rw [h]; exact hidxS
    · exact hq x h
  · exact hcov x

/-! ## One iteration of the search loop -/

theorem visitTop_st (bot : Nat) (s : Tarjan) : (visitTop bot s).st = s.st := by
  unfold visitTop
  split
  · rfl
  · split <;> rfl

theorem visitTop_eq_of_inv {priority : Nat → Nat} {out : Nat → List Nat} {i p bot : Nat}
    {done0 : Nat → Int} {d : Nat → Nat} {s : Tarjan}
    (hinv : SearchInv priority out i p bot done0 d s) : visitTop bot s = s := by
  unfold visitTop
  split
  · rfl
  · rename_i idx rest hst
    have h1 := (hinv.st_res idx (by rw [hst]; exact List.mem_cons_self _ _)).1
    have h2 := (hinv.res_low idx h1).1
    rw [if_neg (by omega)]

theorem searchStep_inv {priority : Nat → Nat} {out : Nat → List Nat} {i p bot : Nat}
    {done0 : Nat → Int} {d : Nat → Nat} {s : Tarjan} {idx : Nat} {rest : List Nat}
    (hprio : ∀ x, x ≤ i → priority x ≤ p) (hst : s.st = idx :: rest)
    (hinv : SearchInv priority out i p bot done0 d (visitTop bot s)) :
    match searchStep priority out i p bot s idx rest with
    | .ok s1 => ∃ d1, SearchInv priority out i p bot done0 d1 (visitTop bot s1)
    | .fail e => ∃ mp scc, e = .loserCanWin mp scc ∧ LoserCycle priority out i p mp scc
    | .timeout => False := by
  have hs1 : (if s.low idx ≤ bot then
      ({ s with low := Function.update s.low idx (s.pre + 1), pre := s.pre + 1,
                res := idx :: s.res } : Tarjan) else s) = visitTop bot s := by
    unfold visitTop; rw [hst]
  have hst1 : (visitTop bot s).st = idx :: rest := by rw [visitTop_st, hst]
  unfold searchStep
  simp only []
  rw [hs1]
  generalize visitTop bot s = s1 at hinv hst1
  obtain ⟨dn, low, res, st1, pre⟩ := s1
  dsimp only at hst1
  subst hst1
  dsimp only
  cases hscan : scanEdges i p bot dn low (out idx) (low idx) with
  | pushed t =>
    dsimp only
    obtain ⟨ht_out, ht_i, ht_done, ht_low⟩ := scanEdges_pushed _ _ hscan
    refine ⟨Function.update d t (pre + 1), ?_⟩
    have : visitTop bot ⟨dn, low, res, t :: idx :: rest, pre⟩ =
        ⟨dn, Function.update low t (pre + 1), t :: res, t :: idx :: rest, pre + 1⟩ := by
      unfold visitTop
      dsimp only
      rw [if_pos ht_low]
    rw [this]
    exact inv_push hinv ht_out ht_i ht_done ht_low
  | finished m =>
    dsimp only
    by_cases hm : m < low idx
    · rw [if_pos hm]
      dsimp only
      have h := inv_pop hinv hscan hm
      exact ⟨d, by rw [visitTop_eq_of_inv h]; exact h⟩
    · rw [if_neg hm]
      have hidx_res : idx ∈ res := (hinv.st_res idx (List.mem_cons_self _ _)).1
      obtain ⟨A, B, hres, hA⟩ := split_at_mem hidx_res
      subst hres
      obtain ⟨hsize, hdone, _, hmax_le, hmax_eq⟩ :=
        markScc_append priority p A B ⟨-1, 0, dn⟩ hA
      rw [sccMembers_append A B hA, popScc_append A B hA]
      generalize markScc priority p idx (A ++ idx :: B) ⟨-1, 0, dn⟩ = a at hsize hdone hmax_le hmax_eq
      dsimp only at hsize hdone hmax_le hmax_eq
      have hidxS : idx ∈ A ++ [idx] := by simp
      have hmax_ex : ∃ x ∈ A ++ [idx], (priority x : Int) = a.max_p := by
        rcases hmax_eq with h | h
        · have := hmax_le idx hidxS
          omega
        · exact h
      by_cases hchk : ((decide (a.scc_size > 1) || decide (idx ∈ out idx)) &&
          decide (a.max_p % 2 = (p : Int) % 2)) = true
      · rw [if_pos hchk]
        dsimp only
        simp only [Bool.and_eq_true, Bool.or_eq_true, decide_eq_true_eq] at hchk
        obtain ⟨hcyc, hpar⟩ := hchk
        have hcyc1 : A ≠ [] ∨ idx ∈ out idx := by
          rcases hcyc with h | h
          · left
            intro hc
            rw [hc] at hsize
            simp at hsize
            omega
          · exact Or.inr h
        obtain ⟨c, hc, hmem⟩ := root_cycle hinv hscan hm hcyc1
        refine ⟨a.max_p, A ++ [idx], rfl, c, hc, hmem, ?_, ?_, ?_, hpar⟩
        · intro x hx
          have hxr : x ∈ A ++ idx :: B := by
            rcases List.mem_append.1 ((hmem x).1 hx) with h | h
            · exact List.mem_append_left _ h
            · rw [List.mem_singleton] at h
              rw [h]; exact hidx_res
          exact ⟨hinv.res_bound x hxr, hinv.from_start x hxr⟩
        · obtain ⟨x, hx, hxp⟩ := hmax_ex
          exact ⟨x, (hmem x).2 hx, hxp⟩
        · intro x hx
          exact hmax_le x ((hmem x).1 hx)
      · rw [if_neg hchk]
        dsimp only
        simp only [Bool.and_eq_true, Bool.or_eq_true, decide_eq_true_eq, not_and, not_or] at hchk
        have hcheck : (A = [] ∧ idx ∉ out idx) ∨ (∀ x ∈ A ++ [idx], priority x ≠ p) := by
          by_cases hpar : a.max_p % 2 = (p : Int) % 2
          · left
            by_contra hc
            apply hchk _ hpar
            by_cases hA0 : A = []
            · right
              by_contra hself
              exact hc ⟨hA0, hself⟩
            · left
              have : 0 < A.length := List.length_pos.2 hA0
              omega
          · right
            intro x hx hxp
            apply hpar
            obtain ⟨y, hy, hyp⟩ := hmax_ex
            have h1 := hmax_le x hx
            have hyr : y ∈ A ++ idx :: B := by
              rcases List.mem_append.1 hy with h | h
              · exact List.mem_append_left _ h
              · rw [List.mem_singleton] at h
                rw [h]; exact hidx_res
            have h2 := hprio y (hinv.res_bound y hyr)
            have : a.max_p = (p : Int) := by omega
            rw [this]
        have h := inv_root hinv hscan hm hdone hcheck
        exact ⟨d, by rw [visitTop_eq_of_inv h]; exact h⟩

/-! ## The search loop and the outer loop -/

theorem searchLoop_inv {priority : Nat → Nat} {out : Nat → List Nat} {i p bot : Nat}
    {done0 : Nat → Int} (hprio : ∀ x, x ≤ i → priority x ≤ p) :
    ∀ (fuel : Nat) (s : Tarjan),
      (∃ d, SearchInv priority out i p bot done0 d (visitTop bot s)) →
      match searchLoop priority out i p bot fuel s with
      | .ok s1 => s1.st = [] ∧ ∃ d1, SearchInv priority out i p bot done0 d1 s1
      | .fail e => ∃ mp scc, e = .loserCanWin mp scc ∧ LoserCycle priority out i p mp scc
      | .timeout => True := by
  intro fuel
  induction fuel with
  | zero => intro s _; simp [searchLoop]
  | succ fuel ih =>
    intro s ⟨d, hinv⟩
    rw [searchLoop]
    cases hst : s.st with
    | nil =>
      dsimp only
      refine ⟨hst, d, ?_⟩
      have : visitTop bot s = s := by unfold visitTop; rw [hst]
      rw [this] at hinv
      exact hinv
    | cons idx rest =>
      dsimp only
      have hstep := searchStep_inv hprio hst hinv
      cases hres : searchStep priority out i p bot s idx rest with
      | ok s1 =>
        rw [hres] at hstep
        dsimp only at hstep ⊢
        exact ih s1 hstep
      | fail e =>
        rw [hres] at hstep
        exact hstep
      | timeout =>
        rw [hres] at hstep
        exact hstep.elim

/-- The invariant holds when a search starts. -/
theorem inv_init (priority : Nat → Nat) {out : Nat → List Nat} {i p : Nat} {s : Tarjan}
    (hres : s.res = []) (hst : s.st = []) (hlow : ∀ x, s.low x ≤ s.pre)
    (hdone : s.done i ≠ (p : Int))
    (hclosed : ∀ x, s.done x = (p : Int) → ∀ y ∈ out x, y ≤ i → s.done y = (p : Int))
    (hacyc : ∀ x, s.done x = (p : Int) → priority x = p →
      ¬ Relation.TransGen (EdgeBelow out x) x x) :
    SearchInv priority out i p s.pre s.done (fun _ => s.pre + 1)
      (visitTop s.pre { s with st := i :: s.st }) := by
  have hv : visitTop s.pre { s with st := i :: s.st } =
      ⟨s.done, Function.update s.low i (s.pre + 1), [i], [i], s.pre + 1⟩ := by
    unfold visitTop
    dsimp only
    rw [if_pos (hlow i), hres, hst]
  rw [hv]
  have hli : Function.update s.low i (s.pre + 1) i = s.pre + 1 := Function.update_same _ _ _
  refine ⟨?_, ?_, ?_, ?_, ?_, ?_, ?_, ?_, ?_, ?_, ?_, ?_, ?_, ?_, ?_, ?_, ?_, ?_, ?_, ?_⟩ <;>
    dsimp only
  · omega
  · intro x hx; rw [List.mem_singleton] at hx; omega
  · intro x hx; rw [List.mem_singleton] at hx; rw [hx]; exact hdone
  · intro x hx; rw [List.mem_singleton] at hx; rw [hx, hli]; omega
  · intro x _; exact le_refl _
  · exact List.pairwise_singleton _ _
  · intro x
    by_cases hx : x = i
    · rw [hx, hli]
    · rw [Function.update_noteq hx]; have := hlow x; omega
  · intro x hx
    by_cases hxi : x = i
    · exact Or.inl (by rw [hxi]; exact List.mem_singleton_self _)
    · rw [Function.update_noteq hxi] at hx
      have := hlow x; omega
  · rw [hli]; omega
  · intro x hx; rw [List.mem_singleton] at hx
    exact ⟨by rw [hx]; exact List.mem_singleton_self _, by rw [hx, hli]⟩
  · exact List.pairwise_singleton _ _
  · exact List.chain'_singleton _
  · intro x hx; exact ⟨i, List.mem_singleton_self _, le_refl _⟩
  · exact hclosed
  · intro x hx hxs; exact absurd hx hxs
  · intro x hx hxs; exact absurd hx hxs
  · intro x hx hxs; exact absurd hx hxs
  · intro x hx; rw [List.mem_singleton] at hx; rw [hx]
  · intro x; exact Or.inr rfl
  · exact hacyc

/-- At the start of the iteration for node `k`, the nodes already done for the
priority of `k` are closed under the edges to nodes up to `k`, and acyclic. -/
theorem outer_pre {g : Game} {out : Nat → List Nat} {even odd : Bool} {k : Nat} {s : Tarjan}
    (hs : SortedPriorities g) (hk : k < g.n_nodes) (hinv : OuterInv g out even odd (k + 1) s) :
    (∀ x, s.done x = (g.priority k : Int) → ∀ y ∈ out x, y ≤ k →
      s.done y = (g.priority k : Int)) ∧
    (∀ x, s.done x = (g.priority k : Int) → g.priority x = g.priority k →
      ¬ Relation.TransGen (EdgeBelow out x) x x) := by
  have key : ∀ x, s.done x = (g.priority k : Int) →
      k + 1 < g.n_nodes ∧ g.priority (k + 1) = g.priority k := by
    intro x hx
    rcases hinv.doneval x with h | ⟨j, hj1, hj2, hj3⟩
    · rw [h] at hx; omega
    · have h1 := sorted_mono hs j hj2 (k + 1) hj1
      have h2 := sorted_mono hs (k + 1) (by omega) k (by omega)
      rw [hj3] at hx
      have : g.priority j = g.priority k := by exact_mod_cast hx
      exact ⟨by omega, by omega⟩
  constructor
  · intro x hx y hy hyk
    obtain ⟨h1, h2⟩ := key x hx
    have := hinv.closed h1 x (by rw [h2]; exact hx) y hy (by omega)
    rw [h2] at this
    exact this
  · intro x hx hpx
    obtain ⟨h1, h2⟩ := key x hx
    exact hinv.acyc h1 x (by rw [h2]; exact hx) (by rw [h2]; exact hpx)

theorem searchFrom_inv {g : Game} {out : Nat → List Nat} {even odd : Bool} {k : Nat}
    {s : Tarjan} (fuel : Nat) (hs : SortedPriorities g) (hk : k < g.n_nodes)
    (hinv : OuterInv g out even odd (k + 1) s) :
    match searchFrom fuel g out even odd k s with
    | .ok s1 => OuterInv g out even odd k s1
    | .fail e => ∃ mp scc, e = .loserCanWin mp scc ∧
        LoserCycle g.priority out k (g.priority k) mp scc ∧ Relevant g even odd k
    | .timeout => True := by
  obtain ⟨hclosed, hacyc⟩ := outer_pre hs hk hinv
  have hskip : (Relevant g even odd k → s.done k = (g.priority k : Int)) →
      OuterInv g out even odd k s := by
    intro hrel
    refine ⟨hinv.res_nil, hinv.st_nil, hinv.low_pre, ?_, fun _ => hclosed, fun _ => hacyc, ?_⟩
    · intro x
      rcases hinv.doneval x with h | ⟨j, hj1, hj2, hj3⟩
      · exact Or.inl h
      · exact Or.inr ⟨j, by omega, hj2, hj3⟩
    · intro c hc1 hc2 hc3
      rcases Nat.eq_or_lt_of_le hc1 with h | h
      · subst h
        exact hacyc k (hrel hc3) rfl
      · exact hinv.checked c h hc2 hc3
  unfold searchFrom
  dsimp only
  by_cases h1 : g.solved k = false ∨ g.winner k = parityBit (g.priority k)
  · rw [if_pos h1]
    exact hskip (fun hr => absurd h1 hr.1)
  rw [if_neg h1]
  by_cases h2 : odd = false ∧ g.priority k % 2 = 0
  · rw [if_pos h2]
    exact hskip (fun hr => absurd h2 hr.2.1)
  rw [if_neg h2]
  by_cases h3 : even = false ∧ g.priority k % 2 = 1
  · rw [if_pos h3]
    exact hskip (fun hr => absurd h3 hr.2.2)
  rw [if_neg h3]
  by_cases h4 : s.done k = (g.priority k : Int)
  · rw [if_pos h4]
    exact hskip (fun _ => h4)
  rw [if_neg h4]
  have hprio : ∀ x, x ≤ k → g.priority x ≤ g.priority k := fun x hx => sorted_mono hs k hk x hx
  have hinit := inv_init g.priority hinv.res_nil hinv.st_nil hinv.low_pre h4
    hclosed hacyc
  have hloop := searchLoop_inv hprio fuel { s with st := k :: s.st }
    ⟨_, hinit⟩
  cases hres : searchLoop g.priority out k (g.priority k) s.pre fuel
      { s with st := k :: s.st } with
  | ok s1 =>
    rw [hres] at hloop
    dsimp only at hloop ⊢
    obtain ⟨hst1, d1, hinv1⟩ := hloop
    have hres1 : s1.res = [] := by
      apply List.eq_nil_iff_forall_not_mem.2
      intro x hx
      obtain ⟨t, ht, _⟩ := hinv1.base x hx
      rw [hst1] at ht
      exact absurd ht (List.not_mem_nil _)
    have hdk : s1.done k = (g.priority k : Int) := by
      rcases hinv1.vis k hinv1.start_vis with h | h
      · rw [hres1] at h; exact absurd h (List.not_mem_nil _)
      · exact h
    refine ⟨hres1, hst1, hinv1.low_pre, ?_, fun _ => hinv1.closedD, fun _ => hinv1.acyc, ?_⟩
    · intro x
      rcases hinv1.doneval x with h | h
      · exact Or.inr ⟨k, le_refl _, hk, h⟩
      · rw [h]
        rcases hinv.doneval x with h5 | ⟨j, hj1, hj2, hj3⟩
        · exact Or.inl h5
        · exact Or.inr ⟨j, by omega, hj2, hj3⟩
    · intro c hc1 hc2 hc3
      rcases Nat.eq_or_lt_of_le hc1 with h | h
      · subst h
        exact hinv1.acyc k hdk rfl
      · exact hinv.checked c h hc2 hc3
  | fail e =>
    rw [hres] at hloop
    dsimp only at hloop ⊢
    obtain ⟨mp, scc, he, hcyc⟩ := hloop
    exact ⟨mp, scc, he, hcyc, h1, h2, h3⟩
  | timeout => trivial

theorem pass2_inv (fuel : Nat) (g : Game) (out : Nat → List Nat) (even odd : Bool)
    (hs : SortedPriorities g) :
    ∀ (k : Nat) (s : Tarjan), k ≤ g.n_nodes → OuterInv g out even odd k s →
      match pass2 fuel g out even odd k s with
      | .ok s1 => OuterInv g out even odd 0 s1
      | .fail e => ∃ j mp scc, j < g.n_nodes ∧ e = .loserCanWin mp scc ∧
          LoserCycle g.priority out j (g.priority j) mp scc ∧ Relevant g even odd j
      | .timeout => True := by
  intro k
  induction k with
  | zero => intro s _ hinv; simpa [pass2] using hinv
  | succ k ih =>
    intro s hk hinv
    rw [pass2]
    have hstep := searchFrom_inv fuel hs (show k < g.n_nodes by omega) hinv
    cases hres : searchFrom fuel g out even odd k s with
    | ok s1 =>
      rw [hres] at hstep
      dsimp only at hstep ⊢
      exact ih s1 (by omega) hstep
    | fail e =>
      rw [hres] at hstep
      dsimp only at hstep ⊢
      obtain ⟨mp, scc, he, hcyc, hrel⟩ := hstep
      exact ⟨k, mp, scc, by omega, he, hcyc, hrel⟩
    | timeout => trivial

theorem outerInv_init (g : Game) (out : Nat → List Nat) (even odd : Bool) :
    OuterInv g out even odd g.n_nodes initTarjan := by
  refine ⟨rfl, rfl, fun _ => le_refl _, fun _ => Or.inl rfl, ?_, ?_, ?_⟩
  · intro h; omega
  · intro h; omega
  · intro c h1 h2; omega

/-! ## Chains -/

theorem chain_strengthen {R : Nat → Nat → Prop} {N : Nat → Prop} :
    ∀ (L : List Nat) (a : Nat), List.Chain R a L → (∀ x ∈ a :: L, N x) →
      List.Chain (fun x y => R x y ∧ N x ∧ N y) a L := by
  intro L
  induction L with
  | nil => intro a _ _; exact List.Chain.nil
  | cons b L ih =>
    intro a h hN
    rw [List.chain_cons] at h
    refine List.Chain.cons ⟨h.1, hN a (List.mem_cons_self _ _), hN b (by simp)⟩ ?_
    exact ih b h.2 (fun x hx => hN x (List.mem_cons_of_mem _ hx))

theorem chain_forall {R : Nat → Nat → Prop} {P : Nat → Prop}
    (hstep : ∀ x y, R x y → P x → P y) :
    ∀ (L : List Nat) (a : Nat), List.Chain R a L → P a → ∀ y ∈ L, P y := by
  intro L
  induction L with
  | nil => intro a _ _ y hy; exact absurd hy (List.not_mem_nil _)
  | cons b L ih =>
    intro a h ha y hy
    rw [List.chain_cons] at h
    have hb := hstep a b h.1 ha
    rcases List.mem_cons.1 hy with rfl | hy
    · exact hb
    · exact ih b h.2 hb y hy

theorem chain_transGen_from {R : Nat → Nat → Prop} :
    ∀ (L : List Nat) (a : Nat), List.Chain R a L → ∀ y ∈ L, Relation.TransGen R a y := by
  intro L
  induction L with
  | nil => intro a _ y hy; exact absurd hy (List.not_mem_nil _)
  | cons b L ih =>
    intro a h y hy
    rw [List.chain_cons] at h
    rcases List.mem_cons.1 hy with rfl | hy
    · exact Relation.TransGen.single h.1
    · exact Relation.TransGen.head h.1 (ih b h.2 y hy)

theorem chain_transGen_last {R : Nat → Nat → Prop} {b : Nat} :
    ∀ (L : List Nat) (a : Nat), List.Chain R a (L ++ [b]) →
      ∀ y ∈ a :: L, Relation.TransGen R y b := by
  intro L
  induction L with
  | nil =>
    intro a h y hy
    rw [List.mem_singleton] at hy
    rw [List.nil_append, List.chain_cons] at h
    rw [hy]; exact Relation.TransGen.single h.1
  | cons c L ih =>
    intro a h y hy
    rw [List.cons_append, List.chain_cons] at h
    rcases List.mem_cons.1 hy with rfl | hy
    · exact Relation.TransGen.head h.1 (ih c h.2 c (List.mem_cons_self _ _))
    · exact ih c h.2 y hy

theorem exists_max_index : ∀ (c : List Nat), c ≠ [] → ∃ mx ∈ c, ∀ x ∈ c, x ≤ mx := by
  intro c
  induction c with
  | nil => intro h; exact absurd rfl h
  | cons a l ih =>
    intro _
    by_cases hl : l = []
    · subst hl
      exact ⟨a, List.mem_cons_self _ _, fun x hx => by rw [List.mem_singleton] at hx; omega⟩
    · obtain ⟨m, hm, hmax⟩ := ih hl
      by_cases ham : a ≤ m
      · refine ⟨m, List.mem_cons_of_mem _ hm, ?_⟩
        intro x hx
        rcases List.mem_cons.1 hx with rfl | hx
        · exact ham
        · exact hmax x hx
      · refine ⟨a, List.mem_cons_self _ _, ?_⟩
        intro x hx
        rcases List.mem_cons.1 hx with rfl | hx
        · exact le_refl _
        · have := hmax x hx; omega

/-! ## A reported cycle is a cycle of the restricted graph -/

/-- When the second loop with exact arithmetic, run on the graph built by the first loop,
reports "loser can win" with `max_p` and the nodes `scc`, the restricted graph contains a
cycle through exactly the reported nodes, all of them solved with one recorded winner `w`,
whose maximum priority is `max_p` and has the parity of the other player. -/
theorem reported_cycle_genuine (fuel : Nat) (g : Game) (fullgame even odd : Bool)
    (hsorted : SortedPriorities g) (max_p : Int) (scc : List Nat) (s1 : Pass1)
    (hp1 : pass1 g fullgame even odd g.n_nodes = .ok s1)
    (hp2 : pass2 fuel g s1.out even odd g.n_nodes initTarjan =
      .fail (.loserCanWin max_p scc)) :
    ∃ (c : List Nat) (w : Bool) (mp : Nat), IsCycle (restricted g) c ∧
      (∀ x ∈ c, x < g.n_nodes ∧ g.solved x = true ∧ g.winner x = w) ∧
      IsMaxPriority g c mp ∧ (mp : Int) = max_p ∧ parityBit mp ≠ w ∧
      (∀ x, x ∈ c ↔ x ∈ scc) := by
  have hinv := pass2_inv fuel g s1.out even odd hsorted g.n_nodes
    initTarjan (le_refl _) (outerInv_init g s1.out even odd)
  rw [hp2] at hinv
  dsimp only at hinv
  obtain ⟨j, mp1, scc1, hj, he, ⟨c, hcyc, hmem, hreach, hex, hle, hpar⟩, hrel⟩ := hinv
  simp only [Outcome.fail.injEq, VerifyError.loserCanWin.injEq] at he
  obtain ⟨rfl, rfl⟩ := he
  obtain ⟨hr1, hr2, hr3⟩ := hrel
  have hjsol : g.solved j = true := by
    by_contra hc
    exact hr1 (Or.inl (by simpa using hc))
  have hjwin : g.winner j ≠ parityBit (g.priority j) := fun hc => hr1 (Or.inr hc)
  have hside : (even = true ∧ g.winner j = false) ∨ (odd = true ∧ g.winner j = true) := by
    unfold parityBit at hjwin
    rcases Nat.mod_two_eq_zero_or_one (g.priority j) with h | h
    · right
      constructor
      · by_contra hc; exact hr2 ⟨by simpa using hc, h⟩
      · rw [h] at hjwin; simpa using hjwin
    · left
      constructor
      · by_contra hc; exact hr3 ⟨by simpa using hc, h⟩
      · rw [h] at hjwin; simpa using hjwin
  -- nodes reachable from `j` in the graph of the first loop are solved with the winner of `j`
  have hclos : ∀ x, Relation.ReflTransGen (fun a b => b ∈ s1.out a) j x →
      g.solved x = true ∧ g.winner x = g.winner j := by
    intro x hx
    induction hx with
    | refl => exact ⟨hjsol, rfl⟩
    | @tail y z _ hyz ih =>
      rw [pass1_out _ _ hp1 y] at hyz
      split_ifs at hyz with hy
      · have := pass1_edge_closed hp1 hy.1 hy.2 (by rw [ih.2]; exact hside) z hyz
        exact ⟨this.1, by rw [this.2, ih.2]⟩
      · exact absurd hyz (List.not_mem_nil _)
  have hnode : ∀ x ∈ c, x < g.n_nodes ∧ g.solved x = true ∧ g.winner x = g.winner j := by
    intro x hx
    obtain ⟨h1, h2⟩ := hreach x hx
    exact ⟨by omega, hclos x h2⟩
  have hmp0 : 0 ≤ max_p := by
    obtain ⟨x, _, hx⟩ := hex
    omega
  obtain ⟨m, hm⟩ : ∃ m : Nat, (m : Int) = max_p := ⟨max_p.toNat, Int.toNat_of_nonneg hmp0⟩
  refine ⟨c, g.winner j, m, ?_, hnode, ?_, hm, ?_, hmem⟩
  · cases c with
    | nil => exact hcyc
    | cons a l =>
      have hchain : List.Chain (fun x y => y ∈ s1.out x) a (l ++ [a]) := hcyc
      have hN : ∀ x ∈ a :: (l ++ [a]), x ∈ a :: l := by
        intro x hx
        rcases List.mem_cons.1 hx with h | h
        · rw [h]; exact List.mem_cons_self _ _
        · rcases List.mem_append.1 h with h | h
          · exact List.mem_cons_of_mem _ h
          · rw [List.mem_singleton] at h; rw [h]; exact List.mem_cons_self _ _
      have hstrong := chain_strengthen (N := fun x => x ∈ a :: l) _ _ hchain hN
      show List.Chain (fun x y => y ∈ restricted g x) a (l ++ [a])
      refine List.Chain.imp ?_ hstrong
      intro x y ⟨hxy, hx, _⟩
      rw [pass1_out _ _ hp1 x, if_pos ⟨(hnode x hx).1, (hnode x hx).2.1⟩] at hxy
      exact hxy
  · constructor
    · obtain ⟨x, hx, hxp⟩ := hex
      exact ⟨x, hx, by omega⟩
    · intro x hx
      have := hle x hx
      omega
  · intro hc
    apply hjwin
    rw [← hc]
    unfold parityBit
    congr 1
    have : (m : Int) % 2 = (g.priority j : Int) % 2 := by rw [hm]; exact hpar
    apply propext
    omega

end Exact

/-! ## The side not under test -/

theorem checkNode_untested {g : Game} {w f e o : Bool} {strat : Nat → List Nat}
    (hoff : SideOff w e o) (hag : AgreeExceptWinning g w strat) {i : Nat} (hi : i < g.n_nodes)
    (s t : Pass1) (hst : s.n_strategies = t.n_strategies) :
    match checkNode g f e o i s, checkNode (withStrategy g strat) f e o i t with
    | .ok s1, .ok t1 => s1.n_strategies = t1.n_strategies
    | .fail a, .fail b => a = b
    | _, _ => False := by
  obtain ⟨h1, h2⟩ := hag i hi
  unfold checkNode withStrategy
  dsimp only
  by_cases hs : g.solved i = false
  · rw [if_pos hs, if_pos hs]
    cases f <;> simp [hst]
  · rw [if_neg hs, if_neg hs]
    have hs1 : g.solved i = true := by simpa using hs
    by_cases hexc : g.owner i = w ∧ g.winner i = w
    · obtain ⟨hl1, hl2⟩ := h1 ⟨hs1, hexc⟩
      have e1 : ¬ (g.strategy i).length > 1 := by omega
      have e2 : ¬ (strat i).length > 1 := by omega
      have e3 : g.winner i = g.owner i := by rw [hexc.1, hexc.2]
      have hflag : ((e && g.winner i == false) || (o && g.winner i == true)) = false := by
        unfold SideOff at hoff
        rw [hexc.2]
        cases w <;> simp_all
      simp only [if_neg e1, if_neg e2, if_pos e3, hflag]
      simp [hst]
    · have hstr : strat i = g.strategy i := h2 (fun hc => hexc hc.2)
      rw [hstr]
      cases hg : g.strategy i <;> simp only [] <;> split_ifs <;> simp [hst]

theorem pass1_untested {g : Game} {w f e o : Bool} {strat : Nat → List Nat}
    (hoff : SideOff w e o) (hag : AgreeExceptWinning g w strat) :
    ∀ k, k ≤ g.n_nodes →
      match pass1 g f e o k, pass1 (withStrategy g strat) f e o k with
      | .ok s1, .ok t1 => s1.n_strategies = t1.n_strategies
      | .fail a, .fail b => a = b
      | _, _ => False := by
  intro k
  induction k with
  | zero => intro _; simp [pass1]
  | succ k ih =>
    intro hk
    have ih1 := ih (by omega)
    rw [pass1, pass1]
    cases h1 : pass1 g f e o k with
    | ok s =>
      cases h2 : pass1 (withStrategy g strat) f e o k with
      | ok t =>
        rw [h1, h2] at ih1
        exact checkNode_untested hoff hag (by omega) s t ih1
      | fail b => rw [h1, h2] at ih1; exact ih1.elim
      | timeout => rw [h1, h2] at ih1; exact ih1.elim
    | fail a =>
      cases h2 : pass1 (withStrategy g strat) f e o k with
      | ok t => rw [h1, h2] at ih1; exact ih1.elim
      | fail b => rw [h1, h2] at ih1; exact ih1
      | timeout => rw [h1, h2] at ih1; exact ih1.elim
    | timeout => exact absurd h1 (pass1_ne_timeout _ _ _ _ _)

theorem scan_pushed {i p bot : Nat} {done : Nat → Int} {low : Nat → Int} {t : Nat} :
    ∀ (l : List Nat) (m : Int), scanEdges i p bot done low l m = .pushed t →
      t ∈ l ∧ t ≤ i ∧ done t ≠ (p : Int) ∧ low t ≤ (bot : Int) := by
  intro l
  induction l with
  | nil => intro m h; simp [scanEdges] at h
  | cons a l ih =>
    intro m h
    rw [scanEdges] at h
    split_ifs at h with h1 h2 h3
    · obtain ⟨ha, hb⟩ := ih m h
      exact ⟨List.mem_cons_of_mem _ ha, hb⟩
    · obtain ⟨ha, hb⟩ := ih m h
      exact ⟨List.mem_cons_of_mem _ ha, hb⟩
    · injection h with h; subst h
      exact ⟨List.mem_cons_self _ _, by omega, h2, h3⟩
    · obtain ⟨ha, hb⟩ := ih _ h
      exact ⟨List.mem_cons_of_mem _ ha, hb⟩
    · obtain ⟨ha, hb⟩ := ih _ h
      exact ⟨List.mem_cons_of_mem _ ha, hb⟩

theorem searchStep_congr (priority : Nat → Nat) {out1 out2 : Nat → List Nat} (i p bot : Nat)
    (s : Tarjan) {idx : Nat} (rest : List Nat) (h : out1 idx = out2 idx) :
    searchStep priority out1 i p bot s idx rest = searchStep priority out2 i p bot s idx rest := by
  unfold searchStep rootStep
  rw [h]

theorem searchStep_st {priority : Nat → Nat} {out : Nat → List Nat} {i p bot : Nat}
    {s s1 : Tarjan} {idx : Nat} {rest : List Nat}
    (h : searchStep priority out i p bot s idx rest = .ok s1) :
    s1.st = rest ∨ ∃ t, s1.st = t :: idx :: rest ∧ t ∈ out idx ∧ t ≤ i := by
  unfold searchStep rootStep at h
  simp only [] at h
  split at h
  · rename_i t hscan
    obtain ⟨h1, h2, _, _⟩ := scan_pushed _ _ hscan
    simp only [Outcome.ok.injEq] at h
    rw [← h]
    exact Or.inr ⟨t, rfl, h1, h2⟩
  · split_ifs at h <;> simp only [Outcome.ok.injEq] at h <;> rw [← h] <;> exact Or.inl rfl

theorem searchLoop_congr (priority : Nat → Nat) {out1 out2 : Nat → List Nat} (i p bot : Nat)
    {H : Nat → Prop} (hagree : ∀ x, H x → out1 x = out2 x)
    (hclosed : ∀ x, H x → ∀ t ∈ out1 x, t ≤ i → H t) :
    ∀ (fuel : Nat) (s : Tarjan), (∀ x ∈ s.st, H x) →
      searchLoop priority out1 i p bot fuel s = searchLoop priority out2 i p bot fuel s := by
  intro fuel
  induction fuel with
  | zero => intro s _; rfl
  | succ fuel ih =>
    intro s hs
    rw [searchLoop, searchLoop]
    cases hst : s.st with
    | nil => rfl
    | cons idx rest =>
      dsimp only
      have hidx : H idx := hs idx (by rw [hst]; exact List.mem_cons_self _ _)
      rw [← searchStep_congr priority i p bot s rest (hagree idx hidx)]
      cases hres : searchStep priority out1 i p bot s idx rest with
      | ok s1 =>
        dsimp only
        apply ih
        intro x hx
        rcases searchStep_st hres with h | ⟨t, h, ht1, ht2⟩
        · rw [h] at hx
          exact hs x (by rw [hst]; exact List.mem_cons_of_mem _ hx)
        · rw [h] at hx
          rcases List.mem_cons.1 hx with hx | hx
          · rw [hx]; exact hclosed idx hidx t ht1 ht2
          · exact hs x (by rw [hst]; exact hx)
      | fail e => rfl
      | timeout => rfl

/-- The search loop returns normally only with an empty stack. -/
theorem searchLoop_ok_st {priority : Nat → Nat} {out : Nat → List Nat} {i p bot : Nat} :
    ∀ (fuel : Nat) (s s1 : Tarjan), searchLoop priority out i p bot fuel s = .ok s1 →
      s1.st = [] := by
  intro fuel
  induction fuel with
  | zero => intro s s1 h; simp [searchLoop] at h
  | succ fuel ih =>
    intro s s1 h
    rw [searchLoop] at h
    cases hst : s.st with
    | nil =>
      rw [hst] at h
      simp only [Outcome.ok.injEq] at h
      rw [← h]
      exact hst
    | cons idx rest =>
      rw [hst] at h
      dsimp only at h
      cases hres : searchStep priority out i p bot s idx rest with
      | ok s2 =>
        rw [hres] at h
        exact ih s2 s1 h
      | fail e => rw [hres] at h; simp at h
      | timeout => rw [hres] at h; simp at h

theorem searchFrom_ok_st (fuel : Nat) (g : Game) (out : Nat → List Nat) (even odd : Bool)
    (k : Nat) (s s1 : Tarjan) (hst : s.st = [])
    (h : searchFrom fuel g out even odd k s = .ok s1) : s1.st = [] := by
  unfold searchFrom at h
  dsimp only at h
  split_ifs at h
  · simp only [Outcome.ok.injEq] at h; rw [← h]; exact hst
  · simp only [Outcome.ok.injEq] at h; rw [← h]; exact hst
  · simp only [Outcome.ok.injEq] at h; rw [← h]; exact hst
  · simp only [Outcome.ok.injEq] at h; rw [← h]; exact hst
  · exact searchLoop_ok_st _ _ _ h

theorem restricted_withStrategy {g : Game} {strat : Nat → List Nat} {x : Nat}
    (h : strat x = g.strategy x) : restricted (withStrategy g strat) x = restricted g x := by
  unfold restricted withStrategy
  dsimp only
  rw [h]

/-- A search is started only from a node whose winner's side is under test. -/
theorem relevant_side {g : Game} {even odd : Bool} {k : Nat}
    (h1 : ¬ (g.solved k = false ∨ g.winner k = parityBit (g.priority k)))
    (h2 : ¬ (odd = false ∧ g.priority k % 2 = 0))
    (h3 : ¬ (even = false ∧ g.priority k % 2 = 1)) :
    g.solved k = true ∧
      ((even = true ∧ g.winner k = false) ∨ (odd = true ∧ g.winner k = true)) := by
  have hjsol : g.solved k = true := by
    by_contra hc
    exact h1 (Or.inl (by simpa using hc))
  have hjwin : g.winner k ≠ parityBit (g.priority k) := fun hc => h1 (Or.inr hc)
  refine ⟨hjsol, ?_⟩
  unfold parityBit at hjwin
  rcases Nat.mod_two_eq_zero_or_one (g.priority k) with h | h
  · right
    constructor
    · by_contra hc; exact h2 ⟨by simpa using hc, h⟩
    · rw [h] at hjwin; simpa using hjwin
  · left
    constructor
    · by_contra hc; exact h3 ⟨by simpa using hc, h⟩
    · rw [h] at hjwin; simpa using hjwin

theorem searchFrom_untested {g : Game} {w f e o : Bool} {strat : Nat → List Nat}
    (hoff : SideOff w e o) (hag : AgreeExceptWinning g w strat) {s1 t1 : Pass1}
    (hp1 : pass1 g f e o g.n_nodes = .ok s1)
    (hp2 : pass1 (withStrategy g strat) f e o g.n_nodes = .ok t1)
    (fuel : Nat) {k : Nat} (hk : k < g.n_nodes) (s : Tarjan) (hst : s.st = []) :
    searchFrom fuel g s1.out e o k s =
      searchFrom fuel (withStrategy g strat) t1.out e o k s := by
  unfold searchFrom
  show (if g.solved k = false ∨ g.winner k = parityBit (g.priority k) then Outcome.ok s
    else if o = false ∧ g.priority k % 2 = 0 then Outcome.ok s
    else if e = false ∧ g.priority k % 2 = 1 then Outcome.ok s
    else if s.done k = (g.priority k : Int) then Outcome.ok s
    else searchLoop g.priority s1.out k (g.priority k) s.pre fuel
      { s with st := k :: s.st }) =
    (if g.solved k = false ∨ g.winner k = parityBit (g.priority k) then Outcome.ok s
    else if o = false ∧ g.priority k % 2 = 0 then Outcome.ok s
    else if e = false ∧ g.priority k % 2 = 1 then Outcome.ok s
    else if s.done k = (g.priority k : Int) then Outcome.ok s
    else searchLoop g.priority t1.out k (g.priority k) s.pre fuel
      { s with st := k :: s.st })
  split_ifs with h1 h2 h3 h4
  · rfl
  · rfl
  · rfl
  · rfl
  · obtain ⟨hsol, hside⟩ := relevant_side h1 h2 h3
    have hwk : g.winner k ≠ w := by
      unfold SideOff at hoff
      intro hc
      cases w <;> simp_all
    have hnotexc : ∀ x, g.winner x = g.winner k →
        ¬ (g.solved x = true ∧ g.owner x = w ∧ g.winner x = w) := by
      intro x hx hc
      exact hwk (by rw [← hx]; exact hc.2.2)
    apply searchLoop_congr g.priority k (g.priority k) s.pre
      (H := fun x => x < g.n_nodes ∧ g.solved x = true ∧ g.winner x = g.winner k)
    · intro x ⟨hx1, hx2, hx3⟩
      rw [pass1_out _ _ hp1 x, pass1_out _ _ hp2 x]
      have : restricted (withStrategy g strat) x = restricted g x :=
        restricted_withStrategy ((hag x hx1).2 (hnotexc x hx3))
      rw [this]
      rfl
    · intro x ⟨hx1, hx2, hx3⟩ t ht hti
      rw [pass1_out _ _ hp1 x, if_pos ⟨hx1, hx2⟩] at ht
      have := pass1_edge_closed hp1 hx1 hx2 (by rw [hx3]; exact hside) t ht
      exact ⟨by omega, this.1, by rw [this.2, hx3]⟩
    · intro x hx
      rw [hst] at hx
      simp only [List.mem_singleton] at hx
      rw [hx]
      exact ⟨hk, hsol, rfl⟩

theorem pass2_untested {g : Game} {w f e o : Bool} {strat : Nat → List Nat}
    (hoff : SideOff w e o) (hag : AgreeExceptWinning g w strat) {s1 t1 : Pass1}
    (hp1 : pass1 g f e o g.n_nodes = .ok s1)
    (hp2 : pass1 (withStrategy g strat) f e o g.n_nodes = .ok t1) (fuel : Nat) :
    ∀ (k : Nat) (s : Tarjan), k ≤ g.n_nodes → s.st = [] →
      pass2 fuel g s1.out e o k s = pass2 fuel (withStrategy g strat) t1.out e o k s := by
  intro k
  induction k with
  | zero => intro s _ _; rfl
  | succ k ih =>
    intro s hk hst
    rw [pass2, pass2,
      ← searchFrom_untested hoff hag hp1 hp2 fuel (show k < g.n_nodes by omega) s hst]
    cases hres : searchFrom fuel g s1.out e o k s with
    | ok s2 =>
      dsimp only
      exact ih s2 (by omega) (searchFrom_ok_st fuel g s1.out e o k s s2 hst hres)
    | fail err => rfl
    | timeout => rfl

/-- The strategies of the winning nodes of a side that is not under test do not change the
result of `verify`. -/
theorem verify_untested {g : Game} {w f e o : Bool} {strat : Nat → List Nat}
    (hoff : SideOff w e o) (hag : AgreeExceptWinning g w strat) :
    verify (withStrategy g strat) f e o = verify g f e o := by
  have h1 := pass1_untested (f := f) hoff hag g.n_nodes (le_refl _)
  unfold verify verifyFuel
  show (match pass1 (withStrategy g strat) f e o g.n_nodes with
    | .fail e => Outcome.fail e
    | .timeout => Outcome.timeout
    | .ok s1 =>
      match pass2 (searchFuel g.n_nodes) (withStrategy g strat) s1.out e o g.n_nodes
        initTarjan with
      | .fail e => Outcome.fail e
      | .timeout => Outcome.timeout
      | .ok _ => Outcome.ok s1.n_strategies) = _
  cases hp1 : pass1 g f e o g.n_nodes with
  | ok s1 =>
    cases hp2 : pass1 (withStrategy g strat) f e o g.n_nodes with
    | ok t1 =>
      rw [hp1, hp2] at h1
      dsimp only at h1 ⊢
      rw [← pass2_untested hoff hag hp1 hp2 (searchFuel g.n_nodes) g.n_nodes initTarjan
        (le_refl _) rfl, h1]
    | fail b => rw [hp1, hp2] at h1; exact h1.elim
    | timeout => rw [hp1, hp2] at h1; exact h1.elim
  | fail a =>
    cases hp2 : pass1 (withStrategy g strat) f e o g.n_nodes with
    | ok t1 => rw [hp1, hp2] at h1; exact h1.elim
    | fail b => rw [hp1, hp2] at h1; dsimp only at h1 ⊢; rw [h1]
    | timeout => rw [hp1, hp2] at h1; exact h1.elim
  | timeout => exact absurd hp1 (pass1_ne_timeout _ _ _ _ _)

/-! ## Claims about the side not under test -/

/-- C20. A side that is not under test does not influence the verdict: if two claimed
solutions of a game agree on `solved`, on `winner` and on the strategy of every node except
the solved nodes owned and won by Odd, where both hold at most one strategy edge, then
`verify(fullgame, checkEven, false)` gives the same result on both (the same normal return
or the same failure); and symmetrically for Even and `verify(fullgame, false, checkOdd)`. -/
theorem untested_side_no_influence (g : Game) (fullgame : Bool) (strat : Nat → List Nat) :
    (AgreeExceptWinning g true strat → ∀ checkEven : Bool,
      verify (withStrategy g strat) fullgame checkEven false =
        verify g fullgame checkEven false) ∧
    (AgreeExceptWinning g false strat → ∀ checkOdd : Bool,
      verify (withStrategy g strat) fullgame false checkOdd =
        verify g fullgame false checkOdd) := by
  constructor
  · intro hag checkEven
    exact verify_untested (w := true) (show SideOff true checkEven false from rfl) hag
  · intro hag checkOdd
    exact verify_untested (w := false) (show SideOff false false checkOdd from rfl) hag

theorem agree_redirectedStrategy : AgreeExceptWinning twoDominionGame true redirectedStrategy := by
  intro x hx
  have hx2 : x < 2 := hx
  interval_cases x
  · refine ⟨fun h => ?_, fun _ => rfl⟩
    exact absurd h.2.1 (by decide)
  · exact ⟨fun _ => ⟨by decide, by decide⟩, fun h => absurd ⟨rfl, rfl, rfl⟩ h⟩

theorem untested_side_no_influence_witness :
    verify (withStrategy twoDominionGame redirectedStrategy) true true false =
      verify twoDominionGame true true false :=
  (untested_side_no_influence twoDominionGame true redirectedStrategy).1
    agree_redirectedStrategy true

/-! ## The loops that move the scan index down -/

theorem scanDown_spec (stay : Nat → Bool) : ∀ k : Nat,
    -1 ≤ scanDown stay k ∧ scanDown stay k < (k : Int) ∧
    (∀ j : Nat, scanDown stay k < (j : Int) → j < k → stay j = true) ∧
    (0 ≤ scanDown stay k → stay (scanDown stay k).toNat = false) := by
  intro k
  induction k with
  | zero =>
    simp only [scanDown]
    refine ⟨le_refl _, by omega, fun j _ hj => by omega, fun h => by omega⟩
  | succ k ih =>
    rw [scanDown]
    by_cases hk : stay k = true
    · rw [if_pos hk]
      obtain ⟨h1, h2, h3, h4⟩ := ih
      refine ⟨h1, by omega, ?_, h4⟩
      intro j hj hjk
      rcases Nat.eq_or_lt_of_le (Nat.le_of_lt_succ hjk) with h | h
      · rw [h]; exact hk
      · exact h3 j hj h
    · rw [if_neg hk]
      refine ⟨by omega, by omega, fun j hj hjk => by omega, fun _ => ?_⟩
      rw [Int.toNat_ofNat]
      simpa using hk

theorem whileDown_spec (stay : Nat → Bool) (i : Int) (hi : 0 ≤ i) :
    -1 ≤ whileDown stay i ∧ whileDown stay i ≤ i ∧
    (∀ j : Nat, whileDown stay i < (j : Int) → (j : Int) ≤ i → stay j = true) ∧
    (0 ≤ whileDown stay i → stay (whileDown stay i).toNat = false) := by
  unfold whileDown
  rw [if_neg (by omega)]
  obtain ⟨h1, h2, h3, h4⟩ := scanDown_spec stay (i.toNat + 1)
  refine ⟨h1, by omega, ?_, h4⟩
  intro j hj hji
  exact h3 j hj (by omega)

theorem whileDown_neg (stay : Nat → Bool) (i : Int) (hi : i < 0) : whileDown stay i = i := by
  unfold whileDown
  rw [if_pos hi]

/-! ## The constructor -/

theorem assertLoop_iff (priority : Nat → Nat) (n : Nat) : ∀ (fuel i : Nat), n ≤ i + fuel →
    (assertLoop priority n fuel i = true ↔
      ∀ j, i ≤ j → j < n → priority (j - 1) ≤ priority j) := by
  intro fuel
  induction fuel with
  | zero =>
    intro i h
    simp only [assertLoop, true_iff]
    intro j h1 h2
    omega
  | succ fuel ih =>
    intro i h
    rw [assertLoop]
    by_cases hin : i < n
    · rw [if_pos hin]
      by_cases hp : priority (i - 1) ≤ priority i
      · rw [if_pos hp, ih (i + 1) (by omega)]
        constructor
        · intro hall j h1 h2
          rcases Nat.eq_or_lt_of_le h1 with h3 | h3
          · rw [← h3]; exact hp
          · exact hall j h3 h2
        · intro hall j h1 h2
          exact hall j (by omega) h2
      · rw [if_neg hp]
        simp only [Bool.false_eq_true, false_iff, not_forall]
        exact ⟨i, le_refl _, hin, hp⟩
    · rw [if_neg hin]
      simp only [true_iff]
      intro j h1 h2
      omega

theorem constructSolver_assertions (g : Game) :
    constructSolver false g = true ↔
      ∀ i, 0 < i → i < g.n_nodes → g.priority (i - 1) ≤ g.priority i := by
  unfold constructSolver
  simp only [Bool.false_eq_true, if_false]
  rw [assertLoop_iff g.priority g.n_nodes g.n_nodes 1 (by omega)]
  constructor
  · intro h i h1 h2
    exact h i h1 h2
  · intro h j h1 h2
    exact h j h1 h2

/-! ## The thresholds -/

theorem resetDecision_spec (p reset0 reset1 : Int) :
    ((resetDecision p reset0 reset1).1 = false ∧
      (resetDecision p reset0 reset1).2.1 = reset0 ∧
      (resetDecision p reset0 reset1).2.2 = reset1 ∧
      ¬ (p ≤ (if p % 2 = 1 then reset1 else reset0))) ∨
    ((resetDecision p reset0 reset1).1 = true ∧ p % 2 = 1 ∧ p ≤ reset1 ∧
      (resetDecision p reset0 reset1).2.2 = p - 2 ∧
      (resetDecision p reset0 reset1).2.1 = reset0) ∨
    ((resetDecision p reset0 reset1).1 = true ∧ p % 2 ≠ 1 ∧ p ≤ reset0 ∧
      (resetDecision p reset0 reset1).2.1 = p - 2 ∧
      (resetDecision p reset0 reset1).2.2 = reset1) := by
  unfold resetDecision
  by_cases h1 : p % 2 = 1
  · by_cases h2 : p ≤ reset1
    · right; left
      simp [h1, h2]
    · left
      simp [h1, h2]
  · by_cases h2 : p ≤ reset0
    · right; right
      simp [h1, h2]
    · left
      simp [h1, h2]

theorem promoteThresholds_spec (res reset0 reset1 : Int) :
    (res % 2 = 1 ∧ (promoteThresholds res reset0 reset1).1 = max reset0 (res - 1) ∧
      (promoteThresholds res reset0 reset1).2 = reset1) ∨
    (res % 2 ≠ 1 ∧ (promoteThresholds res reset0 reset1).2 = max reset1 (res - 1) ∧
      (promoteThresholds res reset0 reset1).1 = reset0) := by
  unfold promoteThresholds
  by_cases h1 : res % 2 = 1
  · left
    refine ⟨h1, ?_, ?_⟩
    · by_cases h2 : res > reset0
      · simp only [h1, if_true, h2]; omega
      · simp only [h1, if_true, h2, if_false]; omega
    · by_cases h2 : res > reset0 <;> simp [h1, h2]
  · right
    refine ⟨h1, ?_, ?_⟩
    · by_cases h2 : res > reset1
      · simp only [h1, if_false, h2, if_true]; omega
      · simp only [h1, if_false, h2]; omega
    · by_cases h2 : res > reset1 <;> simp [h1, h2]

/-! ## One step of the driver -/

theorem outerStep_setup {σ : Type} (E : Engine σ) (g : Game) (d : Driver σ)
    (h0 : 0 ≤ d.i) (hn : d.i < (g.n_nodes : Int)) (h1 : 0 ≤ scanStop g d)
    (hp : g.priority (scanStop g d).toNat = currentPriority g d)
    (hmax : currentPriority g d ≤ d.max_prio) :
    (outerStep E g d).d.calls =
        .setupRegion (scanStop g d) (currentPriority g d)
          (resetDecision (currentPriority g d) d.reset0 d.reset1).1 :: d.calls ∧
    (outerStep E g d).d.reset0 = (resetDecision (currentPriority g d) d.reset0 d.reset1).2.1 ∧
    (outerStep E g d).d.reset1 = (resetDecision (currentPriority g d) d.reset0 d.reset1).2.2 ∧
    (outerStep E g d).d.inverse =
        Function.update d.inverse (currentPriority g d) (some (scanStop g d)) ∧
    (outerStep E g d).d.max_prio = d.max_prio ∧
    (outerStep E g d).d.data =
        (E.setupRegion d.data (scanStop g d) (currentPriority g d)
          (resetDecision (currentPriority g d) d.reset0 d.reset1).1).1 ∧
    ((E.setupRegion d.data (scanStop g d) (currentPriority g d)
          (resetDecision (currentPriority g d) d.reset0 d.reset1).1).2 = true →
      (outerStep E g d).pc = .inner (currentPriority g d) ∧
      (outerStep E g d).d.i = scanStop g d) ∧
    ((E.setupRegion d.data (scanStop g d) (currentPriority g d)
          (resetDecision (currentPriority g d) d.reset0 d.reset1).1).2 = false →
      (outerStep E g d).pc = .outer ∧
      (outerStep E g d).d.i =
        whileDown (fun k => decide (g.priority k = currentPriority g d)) (scanStop g d)) := by
  unfold scanStop currentPriority at *
  unfold outerStep
  simp only [if_neg (not_lt.mpr h0), ge_iff_le, if_neg (not_le.mpr hn), if_neg (not_lt.mpr h1),
    ne_eq, hp, not_true_eq_false, if_false, gt_iff_lt, if_neg (not_lt.mpr hmax)]
  cases hr : (E.setupRegion d.data
      (whileDown (skipCondition g d.data (g.priority d.i.toNat)) d.i) (g.priority d.i.toNat)
      (resetDecision (g.priority d.i.toNat) d.reset0 d.reset1).1).2 <;> simp

theorem calls_ne_cons (l : List Call) (a : Call) : l ≠ a :: l := by
  intro h
  have := congrArg List.length h
  simp at this

theorem outerStep_calls_setup {σ : Type} (E : Engine σ) (g : Game) (d : Driver σ)
    (i p : Int) (reset : Bool)
    (h : (outerStep E g d).d.calls = .setupRegion i p reset :: d.calls) :
    0 ≤ d.i ∧ d.i < (g.n_nodes : Int) ∧ 0 ≤ scanStop g d ∧
    g.priority (scanStop g d).toNat = currentPriority g d ∧
    currentPriority g d ≤ d.max_prio ∧ i = scanStop g d ∧ p = (currentPriority g d : Int) ∧
    reset = (resetDecision (currentPriority g d) d.reset0 d.reset1).1 := by
  by_cases h0 : 0 ≤ d.i
  swap
  · exfalso
    unfold outerStep at h
    rw [if_pos (by omega)] at h
    exact calls_ne_cons _ _ h
  by_cases hn : d.i < (g.n_nodes : Int)
  swap
  · exfalso
    unfold outerStep at h
    rw [if_neg (by omega), if_pos (by omega)] at h
    exact calls_ne_cons _ _ h
  by_cases h1 : 0 ≤ scanStop g d
  swap
  · exfalso
    unfold scanStop currentPriority at h1
    unfold outerStep at h
    simp only [if_neg (not_lt.mpr h0), ge_iff_le, if_neg (not_le.mpr hn),
      if_pos (not_le.mp h1)] at h
    exact calls_ne_cons _ _ h
  by_cases hp : g.priority (scanStop g d).toNat = currentPriority g d
  swap
  · exfalso
    unfold scanStop currentPriority at h1 hp
    unfold outerStep at h
    simp only [if_neg (not_lt.mpr h0), ge_iff_le, if_neg (not_le.mpr hn),
      if_neg (not_lt.mpr h1), ne_eq, hp, not_false_eq_true, if_true] at h
    split_ifs at h
    all_goals first | exact calls_ne_cons _ _ h | simp at h
  by_cases hmax : currentPriority g d ≤ d.max_prio
  swap
  · exfalso
    unfold scanStop currentPriority at h1 hp hmax
    unfold outerStep at h
    simp only [if_neg (not_lt.mpr h0), ge_iff_le, if_neg (not_le.mpr hn),
      if_neg (not_lt.mpr h1), ne_eq, hp, not_true_eq_false, if_false, gt_iff_lt,
      if_pos (not_le.mp hmax)] at h
    exact calls_ne_cons _ _ h
  have hs := (outerStep_setup E g d h0 hn h1 hp hmax).1
  rw [hs] at h
  simp only [List.cons.injEq, Call.setupRegion.injEq, and_true] at h
  exact ⟨h0, hn, h1, hp, hmax, h.1.symm, h.2.1.symm, h.2.2.symm⟩

theorem innerStep_calls_ne_setup {σ : Type} (E : Engine σ) (g : Game) (trace : Nat)
    (d : Driver σ) (q : Int) (i p : Int) (reset : Bool) :
    (innerStep E g trace d q).d.calls ≠ .setupRegion i p reset :: d.calls := by
  intro h
  unfold innerStep at h
  by_cases ht : trace ≥ 2
  · simp only [ht, if_true] at h
    split_ifs at h <;> (try split at h) <;> simp at h
  · simp only [ht, if_false] at h
    split_ifs at h <;> (try split at h) <;> simp at h

theorem step_calls_setup {σ : Type} (E : Engine σ) (g : Game) (trace : Nat) (c : Config σ)
    (i p : Int) (reset : Bool)
    (h : (step E g trace c).d.calls = .setupRegion i p reset :: c.d.calls) :
    c.pc = .outer ∧ 0 ≤ c.d.i ∧ c.d.i < (g.n_nodes : Int) ∧ 0 ≤ scanStop g c.d ∧
    g.priority (scanStop g c.d).toNat = currentPriority g c.d ∧
    currentPriority g c.d ≤ c.d.max_prio ∧ i = scanStop g c.d ∧
    p = (currentPriority g c.d : Int) ∧
    reset = (resetDecision (currentPriority g c.d) c.d.reset0 c.d.reset1).1 := by
  unfold step at h
  cases hpc : c.pc with
  | outer =>
    rw [hpc] at h
    exact ⟨rfl, outerStep_calls_setup E g c.d i p reset h⟩
  | inner q =>
    rw [hpc] at h
    exact absurd h (innerStep_calls_ne_setup E g trace c.d q i p reset)
  | finished =>
    rw [hpc] at h
    exact absurd h (calls_ne_cons _ _)
  | fault f =>
    rw [hpc] at h
    exact absurd h (calls_ne_cons _ _)

theorem outerStep_thresholds {σ : Type} (E : Engine σ) (g : Game) (d : Driver σ) :
    ((outerStep E g d).d.reset0 = d.reset0 ∧ (outerStep E g d).d.reset1 = d.reset1) ∨
    (∃ i, (outerStep E g d).d.calls =
        .setupRegion i (currentPriority g d)
          (resetDecision (currentPriority g d) d.reset0 d.reset1).1 :: d.calls ∧
      (outerStep E g d).d.reset0 =
        (resetDecision (currentPriority g d) d.reset0 d.reset1).2.1 ∧
      (outerStep E g d).d.reset1 =
        (resetDecision (currentPriority g d) d.reset0 d.reset1).2.2) := by
  unfold currentPriority
  unfold outerStep
  dsimp only
  split_ifs <;> simp

theorem innerStep_thresholds {σ : Type} (E : Engine σ) (g : Game) (trace : Nat)
    (d : Driver σ) (p : Int) :
    ((innerStep E g trace d p).d.reset0 = d.reset0 ∧
      (innerStep E g trace d p).d.reset1 = d.reset1) ∨
    (∃ rest, (innerStep E g trace d p).d.calls = .promote p (statusAt E trace d p) :: rest ∧
      (innerStep E g trace d p).d.reset0 =
        (promoteThresholds (statusAt E trace d p) d.reset0 d.reset1).1 ∧
      (innerStep E g trace d p).d.reset1 =
        (promoteThresholds (statusAt E trace d p) d.reset0 d.reset1).2) := by
  unfold statusAt
  unfold innerStep
  dsimp only
  split_ifs <;> (try split) <;> simp

/-! ## Claims about the thresholds and the scan -/

/-- C11: on a game with zero nodes `run()` does not terminate normally: before the loop
it reads `priority[n_nodes-1]`, which is index -1, so the run is at an out-of-range read
from the start, whatever the engine, and has called no engine operation. -/
theorem zero_node_run_reads_out_of_range {σ : Type} (E : Engine σ) (g : Game) (trace : Nat)
    (data : PPData σ) (fuel : Nat) (h : g.n_nodes = 0) :
    (run E g trace data fuel).pc = .fault .outOfRange ∧
    (run E g trace data fuel).d.calls = [] := by
  have key : ∀ (k : Nat) (c : Config σ), c.pc = .fault .outOfRange →
      runSteps E g trace k c = c := by
    intro k
    induction k with
    | zero => intro c _; rfl
    | succ k ih =>
      intro c hc
      have hstep : step E g trace c = c := by
        unfold step
        rw [hc]
      rw [runSteps, hstep]
      exact ih c hc
  unfold run
  have hinit : (initConfig g data).pc = .fault .outOfRange := by
    unfold initConfig
    rw [if_pos h]
  rw [key fuel _ hinit]
  refine ⟨hinit, ?_⟩
  unfold initConfig
  rw [if_pos h]

theorem zero_node_run_reads_out_of_range_witness :
    (bareGame 0 (fun _ => 0)).n_nodes = 0 ∧
    (run idleEngine (bareGame 0 (fun _ => 0)) 0 blankData 5).pc = .fault .outOfRange ∧
    (run idleEngine (bareGame 0 (fun _ => 0)) 0 blankData 5).d.calls = [] :=
  ⟨rfl, zero_node_run_reads_out_of_range idleEngine (bareGame 0 (fun _ => 0)) 0 blankData 5 rfl⟩

/-- C12, as stated, fails: built with `NDEBUG` defined the constructor performs no check,
so it succeeds on a game whose priorities decrease. -/
theorem unsorted_game_accepted_under_ndebug :
    constructSolver true unsortedGame = true ∧
    ¬ (∀ i, 0 < i → i < unsortedGame.n_nodes →
        unsortedGame.priority (i - 1) ≤ unsortedGame.priority i) := by
  refine ⟨rfl, ?_⟩
  intro h
  have := h 1 (by decide) (by decide)
  revert this
  decide

/-- C12, amended: constructing a solver succeeds if and only if `NDEBUG` is defined or
`priority[i-1] <= priority[i]` for every `i` with `0 < i < n_nodes`. -/
theorem construction_checks_sortedness (ndebug : Bool) (g : Game) :
    constructSolver ndebug g = true ↔
      (ndebug = true ∨
        ∀ i, 0 < i → i < g.n_nodes → g.priority (i - 1) ≤ g.priority i) := by
  cases ndebug with
  | true => simp [constructSolver]
  | false =>
    rw [constructSolver_assertions]
    simp

/-- C13: every step of `run()`, for any engine, leaves both thresholds unchanged, or is a
reset decision at `p` (the threshold of the parity of `p` becomes `p-2`, strictly smaller
than before, the other is unchanged), or is a promotion to `res` (the threshold of the
other parity than `res` becomes the maximum of its old value and `res-1`, the other is
unchanged); no step lowers one threshold and raises the other. -/
theorem reset_monotonicity {σ : Type} (E : Engine σ) (g : Game) (trace : Nat) (c : Config σ) :
    ThresholdChange c (step E g trace c) ∧
    ¬ ((step E g trace c).d.reset0 < c.d.reset0 ∧ c.d.reset1 < (step E g trace c).d.reset1) ∧
    ¬ ((step E g trace c).d.reset1 < c.d.reset1 ∧ c.d.reset0 < (step E g trace c).d.reset0) := by
  have main : ThresholdChange c (step E g trace c) := by
    unfold ThresholdChange
    cases hpc : c.pc with
    | outer =>
      have hstep : step E g trace c = outerStep E g c.d := by
        unfold step
        rw [hpc]
      rw [hstep]
      rcases outerStep_thresholds E g c.d with h | ⟨i, hc, h0, h1⟩
      · exact Or.inl h
      · rcases resetDecision_spec (currentPriority g c.d) c.d.reset0 c.d.reset1 with
          ⟨_, e0, e1, _⟩ | ⟨et, hodd, hle, e1, e0⟩ | ⟨et, hev, hle, e0, e1⟩
        · exact Or.inl ⟨by rw [h0, e0], by rw [h1, e1]⟩
        · refine Or.inr (Or.inl ⟨i, currentPriority g c.d, ?_, Or.inl ⟨hodd, hle, ?_, ?_, ?_⟩⟩)
          · rw [hc, et]
          · rw [h1, e1]
          · rw [h1, e1]; omega
          · rw [h0, e0]
        · refine Or.inr (Or.inl ⟨i, currentPriority g c.d, ?_, Or.inr ⟨hev, hle, ?_, ?_, ?_⟩⟩)
          · rw [hc, et]
          · rw [h0, e0]
          · rw [h0, e0]; omega
          · rw [h1, e1]
    | inner p =>
      have hstep : step E g trace c = innerStep E g trace c.d p := by
        unfold step
        rw [hpc]
      rw [hstep]
      rcases innerStep_thresholds E g trace c.d p with h | ⟨rest, hc, h0, h1⟩
      · exact Or.inl h
      · rcases promoteThresholds_spec (statusAt E trace c.d p) c.d.reset0 c.d.reset1 with
          ⟨hodd, e0, e1⟩ | ⟨hev, e1, e0⟩
        · refine Or.inr (Or.inr ⟨p, statusAt E trace c.d p, rest, rfl, hc,
            Or.inl ⟨hodd, ?_, ?_, ?_⟩⟩)
          · rw [h0, e0]
          · rw [h0, e0]; exact le_max_left _ _
          · rw [h1, e1]
        · refine Or.inr (Or.inr ⟨p, statusAt E trace c.d p, rest, rfl, hc,
            Or.inr ⟨hev, ?_, ?_, ?_⟩⟩)
          · rw [h1, e1]
          · rw [h1, e1]; exact le_max_left _ _
          · rw [h0, e0]
    | finished =>
      have hstep : step E g trace c = c := by
        unfold step
        rw [hpc]
      rw [hstep]
      exact Or.inl ⟨rfl, rfl⟩
    | fault f =>
      have hstep : step E g trace c = c := by
        unfold step
        rw [hpc]
      rw [hstep]
      exact Or.inl ⟨rfl, rfl⟩
  refine ⟨main, ?_, ?_⟩
  · rintro ⟨ha, hb⟩
    rcases main with ⟨e0, e1⟩ | ⟨i, p, _, h | h⟩ | ⟨p, res, rest, _, _, h | h⟩
    · omega
    · omega
    · omega
    · omega
    · omega
  · rintro ⟨ha, hb⟩
    rcases main with ⟨e0, e1⟩ | ⟨i, p, _, h | h⟩ | ⟨p, res, rest, _, _, h | h⟩
    · omega
    · omega
    · omega
    · omega
    · omega

/-- C14: when the outer loop reaches a priority with an unclaimed node (the scan stops at
a node of the current priority `p`), the step calls `setupRegion` at that node; and
whenever a step calls `setupRegion(i, p, reset)`, `reset` is true exactly when the threshold
of the parity of `p` is at least `p` before the step, that threshold equals `p-2` after the
step when `reset` is true, and both thresholds are unchanged when `reset` is false. -/
theorem reset_decision {σ : Type} (E : Engine σ) (g : Game) (trace : Nat) (c : Config σ) :
    (c.pc = .outer → 0 ≤ c.d.i → c.d.i < (g.n_nodes : Int) → 0 ≤ scanStop g c.d →
      g.priority (scanStop g c.d).toNat = currentPriority g c.d →
      currentPriority g c.d ≤ c.d.max_prio →
      ∃ reset, (step E g trace c).d.calls =
        .setupRegion (scanStop g c.d) (currentPriority g c.d) reset :: c.d.calls) ∧
    (∀ (i p : Int) (reset : Bool),
      (step E g trace c).d.calls = .setupRegion i p reset :: c.d.calls →
      (reset = true ↔ thresholdOf c.d p ≥ p) ∧
      (reset = true → thresholdOf (step E g trace c).d p = p - 2) ∧
      (reset = false → (step E g trace c).d.reset0 = c.d.reset0 ∧
        (step E g trace c).d.reset1 = c.d.reset1)) := by
  constructor
  · intro hpc h0 hn h1 hp hmax
    have hstep : step E g trace c = outerStep E g c.d := by
      unfold step
      rw [hpc]
    rw [hstep]
    exact ⟨_, (outerStep_setup E g c.d h0 hn h1 hp hmax).1⟩
  · intro i p reset h
    obtain ⟨hpc, h0, hn, h1, hp, hmax, hi, hpe, hre⟩ := step_calls_setup E g trace c i p reset h
    have hstep : step E g trace c = outerStep E g c.d := by
      unfold step
      rw [hpc]
    obtain ⟨_, e0, e1, _⟩ := outerStep_setup E g c.d h0 hn h1 hp hmax
    unfold thresholdOf
    rw [hstep, e0, e1, hre, hpe]
    rcases resetDecision_spec (currentPriority g c.d) c.d.reset0 c.d.reset1 with
      ⟨et, a0, a1, hnot⟩ | ⟨et, hodd, hle, a1, a0⟩ | ⟨et, hev, hle, a0, a1⟩
    · rw [et, a0, a1]
      refine ⟨?_, ?_, fun _ => ⟨rfl, rfl⟩⟩
      · simp only [Bool.false_eq_true, false_iff]
        exact hnot
      · intro hf
        exact absurd hf (by simp)
    · rw [et, a0, a1, if_pos hodd, if_pos hodd]
      refine ⟨?_, fun _ => rfl, ?_⟩
      · simp only [true_iff]
        exact hle
      · intro hf
        exact absurd hf (by simp)
    · rw [et, a0, a1, if_neg hev, if_neg hev]
      refine ⟨?_, fun _ => rfl, ?_⟩
      · simp only [true_iff]
        exact hle
      · intro hf
        exact absurd hf (by simp)

theorem skipCondition_iff {σ : Type} (g : Game) (data : PPData σ) (p k : Nat) :
    skipCondition g data p k = true ↔
      g.priority k = p ∧ (data.disabled k = true ∨ data.region k > (p : Int)) := by
  unfold skipCondition
  simp

/-- C15, as stated, fails: in the initial state the only node of the one-node game has
`region[0] = priority[0]`, so the claimed rule skips it, but the scan stops there and
`setupRegion(0, 0, false)` is called. -/
theorem unclaimed_node_not_skipped :
    claimedSkipRule oneNodeGame (initConfig oneNodeGame blankData).d.data 0 = true ∧
    scanStop oneNodeGame (initConfig oneNodeGame blankData).d = 0 ∧
    (step idleEngine oneNodeGame 0 (initConfig oneNodeGame blankData)).d.calls =
      [.setupRegion 0 0 false] := by
  decide

/-- C15, amended: scanning the nodes of the current priority `p` downwards, the outer loop
passes over a node exactly when the node is disabled or has `region[i] > priority[i]`
(strictly): every node passed over has priority `p` and is disabled or has a strictly
greater region value, and a node of priority `p` at which the scan stops is enabled with
`region[i] <= priority[i]` and becomes the start index of `setupRegion`. -/
theorem scan_skip_rule {σ : Type} (E : Engine σ) (g : Game) (trace : Nat) (c : Config σ)
    (hpc : c.pc = .outer) (h0 : 0 ≤ c.d.i) (hn : c.d.i < (g.n_nodes : Int)) :
    (∀ k : Nat, scanStop g c.d < (k : Int) → (k : Int) ≤ c.d.i →
      g.priority k = currentPriority g c.d ∧
      (c.d.data.disabled k = true ∨ c.d.data.region k > (g.priority k : Int))) ∧
    (0 ≤ scanStop g c.d → g.priority (scanStop g c.d).toNat = currentPriority g c.d →
      (c.d.data.disabled (scanStop g c.d).toNat = false ∧
        c.d.data.region (scanStop g c.d).toNat ≤ (g.priority (scanStop g c.d).toNat : Int)) ∧
      (currentPriority g c.d ≤ c.d.max_prio →
        ∃ reset, (step E g trace c).d.calls =
          .setupRegion (scanStop g c.d) (currentPriority g c.d) reset :: c.d.calls)) := by
  obtain ⟨_, _, hpass, hstop⟩ :=
    whileDown_spec (skipCondition g c.d.data (currentPriority g c.d)) c.d.i h0
  constructor
  · intro k hk hki
    have := (skipCondition_iff g c.d.data _ k).mp (hpass k hk hki)
    refine ⟨this.1, ?_⟩
    rw [this.1]
    exact this.2
  · intro h1 hp
    constructor
    · have hf := hstop h1
      have hne : ¬ (c.d.data.disabled (scanStop g c.d).toNat = true ∨
          c.d.data.region (scanStop g c.d).toNat > (currentPriority g c.d : Int)) := by
        intro hor
        have := (skipCondition_iff g c.d.data (currentPriority g c.d)
          (scanStop g c.d).toNat).mpr ⟨hp, hor⟩
        unfold scanStop at this
        rw [this] at hf
        exact absurd hf (by simp)
      rw [hp]
      constructor
      · cases hd : c.d.data.disabled (scanStop g c.d).toNat
        · rfl
        · exact absurd (Or.inl hd) hne
      · by_contra hgt
        exact hne (Or.inr (not_le.mp hgt))
    · intro hmax
      have hstep : step E g trace c = outerStep E g c.d := by
        unfold step
        rw [hpc]
      rw [hstep]
      exact ⟨_, (outerStep_setup E g c.d h0 hn h1 hp hmax).1⟩

/-! ## The invariant of the driver -/

theorem inv_terminal {σ : Type} {g : Game} {c c1 : Config σ} (h : DriverInv g c)
    (hpc : c1.pc = .finished ∨ ∃ f, c1.pc = .fault f)
    (hm : c1.d.max_prio = c.d.max_prio) (hi : c1.d.inverse = c.d.inverse) :
    DriverInv g c1 := by
  refine ⟨?_, ?_, ?_, ?_, ?_⟩
  · rw [hm]; exact h.max_prio_eq
  · rw [hi]; exact h.inverse_valid
  · intro ho
    rcases hpc with hf | ⟨f, hf⟩ <;> rw [hf] at ho <;> cases ho
  · intro _ ho
    rcases hpc with hf | ⟨f, hf⟩ <;> rw [hf] at ho <;> cases ho
  · intro p ho
    rcases hpc with hf | ⟨f, hf⟩ <;> rw [hf] at ho <;> cases ho

theorem initConfig_inv {σ : Type} (g : Game) (data : PPData σ) :
    DriverInv g (initConfig g data) := by
  unfold initConfig
  by_cases hn : g.n_nodes = 0
  · rw [if_pos hn]
    refine ⟨fun h => by omega, ?_, ?_, ?_, ?_⟩
    · intro q v h
      simp at h
    · intro h; simp at h
    · intro _ h; simp at h
    · intro p h; simp at h
  · rw [if_neg hn]
    refine ⟨fun _ => rfl, ?_, ?_, ?_, ?_⟩
    · intro q v h
      simp at h
    · intro _
      simp only
      omega
    · intro _ _ _ k hk hkn
      simp only at hk
      omega
    · intro p h; simp at h

theorem outerStep_max_prio {σ : Type} (E : Engine σ) (g : Game) (d : Driver σ) :
    (outerStep E g d).d.max_prio = d.max_prio := by
  unfold outerStep
  dsimp only
  split_ifs <;> rfl

theorem innerStep_max_prio {σ : Type} (E : Engine σ) (g : Game) (trace : Nat) (d : Driver σ)
    (p : Int) : (innerStep E g trace d p).d.max_prio = d.max_prio := by
  unfold innerStep
  dsimp only
  split_ifs <;> (try split) <;> rfl

theorem outerStep_cases {σ : Type} (E : Engine σ) (g : Game) (d : Driver σ) :
    (((outerStep E g d).pc = .finished ∨ ∃ f, (outerStep E g d).pc = .fault f) ∧
      (outerStep E g d).d.inverse = d.inverse) ∨
    ((outerStep E g d).pc = .outer ∧ (outerStep E g d).d.inverse = d.inverse ∧
      0 ≤ d.i ∧ d.i < (g.n_nodes : Int) ∧ 0 ≤ scanStop g d ∧
      g.priority (scanStop g d).toNat ≠ currentPriority g d ∧
      (outerStep E g d).d.i = scanStop g d) ∨
    (0 ≤ d.i ∧ d.i < (g.n_nodes : Int) ∧ 0 ≤ scanStop g d ∧
      g.priority (scanStop g d).toNat = currentPriority g d ∧
      currentPriority g d ≤ d.max_prio) := by
  unfold scanStop currentPriority
  unfold outerStep
  dsimp only
  split_ifs with a b c e f h1 h2 h3
  · left; simp
  · left; simp
  · left; simp
  · left; simp
  · right; left
    exact ⟨rfl, rfl, by omega, by omega, by omega, e, rfl⟩
  · right; left
    exact ⟨rfl, rfl, by omega, by omega, by omega, e, rfl⟩
  · left; simp
  · right; right
    exact ⟨by omega, by omega, by omega, not_not.mp e, by omega⟩
  · right; right
    exact ⟨by omega, by omega, by omega, not_not.mp e, by omega⟩

theorem innerStep_escape {σ : Type} (E : Engine σ) (g : Game) (trace : Nat) (d : Driver σ)
    (p : Int) (hs : statusAt E trace d p = -2) (hn : d.i < (g.n_nodes : Int)) :
    (innerStep E g trace d p).pc = .outer ∧
    (innerStep E g trace d p).d.i =
      whileDown (fun k => decide ((g.priority k : Int) ≥ p)) d.i ∧
    (innerStep E g trace d p).d.inverse = d.inverse ∧
    (innerStep E g trace d p).d.reset0 = d.reset0 ∧
    (innerStep E g trace d p).d.reset1 = d.reset1 ∧
    (innerStep E g trace d p).d.calls =
      .getRegionStatus d.i p ::
        (if trace ≥ 2 then Call.reportRegion p :: d.calls else d.calls) := by
  unfold statusAt at hs
  unfold innerStep
  dsimp only
  rw [if_pos hs, if_neg (by omega)]
  exact ⟨rfl, rfl, rfl, rfl, rfl, rfl⟩

theorem innerStep_dominion {σ : Type} (E : Engine σ) (g : Game) (trace : Nat) (d : Driver σ)
    (p : Int) (hs : statusAt E trace d p = -1) :
    (innerStep E g trace d p).pc = .outer ∧
    (innerStep E g trace d p).d.i = (g.n_nodes : Int) - 1 ∧
    (innerStep E g trace d p).d.inverse = d.inverse ∧
    (innerStep E g trace d p).d.calls =
      .setDominion p :: .getRegionStatus d.i p ::
        (if trace ≥ 2 then Call.reportRegion p :: d.calls else d.calls) := by
  unfold statusAt at hs
  unfold innerStep
  dsimp only
  rw [if_neg (by rw [hs]; decide), if_pos hs]
  exact ⟨rfl, rfl, rfl, rfl⟩

theorem innerStep_promote {σ : Type} (E : Engine σ) (g : Game) (trace : Nat) (d : Driver σ)
    (p : Int) (h2 : statusAt E trace d p ≠ -2) (h1 : statusAt E trace d p ≠ -1) :
    (innerStep E g trace d p).d.inverse = d.inverse ∧
    (innerStep E g trace d p).d.calls =
      .promote p (statusAt E trace d p) :: .getRegionStatus d.i p ::
        (if trace ≥ 2 then Call.reportRegion p :: d.calls else d.calls) ∧
    ((statusAt E trace d p < 0 ∨ statusAt E trace d p > (d.max_prio : Int) →
        (innerStep E g trace d p).pc = .fault .outOfRange) ∧
     (0 ≤ statusAt E trace d p → statusAt E trace d p ≤ (d.max_prio : Int) →
        d.inverse (statusAt E trace d p).toNat = none →
        (innerStep E g trace d p).pc = .fault .uninitialised) ∧
     (∀ v, 0 ≤ statusAt E trace d p → statusAt E trace d p ≤ (d.max_prio : Int) →
        d.inverse (statusAt E trace d p).toNat = some v →
        (innerStep E g trace d p).pc = .inner (statusAt E trace d p) ∧
        (innerStep E g trace d p).d.i = v)) := by
  unfold statusAt at h1 h2 ⊢
  unfold innerStep
  dsimp only
  rw [if_neg h2, if_neg h1]
  by_cases hr : (E.getRegionStatus (if trace ≥ 2 then E.reportRegion d.data p else d.data)
      d.i p).2 < 0 ∨ (E.getRegionStatus (if trace ≥ 2 then E.reportRegion d.data p else d.data)
      d.i p).2 > (d.max_prio : Int)
  · rw [if_pos hr]
    refine ⟨rfl, rfl, fun _ => rfl, ?_, ?_⟩
    · intro a b; omega
    · intro v a b; omega
  · rw [if_neg hr]
    split
    · rename_i heq
      refine ⟨rfl, rfl, fun h => absurd h hr, fun _ _ _ => rfl, ?_⟩
      intro v _ _ hv
      rw [heq] at hv
      cases hv
    · rename_i v heq
      refine ⟨rfl, rfl, fun h => absurd h hr, ?_, ?_⟩
      · intro _ _ hv
        rw [heq] at hv
        cases hv
      · intro w _ _ hv
        rw [heq] at hv
        cases hv
        exact ⟨rfl, rfl⟩

theorem innerStep_fault {σ : Type} (E : Engine σ) (g : Game) (trace : Nat) (d : Driver σ)
    (p : Int) (hs : statusAt E trace d p = -2) (hn : ¬ d.i < (g.n_nodes : Int)) :
    (innerStep E g trace d p).pc = .fault .outOfRange ∧
    (innerStep E g trace d p).d.inverse = d.inverse := by
  unfold statusAt at hs
  unfold innerStep
  dsimp only
  rw [if_pos hs, if_pos (by omega)]
  exact ⟨rfl, rfl⟩

theorem scan_above {σ : Type} {g : Game} {d : Driver σ} (h0 : 0 ≤ d.i)
    (htop : ∀ k : Nat, d.i < (k : Int) → k < g.n_nodes →
      g.priority d.i.toNat < g.priority k) :
    ∀ k : Nat, scanStop g d < (k : Int) → k < g.n_nodes → currentPriority g d ≤ g.priority k := by
  intro k hk hkn
  obtain ⟨_, _, hpass, _⟩ :=
    whileDown_spec (skipCondition g d.data (currentPriority g d)) d.i h0
  by_cases hki : (k : Int) ≤ d.i
  · exact le_of_eq ((skipCondition_iff g d.data _ k).mp (hpass k hk hki)).1.symm
  · exact le_of_lt (htop k (by omega) hkn)

theorem outerStep_inv {σ : Type} (E : Engine σ) (g : Game)
    (c : Config σ) (hpc : c.pc = .outer) (hinv : DriverInv g c) :
    DriverInv g (outerStep E g c.d) := by
  have hr := hinv.outer_range hpc
  have hm := outerStep_max_prio E g c.d
  rcases outerStep_cases E g c.d with ⟨ht, hi⟩ | ⟨ho, hi, h0, hn, h1, hne, hidx⟩ |
      ⟨h0, hn, h1, hp, hmax⟩
  · exact inv_terminal hinv ht hm hi
  · obtain ⟨_, hw2, _, _⟩ :=
      whileDown_spec (skipCondition g c.d.data (currentPriority g c.d)) c.d.i h0
    refine ⟨?_, ?_, ?_, ?_, ?_⟩
    · rw [hm]; exact hinv.max_prio_eq
    · rw [hi]; exact hinv.inverse_valid
    · intro _
      rw [hidx]
      unfold scanStop
      omega
    · intro hs _ _ k hk hkn
      have habove := scan_above h0 (hinv.outer_top hs hpc h0)
      have hlt : g.priority (scanStop g c.d).toNat < currentPriority g c.d := by
        have hle : g.priority (scanStop g c.d).toNat ≤ g.priority c.d.i.toNat :=
          sorted_mono hs c.d.i.toNat (by omega) (scanStop g c.d).toNat (by
            unfold scanStop; omega)
        exact lt_of_le_of_ne hle hne
      rw [hidx] at hk ⊢
      exact lt_of_lt_of_le hlt (habove k hk hkn)
    · intro p hp
      rw [ho] at hp
      cases hp
  · obtain ⟨_, e0, e1, einv, _, _, htrue, hfalse⟩ := outerStep_setup E g c.d h0 hn h1 hp hmax
    obtain ⟨_, hw2, _, _⟩ :=
      whileDown_spec (skipCondition g c.d.data (currentPriority g c.d)) c.d.i h0
    have hw2 : scanStop g c.d ≤ c.d.i := hw2
    have hvalid : ∀ q v, (outerStep E g c.d).d.inverse q = some v →
        0 ≤ v ∧ v < (g.n_nodes : Int) ∧ g.priority v.toNat = q := by
      intro q v hq
      rw [einv] at hq
      by_cases hqp : q = currentPriority g c.d
      · rw [hqp, Function.update_same] at hq
        cases hq
        exact ⟨h1, by omega, by rw [hp, hqp]⟩
      · rw [Function.update_noteq hqp] at hq
        exact hinv.inverse_valid q v hq
    cases hres : (E.setupRegion c.d.data (scanStop g c.d) (currentPriority g c.d)
        (resetDecision (currentPriority g c.d) c.d.reset0 c.d.reset1).1).2
    · obtain ⟨hpc1, hi1⟩ := hfalse hres
      obtain ⟨hv1, hv2, hvpass, hvstop⟩ :=
        whileDown_spec (fun k => decide (g.priority k = currentPriority g c.d))
          (scanStop g c.d) h1
      refine ⟨?_, hvalid, ?_, ?_, ?_⟩
      · rw [hm]; exact hinv.max_prio_eq
      · intro _
        rw [hi1]
        omega
      · intro hs _ hnn k hk hkn
        have habove := scan_above h0 (hinv.outer_top hs hpc h0)
        rw [hi1] at hk hnn ⊢
        have hne : g.priority (whileDown (fun k => decide (g.priority k = currentPriority g c.d))
            (scanStop g c.d)).toNat ≠ currentPriority g c.d := by
          have := hvstop hnn
          simpa using this
        have hle : g.priority (whileDown (fun k => decide (g.priority k = currentPriority g c.d))
            (scanStop g c.d)).toNat ≤ g.priority c.d.i.toNat :=
          sorted_mono hs c.d.i.toNat (by omega) _ (by omega)
        have hlt := lt_of_le_of_ne hle hne
        by_cases hks : (k : Int) ≤ scanStop g c.d
        · have := hvpass k hk hks
          simp only [decide_eq_true_eq] at this
          rw [this]
          exact hlt
        · exact lt_of_lt_of_le hlt (habove k (by omega) hkn)
      · intro p hp1
        rw [hpc1] at hp1
        cases hp1
    · obtain ⟨hpc1, hi1⟩ := htrue hres
      refine ⟨?_, hvalid, ?_, ?_, ?_⟩
      · rw [hm]; exact hinv.max_prio_eq
      · intro ho
        rw [hpc1] at ho
        cases ho
      · intro _ ho
        rw [hpc1] at ho
        cases ho
      · intro p hp1
        rw [hpc1] at hp1
        cases hp1
        rw [hi1, hm]
        refine ⟨h1, by omega, ?_, ?_⟩
        · rw [hp]
        · exact_mod_cast hmax

theorem innerStep_inv {σ : Type} (E : Engine σ) (g : Game) (trace : Nat)
    (c : Config σ) (p : Int) (hpc : c.pc = .inner p)
    (hinv : DriverInv g c) : DriverInv g (innerStep E g trace c.d p) := by
  obtain ⟨h0, hn, hprio, hpmax⟩ := hinv.inner_range p hpc
  have hm := innerStep_max_prio E g trace c.d p
  by_cases h2 : statusAt E trace c.d p = -2
  · obtain ⟨hpc1, hi1, hinv1, _⟩ := innerStep_escape E g trace c.d p h2 hn
    obtain ⟨hw1, hw2, hpass, hstop⟩ :=
      whileDown_spec (fun k => decide ((g.priority k : Int) ≥ p)) c.d.i h0
    refine ⟨?_, ?_, ?_, ?_, ?_⟩
    · rw [hm]; exact hinv.max_prio_eq
    · rw [hinv1]; exact hinv.inverse_valid
    · intro _
      rw [hi1]
      omega
    · intro hs _ hnn k hk hkn
      rw [hi1] at hk hnn ⊢
      have hlt := of_decide_eq_false (hstop hnn)
      have hge : p ≤ (g.priority k : Int) := by
        by_cases hki : (k : Int) ≤ c.d.i
        · exact of_decide_eq_true (hpass k hk hki)
        · have := sorted_mono hs k hkn c.d.i.toNat (by omega)
          omega
      omega
    · intro q hq
      rw [hpc1] at hq
      cases hq
  by_cases h1 : statusAt E trace c.d p = -1
  · obtain ⟨hpc1, hi1, hinv1, _⟩ := innerStep_dominion E g trace c.d p h1
    refine ⟨?_, ?_, ?_, ?_, ?_⟩
    · rw [hm]; exact hinv.max_prio_eq
    · rw [hinv1]; exact hinv.inverse_valid
    · intro _
      rw [hi1]
      omega
    · intro _ _ _ k hk hkn
      rw [hi1] at hk
      omega
    · intro q hq
      rw [hpc1] at hq
      cases hq
  obtain ⟨hinv1, _, hf, hu, hok⟩ := innerStep_promote E g trace c.d p h2 h1
  by_cases hr : statusAt E trace c.d p < 0 ∨ statusAt E trace c.d p > (c.d.max_prio : Int)
  · exact inv_terminal hinv (Or.inr ⟨_, hf hr⟩) hm hinv1
  have hr0 : 0 ≤ statusAt E trace c.d p := by omega
  have hr1 : statusAt E trace c.d p ≤ (c.d.max_prio : Int) := by omega
  cases hv : c.d.inverse (statusAt E trace c.d p).toNat with
  | none => exact inv_terminal hinv (Or.inr ⟨_, hu hr0 hr1 hv⟩) hm hinv1
  | some v =>
    obtain ⟨hpc1, hi1⟩ := hok v hr0 hr1 hv
    obtain ⟨hv0, hvn, hvp⟩ := hinv.inverse_valid _ v hv
    refine ⟨?_, ?_, ?_, ?_, ?_⟩
    · rw [hm]; exact hinv.max_prio_eq
    · rw [hinv1]; exact hinv.inverse_valid
    · intro ho
      rw [hpc1] at ho
      cases ho
    · intro _ ho
      rw [hpc1] at ho
      cases ho
    · intro q hq
      rw [hpc1] at hq
      cases hq
      rw [hi1, hm, hvp]
      exact ⟨hv0, hvn, by omega, hr1⟩

theorem step_inv {σ : Type} (E : Engine σ) (g : Game) (trace : Nat)
    (c : Config σ) (hinv : DriverInv g c) :
    DriverInv g (step E g trace c) := by
  unfold step
  cases hpc : c.pc with
  | outer => exact outerStep_inv E g c hpc hinv
  | inner p => exact innerStep_inv E g trace c p hpc hinv
  | finished => exact hinv
  | fault f => exact hinv

theorem runSteps_inv {σ : Type} (E : Engine σ) (g : Game) (trace : Nat) :
    ∀ (k : Nat) (c : Config σ), DriverInv g c →
    DriverInv g (runSteps E g trace k c) := by
  intro k
  induction k with
  | zero => intro c h; exact h
  | succ k ih =>
    intro c h
    rw [runSteps]
    exact ih _ (step_inv E g trace c h)

theorem reachable_inv {σ : Type} (E : Engine σ) (g : Game) (trace : Nat)
    (c : Config σ) (hr : Reachable E g trace c) :
    DriverInv g c := by
  obtain ⟨data, k, rfl⟩ := hr
  exact runSteps_inv E g trace k _ (initConfig_inv g data)

/-! ## Claims about reachable configurations -/

theorem twoNodeGame_sorted : SortedPriorities twoNodeGame := by
  intro i _
  show i ≤ i + 1
  omega

theorem reset_decision_witness :
    (∃ reset, (step idleEngine twoNodeGame 0 raisedConfig).d.calls =
        .setupRegion (scanStop twoNodeGame raisedConfig.d)
          (currentPriority twoNodeGame raisedConfig.d) reset :: raisedConfig.d.calls) ∧
    (step idleEngine twoNodeGame 0 raisedConfig).d.calls =
      .setupRegion 1 1 true :: raisedConfig.d.calls ∧
    thresholdOf raisedConfig.d 1 ≥ 1 ∧
    thresholdOf (step idleEngine twoNodeGame 0 raisedConfig).d 1 = 1 - 2 :=
  ⟨(reset_decision idleEngine twoNodeGame 0 raisedConfig).1 rfl (by decide) (by decide)
      (by decide) (by decide) (by decide),
    by decide,
    ((reset_decision idleEngine twoNodeGame 0 raisedConfig).2 1 1 true (by decide)).1.mp rfl,
    ((reset_decision idleEngine twoNodeGame 0 raisedConfig).2 1 1 true (by decide)).2.1 rfl⟩

theorem scan_skip_rule_witness :
    (initConfig oneNodeGame blankData).pc = .outer ∧
    ((initConfig oneNodeGame blankData).d.data.disabled
        (scanStop oneNodeGame (initConfig oneNodeGame blankData).d).toNat = false ∧
      (initConfig oneNodeGame blankData).d.data.region
        (scanStop oneNodeGame (initConfig oneNodeGame blankData).d).toNat ≤
        (oneNodeGame.priority
          (scanStop oneNodeGame (initConfig oneNodeGame blankData).d).toNat : Int)) ∧
    (∃ reset, (step idleEngine oneNodeGame 0 (initConfig oneNodeGame blankData)).d.calls =
      .setupRegion (scanStop oneNodeGame (initConfig oneNodeGame blankData).d)
        (currentPriority oneNodeGame (initConfig oneNodeGame blankData).d) reset ::
        (initConfig oneNodeGame blankData).d.calls) :=
  ⟨rfl,
    ((scan_skip_rule idleEngine oneNodeGame 0 (initConfig oneNodeGame blankData) rfl
      (by decide) (by decide)).2 (by decide) (by decide)).1,
    ((scan_skip_rule idleEngine oneNodeGame 0 (initConfig oneNodeGame blankData) rfl
      (by decide) (by decide)).2 (by decide) (by decide)).2 (by decide)⟩

/-- C16: on a game with non-decreasing priorities, when `getRegionStatus` reports an
escape (-2) in the inner loop at priority `p`, the step leaves the inner loop with the scan
index at the greatest index whose priority is less than `p`, or -1 if there is none; the
thresholds are unchanged and the step logs the status query only, so neither `promote` nor
`setDominion` is called. -/
theorem escape_handling {σ : Type} (E : Engine σ) (g : Game) (trace : Nat)
    (hs : SortedPriorities g) (c : Config σ) (hr : Reachable E g trace c) (p : Int)
    (hpc : c.pc = .inner p) (hesc : statusAt E trace c.d p = -2) :
    (step E g trace c).pc = .outer ∧
    GreatestBelow g p (step E g trace c).d.i ∧
    (step E g trace c).d.reset0 = c.d.reset0 ∧
    (step E g trace c).d.reset1 = c.d.reset1 ∧
    (step E g trace c).d.calls =
      .getRegionStatus c.d.i p ::
        (if trace ≥ 2 then Call.reportRegion p :: c.d.calls else c.d.calls) := by
  have hinv := reachable_inv E g trace c hr
  obtain ⟨h0, hn, hprio, _⟩ := hinv.inner_range p hpc
  have hstep : step E g trace c = innerStep E g trace c.d p := by
    unfold step
    rw [hpc]
  obtain ⟨hpc1, hi1, _, e0, e1, hcalls⟩ := innerStep_escape E g trace c.d p hesc hn
  obtain ⟨hw1, hw2, hpass, hstop⟩ :=
    whileDown_spec (fun k => decide ((g.priority k : Int) ≥ p)) c.d.i h0
  rw [hstep]
  refine ⟨hpc1, ?_, e0, e1, hcalls⟩
  rw [hi1]
  refine ⟨hw1, by omega, ?_, ?_⟩
  · intro hnn
    have := of_decide_eq_false (hstop hnn)
    omega
  · intro k hkn hkp
    by_contra hgt
    have hgt : whileDown (fun k => decide ((g.priority k : Int) ≥ p)) c.d.i < (k : Int) := by
      omega
    by_cases hki : (k : Int) ≤ c.d.i
    · have := of_decide_eq_true (hpass k hgt hki)
      omega
    · have := sorted_mono hs k hkn c.d.i.toNat (by omega)
      omega

theorem escape_handling_witness :
    SortedPriorities twoNodeGame ∧
    (run escapeEngine twoNodeGame 0 blankData 1).pc = .inner 1 ∧
    (step escapeEngine twoNodeGame 0 (run escapeEngine twoNodeGame 0 blankData 1)).pc = .outer ∧
    GreatestBelow twoNodeGame 1
      (step escapeEngine twoNodeGame 0 (run escapeEngine twoNodeGame 0 blankData 1)).d.i :=
  ⟨twoNodeGame_sorted, rfl,
    (escape_handling escapeEngine twoNodeGame 0 twoNodeGame_sorted
      (run escapeEngine twoNodeGame 0 blankData 1) ⟨blankData, 1, rfl⟩ 1 rfl rfl).1,
    (escape_handling escapeEngine twoNodeGame 0 twoNodeGame_sorted
      (run escapeEngine twoNodeGame 0 blankData 1) ⟨blankData, 1, rfl⟩ 1 rfl rfl).2.1⟩

/-- C18: on a game with non-decreasing priorities, every time a step of `run()` calls
`setupRegion(i, p, reset)`, node `i` has priority `p`, is enabled and has `region[i] <= p`,
`inverse[p]` is `i` after the step, and every node of priority `p` above `i` is disabled or
has a region value strictly greater than `p`. -/
theorem setup_start_index {σ : Type} (E : Engine σ) (g : Game) (trace : Nat)
    (hs : SortedPriorities g) (c : Config σ) (hr : Reachable E g trace c)
    (i p : Int) (reset : Bool)
    (hcall : (step E g trace c).d.calls = .setupRegion i p reset :: c.d.calls) :
    0 ≤ i ∧ i < (g.n_nodes : Int) ∧ (g.priority i.toNat : Int) = p ∧
    c.d.data.disabled i.toNat = false ∧ c.d.data.region i.toNat ≤ p ∧
    (step E g trace c).d.inverse p.toNat = some i ∧
    ∀ k : Nat, i < (k : Int) → k < g.n_nodes → (g.priority k : Int) = p →
      (c.d.data.disabled k = true ∨ c.d.data.region k > p) := by
  have hinv := reachable_inv E g trace c hr
  obtain ⟨hpc, h0, hn, h1, hp, hmax, hi, hpe, _⟩ := step_calls_setup E g trace c i p reset hcall
  have hstep : step E g trace c = outerStep E g c.d := by
    unfold step
    rw [hpc]
  obtain ⟨_, _, _, einv, _⟩ := outerStep_setup E g c.d h0 hn h1 hp hmax
  obtain ⟨_, hw2, hpass, hstop⟩ :=
    whileDown_spec (skipCondition g c.d.data (currentPriority g c.d)) c.d.i h0
  have hw2 : scanStop g c.d ≤ c.d.i := hw2
  have hne : ¬ (c.d.data.disabled (scanStop g c.d).toNat = true ∨
      c.d.data.region (scanStop g c.d).toNat > (currentPriority g c.d : Int)) := by
    intro hor
    have := (skipCondition_iff g c.d.data (currentPriority g c.d)
      (scanStop g c.d).toNat).mpr ⟨hp, hor⟩
    have hf := hstop h1
    unfold scanStop at this
    rw [this] at hf
    exact absurd hf (by simp)
  rw [hstep, einv, hi, hpe]
  refine ⟨h1, by omega, by rw [hp], ?_, ?_, ?_, ?_⟩
  · cases hd : c.d.data.disabled (scanStop g c.d).toNat
    · rfl
    · exact absurd (Or.inl hd) hne
  · by_contra hgt
    exact hne (Or.inr (not_le.mp hgt))
  · rw [Int.toNat_ofNat, Function.update_same]
  · intro k hk hkn hkp
    have hkp : g.priority k = currentPriority g c.d := by exact_mod_cast hkp
    by_cases hki : (k : Int) ≤ c.d.i
    · exact ((skipCondition_iff g c.d.data _ k).mp (hpass k hk hki)).2
    · have := hinv.outer_top hs hpc h0 k (by omega) hkn
      unfold currentPriority at hkp
      omega

theorem setup_start_index_witness :
    SortedPriorities twoNodeGame ∧
    (step idleEngine twoNodeGame 0 (run idleEngine twoNodeGame 0 blankData 1)).d.calls =
      .setupRegion 0 0 false :: (run idleEngine twoNodeGame 0 blankData 1).d.calls ∧
    (0 : Int) ≤ 0 ∧ (0 : Int) < (twoNodeGame.n_nodes : Int) ∧
    (twoNodeGame.priority (0 : Int).toNat : Int) = 0 ∧
    (run idleEngine twoNodeGame 0 blankData 1).d.data.disabled (0 : Int).toNat = false ∧
    (run idleEngine twoNodeGame 0 blankData 1).d.data.region (0 : Int).toNat ≤ 0 ∧
    (step idleEngine twoNodeGame 0
      (run idleEngine twoNodeGame 0 blankData 1)).d.inverse (0 : Int).toNat = some 0 :=
  ⟨twoNodeGame_sorted, by decide,
    (setup_start_index idleEngine twoNodeGame 0 twoNodeGame_sorted
      (run idleEngine twoNodeGame 0 blankData 1) ⟨blankData, 1, rfl⟩ 0 0 false (by decide)).1,
    (setup_start_index idleEngine twoNodeGame 0 twoNodeGame_sorted
      (run idleEngine twoNodeGame 0 blankData 1) ⟨blankData, 1, rfl⟩ 0 0 false (by decide)).2.1,
    (setup_start_index idleEngine twoNodeGame 0 twoNodeGame_sorted
      (run idleEngine twoNodeGame 0 blankData 1) ⟨blankData, 1, rfl⟩ 0 0 false (by decide)).2.2.1,
    (setup_start_index idleEngine twoNodeGame 0 twoNodeGame_sorted
      (run idleEngine twoNodeGame 0 blankData 1) ⟨blankData, 1, rfl⟩ 0 0 false
      (by decide)).2.2.2.1,
    (setup_start_index idleEngine twoNodeGame 0 twoNodeGame_sorted
      (run idleEngine twoNodeGame 0 blankData 1) ⟨blankData, 1, rfl⟩ 0 0 false
      (by decide)).2.2.2.2.1,
    (setup_start_index idleEngine twoNodeGame 0 twoNodeGame_sorted
      (run idleEngine twoNodeGame 0 blankData 1) ⟨blankData, 1, rfl⟩ 0 0 false
      (by decide)).2.2.2.2.2.1⟩

/-! ## The promotion chain -/

theorem promoteCount_status (trace : Nat) (i p : Int) (l : List Call) :
    promoteCount (.getRegionStatus i p ::
      (if trace ≥ 2 then Call.reportRegion p :: l else l)) = promoteCount l := by
  split_ifs <;> rfl

theorem chain_escape {σ : Type} (E : Engine σ) (g : Game) (trace : Nat) (c : Config σ)
    (p : Int) (hinv : DriverInv g c) (hpc : c.pc = .inner p)
    (hesc : statusAt E trace c.d p = -2) : ChainEndsAfter E g trace c p 0 p := by
  obtain ⟨h0, hn, _, _⟩ := hinv.inner_range p hpc
  have hstep : step E g trace c = innerStep E g trace c.d p := by
    unfold step
    rw [hpc]
  obtain ⟨hpc1, hi1, _, _, _, hcalls⟩ := innerStep_escape E g trace c.d p hesc hn
  obtain ⟨hw1, _, _, hstop⟩ :=
    whileDown_spec (fun k => decide ((g.priority k : Int) ≥ p)) c.d.i h0
  refine ⟨?_, hpc, rfl, Or.inl ⟨rfl, rfl⟩, ?_, ?_, Or.inr ⟨hesc, ?_, ?_⟩⟩
  · intro j hj
    have : j = 0 := by omega
    rw [this]
    exact ⟨p, hpc⟩
  · show (step E g trace c).pc = .outer
    rw [hstep]
    exact hpc1
  · show promoteCount (step E g trace c).d.calls = promoteCount c.d.calls + 0
    rw [hstep, hcalls, promoteCount_status]
    rfl
  · show -1 ≤ (step E g trace c).d.i
    rw [hstep, hi1]
    exact hw1
  · show 0 ≤ (step E g trace c).d.i → (g.priority (step E g trace c).d.i.toNat : Int) < p
    rw [hstep, hi1]
    intro hnn
    have := of_decide_eq_false (hstop hnn)
    omega

theorem chain_dominion {σ : Type} (E : Engine σ) (g : Game) (trace : Nat) (c : Config σ)
    (p : Int) (hpc : c.pc = .inner p)
    (hdom : statusAt E trace c.d p = -1) : ChainEndsAfter E g trace c p 0 p := by
  have hstep : step E g trace c = innerStep E g trace c.d p := by
    unfold step
    rw [hpc]
  obtain ⟨hpc1, hi1, _, hcalls⟩ := innerStep_dominion E g trace c.d p hdom
  refine ⟨?_, hpc, rfl, Or.inl ⟨rfl, rfl⟩, ?_, ?_, Or.inl ⟨hdom, ?_⟩⟩
  · intro j hj
    have : j = 0 := by omega
    rw [this]
    exact ⟨p, hpc⟩
  · show (step E g trace c).pc = .outer
    rw [hstep]
    exact hpc1
  · show promoteCount (step E g trace c).d.calls = promoteCount c.d.calls + 0
    rw [hstep, hcalls]
    show promoteCount (.getRegionStatus c.d.i p ::
      (if trace ≥ 2 then Call.reportRegion p :: c.d.calls else c.d.calls)) = _
    rw [promoteCount_status]
    rfl
  · show (step E g trace c).d.i = (g.n_nodes : Int) - 1
    rw [hstep]
    exact hi1

theorem chain_promote {σ : Type} (E : Engine σ) (g : Game) (trace : Nat) (c : Config σ)
    (p res : Int) (k : Nat) (q : Int) (hpc : c.pc = .inner p)
    (hcalls : ∃ rest, (step E g trace c).d.calls = .promote p res :: rest ∧
      promoteCount rest = promoteCount c.d.calls)
    (h : ChainEndsAfter E g trace (step E g trace c) res k q) :
    ChainEndsAfter E g trace c p (k + 1) q := by
  obtain ⟨hall, hq, hcount, hlast, hout, hcount1, hend⟩ := h
  obtain ⟨rest, hrest, hrc⟩ := hcalls
  have hc1 : promoteCount (step E g trace c).d.calls = promoteCount c.d.calls + 1 := by
    rw [hrest]
    show promoteCount rest + 1 = _
    rw [hrc]
  refine ⟨?_, hq, ?_, Or.inr ?_, hout, ?_, hend⟩
  · intro j hj
    cases j with
    | zero => exact ⟨p, hpc⟩
    | succ j => exact hall j (by omega)
  · show promoteCount (runSteps E g trace k (step E g trace c)).d.calls = _
    rw [hcount, hc1]
    omega
  · rcases hlast with ⟨hk0, hqr⟩ | ⟨q0, rest1, h1⟩
    · refine ⟨p, rest, ?_⟩
      show (runSteps E g trace k (step E g trace c)).d.calls = _
      rw [hk0, hqr]
      exact hrest
    · exact ⟨q0, rest1, h1⟩
  · show promoteCount (step E g trace (runSteps E g trace k (step E g trace c))).d.calls = _
    rw [hcount1, hc1]
    omega

theorem chainTargets_step {σ : Type} (E : Engine σ) (g : Game) (trace : Nat) (c : Config σ)
    (p : Int) (hpc : c.pc = .inner p)
    (hm : (step E g trace c).d.max_prio = c.d.max_prio)
    (hi : (step E g trace c).d.inverse = c.d.inverse)
    (hrange : ChainTargetsInRange E g trace c) (hvis : ChainTargetsVisited E g trace c) :
    ChainTargetsInRange E g trace (step E g trace c) ∧
    ChainTargetsVisited E g trace (step E g trace c) := by
  have hpre : ∀ j, (∀ m, m ≤ j → ∃ qm, (runSteps E g trace m (step E g trace c)).pc = .inner qm) →
      ∀ m, m ≤ j + 1 → ∃ qm, (runSteps E g trace m c).pc = .inner qm := by
    intro j h m hmj
    cases m with
    | zero => exact ⟨p, hpc⟩
    | succ m => exact h m (by omega)
  constructor
  · intro j q hall hq h1 h2
    rw [hm]
    exact hrange (j + 1) q (hpre j hall) hq h1 h2
  · intro j q hall hq h1 h2
    rw [hi]
    exact hvis (j + 1) q (hpre j hall) hq h1 h2

theorem chain_aux {σ : Type} (E : Engine σ) (g : Game) (trace : Nat) :
    ∀ (m : Nat) (c : Config σ) (p : Int), DriverInv g c → c.pc = .inner p →
      ChainTargetsInRange E g trace c → ChainTargetsVisited E g trace c →
      ((c.d.max_prio : Int) - p).toNat ≤ m →
      ∃ (k : Nat) (q : Int), (k : Int) ≤ (c.d.max_prio : Int) - p ∧
        ChainEndsAfter E g trace c p k q := by
  intro m
  induction m using Nat.strong_induction_on with
  | _ m ih =>
    intro c p hinv hpc hrange hvis hm
    obtain ⟨h0, hn, _, hpmax⟩ := hinv.inner_range p hpc
    by_cases h2 : statusAt E trace c.d p = -2
    · exact ⟨0, p, by omega, chain_escape E g trace c p hinv hpc h2⟩
    by_cases h1 : statusAt E trace c.d p = -1
    · exact ⟨0, p, by omega, chain_dominion E g trace c p hpc h1⟩
    have hstep : step E g trace c = innerStep E g trace c.d p := by
      unfold step
      rw [hpc]
    have hall0 : ∀ m, m ≤ 0 → ∃ qm, (runSteps E g trace m c).pc = .inner qm := by
      intro m hm0
      have : m = 0 := by omega
      rw [this]
      exact ⟨p, hpc⟩
    obtain ⟨hlt, hle⟩ := hrange 0 p hall0 hpc h1 h2
    have hsome := hvis 0 p hall0 hpc h1 h2
    change p < statusAt E trace c.d p at hlt
    change statusAt E trace c.d p ≤ (c.d.max_prio : Int) at hle
    change (c.d.inverse (statusAt E trace c.d p).toNat).isSome = true at hsome
    obtain ⟨v, hv⟩ := Option.isSome_iff_exists.mp hsome
    obtain ⟨hinv1, hcalls, _, _, hok⟩ := innerStep_promote E g trace c.d p h2 h1
    obtain ⟨hpc1, _⟩ := hok v (by omega) hle hv
    have hm1 := innerStep_max_prio E g trace c.d p
    have hI := step_inv E g trace c hinv
    obtain ⟨hrange1, hvis1⟩ := chainTargets_step E g trace c p hpc
      (by rw [hstep]; exact hm1) (by rw [hstep]; exact hinv1) hrange hvis
    rw [hstep] at hI hrange1 hvis1
    have hrec := ih (((c.d.max_prio : Int) - statusAt E trace c.d p).toNat) (by omega)
      (innerStep E g trace c.d p) (statusAt E trace c.d p) hI hpc1 hrange1 hvis1
      (by rw [hm1])
    obtain ⟨k, q, hk, hchain⟩ := hrec
    rw [hm1] at hk
    refine ⟨k + 1, q, by push_cast; omega, ?_⟩
    refine chain_promote E g trace c p (statusAt E trace c.d p) k q hpc ?_ ?_
    · rw [hstep]
      exact ⟨_, hcalls, promoteCount_status trace c.d.i p c.d.calls⟩
    · rw [hstep]; exact hchain

theorem gapGame_chainTargets :
    ChainTargetsInRange strayEngine gapGame 0 (run strayEngine gapGame 0 blankData 2) := by
  intro j q hall hq h1 h2
  cases j with
  | zero =>
    have hq0 : (run strayEngine gapGame 0 blankData 2).pc = .inner 0 := by decide
    have : q = 0 := by
      have h := hq
      change (run strayEngine gapGame 0 blankData 2).pc = .inner q at h
      rw [hq0] at h
      cases h
      rfl
    subst this
    decide
  | succ j =>
    exfalso
    obtain ⟨qm, hqm⟩ := hall 1 (by omega)
    have hf : (runSteps strayEngine gapGame 0 1
        (run strayEngine gapGame 0 blankData 2)).pc = .fault .uninitialised := by decide
    rw [hf] at hqm
    cases hqm

/-- C17, as stated, fails: on the game with priorities 0 and 2, the engine whose region of
priority 0 promotes to priority 1 returns, during the inner loop, only targets above the
current priority and at most `max_prio = 2`, but no region was ever set up at priority 1, so
after the promotion the inner loop reads the never-written cell `inverse[1]` and ends
neither in a dominion nor in an escape. -/
theorem promotion_to_unvisited_priority :
    ChainTargetsInRange strayEngine gapGame 0 (run strayEngine gapGame 0 blankData 2) ∧
    (run strayEngine gapGame 0 blankData 2).pc = .inner 0 ∧
    (run strayEngine gapGame 0 blankData 3).pc = .fault .uninitialised ∧
    ¬ ∃ (k : Nat) (q : Int),
      ChainEndsAfter strayEngine gapGame 0 (run strayEngine gapGame 0 blankData 2) 0 k q := by
  refine ⟨gapGame_chainTargets, by decide, by decide, ?_⟩
  rintro ⟨k, q, hall, _, _, _, hout, _⟩
  cases k with
  | zero =>
    revert hout
    decide
  | succ k =>
    obtain ⟨qj, hj⟩ := hall 1 (by omega)
    have hf : (runSteps strayEngine gapGame 0 1
        (run strayEngine gapGame 0 blankData 2)).pc = .fault .uninitialised := by decide
    rw [hf] at hj
    cases hj

/-- C17, amended: if every promotion target `res` that `getRegionStatus` returns during the
inner loop entered at priority `p` lies strictly above the priority current at that call
and is at most `max_prio`, and the cell `inverse[res]` has been written, the inner loop
performs at most `max_prio - p` promotions and then ends in one of two ways: a dominion,
after which the scan index is `n_nodes-1`, or an escape, after which the scan index is -1
or at a node of priority below the last promoted-to priority. -/
theorem promotion_chain_ends {σ : Type} (E : Engine σ) (g : Game) (trace : Nat)
    (c : Config σ) (hr : Reachable E g trace c) (p : Int) (hpc : c.pc = .inner p)
    (hrange : ChainTargetsInRange E g trace c) (hvis : ChainTargetsVisited E g trace c) :
    ∃ (k : Nat) (q : Int), (k : Int) ≤ (c.d.max_prio : Int) - p ∧
      ChainEndsAfter E g trace c p k q :=
  chain_aux E g trace _ c p (reachable_inv E g trace c hr) hpc hrange hvis (le_refl _)

theorem twoNodeGame_chainTargets :
    ChainTargetsInRange strayEngine twoNodeGame 0 (run strayEngine twoNodeGame 0 blankData 2) ∧
    ChainTargetsVisited strayEngine twoNodeGame 0
      (run strayEngine twoNodeGame 0 blankData 2) := by
  have hq0 : (run strayEngine twoNodeGame 0 blankData 2).pc = .inner 0 := by decide
  have hq1 : (runSteps strayEngine twoNodeGame 0 1
      (run strayEngine twoNodeGame 0 blankData 2)).pc = .inner 1 := by decide
  have hq2 : (runSteps strayEngine twoNodeGame 0 2
      (run strayEngine twoNodeGame 0 blankData 2)).pc = .outer := by decide
  have key : ∀ (j : Nat) (q : Int),
      (∀ m, m ≤ j → ∃ qm, (runSteps strayEngine twoNodeGame 0 m
        (run strayEngine twoNodeGame 0 blankData 2)).pc = .inner qm) →
      (runSteps strayEngine twoNodeGame 0 j
        (run strayEngine twoNodeGame 0 blankData 2)).pc = .inner q →
      statusAt strayEngine 0 (runSteps strayEngine twoNodeGame 0 j
        (run strayEngine twoNodeGame 0 blankData 2)).d q ≠ -2 →
      j = 0 ∧ q = 0 := by
    intro j q hall hq h2
    match j with
    | 0 =>
      change (run strayEngine twoNodeGame 0 blankData 2).pc = .inner q at hq
      rw [hq0] at hq
      cases hq
      exact ⟨rfl, rfl⟩
    | 1 =>
      exfalso
      rw [hq1] at hq
      cases hq
      revert h2
      decide
    | j + 2 =>
      exfalso
      obtain ⟨qm, hqm⟩ := hall 2 (by omega)
      rw [hq2] at hqm
      cases hqm
  constructor
  · intro j q hall hq _ h2
    obtain ⟨rfl, rfl⟩ := key j q hall hq h2
    decide
  · intro j q hall hq _ h2
    obtain ⟨rfl, rfl⟩ := key j q hall hq h2
    decide

theorem promotion_chain_ends_witness :
    (run strayEngine twoNodeGame 0 blankData 2).pc = .inner 0 ∧
    ∃ (k : Nat) (q : Int),
      (k : Int) ≤ ((run strayEngine twoNodeGame 0 blankData 2).d.max_prio : Int) - 0 ∧
      ChainEndsAfter strayEngine twoNodeGame 0 (run strayEngine twoNodeGame 0 blankData 2)
        0 k q :=
  ⟨rfl, promotion_chain_ends strayEngine twoNodeGame 0
    (run strayEngine twoNodeGame 0 blankData 2) ⟨blankData, 2, rfl⟩ 0 rfl
    twoNodeGame_chainTargets.1 twoNodeGame_chainTargets.2⟩

end pg

